import Mathlib

/-!
# BusTub: extendible hash table and LRU-K replacer

A shallow embedding of `src/container/hash/extendible_hash_table.cpp` and
`src/buffer/lru_k_replacer.cpp`, followed by theorems about the embedded code.

Conventions of the embedding.

* A `std::shared_ptr<Bucket>` is an address into a bucket store (`heap_`); the
  directory `dir_` is a list of such addresses, so that aliased directory slots
  really share one bucket. `std::make_shared` allocates at the end of the store.
* `std::hash<K>()(key)` is a parameter `hash : K → Nat`.
* The masks `(1 << d) - 1` are computed in 32-bit `int`. They are exact for
  `d ≤ 30`; the model reports `Outcome.overflow` where the code would evaluate
  `(1 << d) - 1` with `d ≥ 31` during a split.
* The recursion of `InsertInternal` is driven by an explicit recursion budget;
  `Outcome.fuel` means that the budget ran out, not that the code returned.
* The latches are not modelled: every public operation holds the latch for its
  whole duration, so operations are atomic state transformers.
* A node of one of the replacer's `std::list`s has an address; the
  `unordered_map`s store these addresses as iterators. `frame_id_t` is `Int`,
  `size_t` counters are `Nat`.
* Operations of the replacer that can hit `BUSTUB_ASSERT` return a `Result`;
  a failed call reports the state the replacer object is in when the assertion
  fires, so that the statements executed before it are visible.
-/

namespace bustub

set_option linter.unusedSectionVars false
set_option linter.unusedVariables false

/-! ## Extendible hash table: data model -/

/-- Result of a call that may not return normally. -/
inductive Outcome (α : Type) where
  | done (a : α)
  | overflow
  | fuel
  deriving DecidableEq, Repr

/-- The class `ExtendibleHashTable::Bucket`: capacity `size_`, local depth
`depth_` and the entries `list_` in insertion order. -/
structure Bucket (K V : Type) where
  size_ : Nat
  depth_ : Nat
  list_ : List (K × V)
  deriving DecidableEq, Repr

/-- The class `ExtendibleHashTable`. `heap_` is the store that the shared
pointers of `dir_` point into. -/
structure ExtendibleHashTable (K V : Type) where
  global_depth_ : Nat
  bucket_size_ : Nat
  num_buckets_ : Nat
  dir_ : List Nat
  heap_ : List (Bucket K V)
  deriving DecidableEq, Repr

section HashTable

variable {K V : Type} [DecidableEq K]

/-- The loop of `Bucket::Find`: the value of the first entry whose key matches. -/
def findItems (key : K) : List (K × V) → Option V
  | [] => none
  | (k, v) :: rest => if k = key then some v else findItems key rest

/-- The loop of `Bucket::Remove`: erase the first entry whose key matches;
`none` when the loop runs off the end. -/
def removeItems (key : K) : List (K × V) → Option (List (K × V))
  | [] => none
  | (k, v) :: rest =>
    if k = key then some rest
    else match removeItems key rest with
      | some rest' => some ((k, v) :: rest')
      | none => none

/-- The first loop of `Bucket::Insert`: overwrite the value of the first entry
whose key matches; `none` when the loop runs off the end. -/
def overwriteItems (key : K) (value : V) : List (K × V) → Option (List (K × V))
  | [] => none
  | (k, v) :: rest =>
    if k = key then some ((k, value) :: rest)
    else match overwriteItems key value rest with
      | some rest' => some ((k, v) :: rest')
      | none => none

/-- Modelled from the spec: `Bucket::IsFull` is declared in the header, which is
not part of the sources; a bucket "holds up to `bucket_size` key/value pairs",
so it is full when the number of entries equals `size_`. -/
def Bucket.IsFull (b : Bucket K V) : Bool :=
  decide (b.list_.length = b.size_)

/-- Modelled from the spec: the accessor `Bucket::GetDepth` of the header, which
is not among the sources; it returns the bucket's `local_depth`. -/
def Bucket.GetDepth (b : Bucket K V) : Nat := b.depth_

/-- Modelled from the spec: the accessor `Bucket::GetItems` of the header; it
gives access to the bucket's key/value pairs. -/
def Bucket.GetItems (b : Bucket K V) : List (K × V) := b.list_

/-- The method `Bucket::Find`. -/
def Bucket.Find (b : Bucket K V) (key : K) : Option V :=
  findItems key b.list_

/-- The method `Bucket::Remove`: the returned flag and the bucket afterwards. -/
def Bucket.Remove (b : Bucket K V) (key : K) : Bool × Bucket K V :=
  match removeItems key b.list_ with
  | some l => (true, { b with list_ := l })
  | none => (false, b)

/-- The method `Bucket::Insert`: the returned flag and the bucket afterwards. -/
def Bucket.Insert (b : Bucket K V) (key : K) (value : V) : Bool × Bucket K V :=
  match overwriteItems key value b.list_ with
  | some l => (true, { b with list_ := l })
  | none =>
    if b.IsFull then (false, b)
    else (true, { b with list_ := b.list_ ++ [(key, value)] })

/-- The constructor `ExtendibleHashTable(bucket_size)`: global depth 0 and one
empty bucket of depth 0 referenced by the single directory slot. -/
def ExtendibleHashTable.new (bucket_size : Nat) : ExtendibleHashTable K V :=
  { global_depth_ := 0, bucket_size_ := bucket_size, num_buckets_ := 1,
    dir_ := [0], heap_ := [{ size_ := bucket_size, depth_ := 0, list_ := [] }] }

/-- Dereference a bucket pointer. Every pointer held by the directory of a
reachable table is valid (`WF.ptr_lt`); the default is never used there. -/
def ExtendibleHashTable.deref (t : ExtendibleHashTable K V) (p : Nat) : Bucket K V :=
  t.heap_.getD p { size_ := 0, depth_ := 0, list_ := [] }

/-- The expression `dir_[i]`. On reachable tables the directory has
`2 ^ global_depth_` slots (`WF.dir_len`), so every index `IndexOf` computes is
in range and the default is never used. -/
def ExtendibleHashTable.slot (t : ExtendibleHashTable K V) (i : Nat) : Nat :=
  t.dir_.getD i 0

/-- The table after the bucket at address `p` has been mutated in place to `b`
(every directory slot holding `p` sees the change). -/
def ExtendibleHashTable.store (t : ExtendibleHashTable K V) (p : Nat) (b : Bucket K V) :
    ExtendibleHashTable K V :=
  { t with heap_ := t.heap_.set p b }

/-- The method `IndexOf`: the low `global_depth_` bits of the hash. The `int`
mask is exact for `global_depth_ ≤ 30`, which holds on every reachable table
(`WF.gd_le`). -/
def IndexOf (hash : K → Nat) (t : ExtendibleHashTable K V) (key : K) : Nat :=
  let mask := (1 <<< t.global_depth_) - 1
  hash key &&& mask

/-- The method `GetGlobalDepth`. -/
def GetGlobalDepth (t : ExtendibleHashTable K V) : Nat := t.global_depth_

/-- The method `GetLocalDepth`. -/
def GetLocalDepth (t : ExtendibleHashTable K V) (dir_index : Nat) : Nat :=
  (t.deref (t.slot dir_index)).GetDepth

/-- The method `GetNumBuckets`. -/
def GetNumBuckets (t : ExtendibleHashTable K V) : Nat := t.num_buckets_

/-- The method `Find`. -/
def Find (hash : K → Nat) (t : ExtendibleHashTable K V) (key : K) : Option V :=
  let index := IndexOf hash t key
  (t.deref (t.slot index)).Find key

/-- The method `Remove`: the returned flag and the table afterwards. -/
def Remove (hash : K → Nat) (t : ExtendibleHashTable K V) (key : K) :
    Bool × ExtendibleHashTable K V :=
  let index := IndexOf hash t key
  let p := t.slot index
  let r := (t.deref p).Remove key
  (r.1, t.store p r.2)

/-- Lines 119-127 of `InsertInternal`: when the overflowing bucket's depth
equals the global depth, increment the global depth and double the directory,
copying slot `i` to slot `i + capacity`. -/
def growDirectory (t : ExtendibleHashTable K V) (bucket : Bucket K V) :
    ExtendibleHashTable K V :=
  if t.global_depth_ = bucket.GetDepth then
    { t with global_depth_ := t.global_depth_ + 1, dir_ := t.dir_ ++ t.dir_ }
  else t

/-- Lines 129-158 of `InsertInternal`, run on the table after `growDirectory`:
allocate the two buckets of depth `new_depth`, distribute the entries of the
overflowing bucket over them, re-point the directory and count the new bucket.
`index` is the directory index computed before the directory grew. -/
def splitBucket (hash : K → Nat) (t : ExtendibleHashTable K V) (bucket : Bucket K V)
    (index : Nat) : ExtendibleHashTable K V :=
  let new_depth := bucket.GetDepth + 1
  let base_mask := (1 <<< bucket.GetDepth) - 1
  let split_mask := (1 <<< new_depth) - 1
  let first_bucket := t.heap_.length
  let second_bucket := t.heap_.length + 1
  let low_index := index &&& base_mask
  let first_items := bucket.GetItems.filter
    (fun ele => decide ((IndexOf hash t ele.1 &&& split_mask) = low_index))
  let second_items := bucket.GetItems.filter
    (fun ele => !decide ((IndexOf hash t ele.1 &&& split_mask) = low_index))
  let dir := (List.range t.dir_.length).map (fun i =>
    if (i &&& base_mask) = low_index then
      if (i &&& split_mask) = low_index then first_bucket else second_bucket
    else t.slot i)
  { t with
    dir_ := dir
    heap_ := t.heap_ ++ [{ size_ := t.bucket_size_, depth_ := new_depth, list_ := first_items },
                         { size_ := t.bucket_size_, depth_ := new_depth, list_ := second_items }]
    num_buckets_ := t.num_buckets_ + 1 }

/-- The local variable `bucket` of `InsertInternal`: the bucket that `key`
addresses. -/
def keyBucket (hash : K → Nat) (t : ExtendibleHashTable K V) (key : K) : Bucket K V :=
  t.deref (t.slot (IndexOf hash t key))

/-- Lines 119-158 of `InsertInternal` for the key `key`: the table on which the
recursive call at line 160 runs. -/
def splitStep (hash : K → Nat) (t : ExtendibleHashTable K V) (key : K) :
    ExtendibleHashTable K V :=
  let index := IndexOf hash t key
  let bucket := t.deref (t.slot index)
  splitBucket hash (growDirectory t bucket) bucket index

/-- The method `InsertInternal`. The first argument bounds the depth of the
recursion. `Outcome.overflow` is returned where `split_mask = (1 << new_depth) - 1`
would be evaluated in `int` with `new_depth ≥ 31`. -/
def InsertInternal (hash : K → Nat) :
    Nat → ExtendibleHashTable K V → K → V → Outcome (ExtendibleHashTable K V)
  | 0, _, _, _ => Outcome.fuel
  | n + 1, t, key, value =>
    let index := IndexOf hash t key
    let p := t.slot index
    let bucket := t.deref p
    let res := bucket.Insert key value
    if res.1 then Outcome.done (t.store p res.2)
    else if 31 ≤ bucket.GetDepth + 1 then Outcome.overflow
    else InsertInternal hash n (splitStep hash t key) key value

/-- The method `Insert`. -/
def Insert (hash : K → Nat) (fuel : Nat) (t : ExtendibleHashTable K V) (key : K) (value : V) :
    Outcome (ExtendibleHashTable K V) :=
  InsertInternal hash fuel t key value

/-- Tables reachable from a new table of bucket size `bs` by completed `Insert`
calls and `Remove` calls. -/
inductive Reachable (hash : K → Nat) (bs : Nat) : ExtendibleHashTable K V → Prop
  | new : Reachable hash bs (ExtendibleHashTable.new bs)
  | insert {t t' : ExtendibleHashTable K V} {key : K} {value : V} {fuel : Nat} :
      Reachable hash bs t → Insert hash fuel t key value = Outcome.done t' →
      Reachable hash bs t'
  | remove {t : ExtendibleHashTable K V} (key : K) :
      Reachable hash bs t → Reachable hash bs (Remove hash t key).2

end HashTable

/-- The total number of stored entries: the entries of the distinct buckets
that the directory references. -/
def numEntries {K V : Type} (t : ExtendibleHashTable K V) : Nat :=
  ((t.dir_.dedup).map (fun p => (t.deref p).list_.length)).sum

/-- Example: bucket size 2, identity hash, after `Insert(0, 10)` and
`Insert(2, 20)`: one full bucket of depth 0. -/
def exampleFull : ExtendibleHashTable Nat Nat :=
  { global_depth_ := 0, bucket_size_ := 2, num_buckets_ := 1, dir_ := [0],
    heap_ := [{ size_ := 2, depth_ := 0, list_ := [(0, 10), (2, 20)] }] }

/-- Example: `exampleFull` after `Insert(4, 40)`, which splits twice and
doubles the directory twice. -/
def exampleSplit : ExtendibleHashTable Nat Nat :=
  { global_depth_ := 2, bucket_size_ := 2, num_buckets_ := 3, dir_ := [3, 2, 4, 2],
    heap_ := [{ size_ := 2, depth_ := 0, list_ := [(0, 10), (2, 20)] },
              { size_ := 2, depth_ := 1, list_ := [(0, 10), (2, 20)] },
              { size_ := 2, depth_ := 1, list_ := [] },
              { size_ := 2, depth_ := 2, list_ := [(0, 10), (4, 40)] },
              { size_ := 2, depth_ := 2, list_ := [(2, 20)] }] }

/-- Example: bucket size 1 after `Insert(0, 5)`: one full bucket of depth 0. -/
def exampleOne : ExtendibleHashTable Nat Nat :=
  { global_depth_ := 0, bucket_size_ := 1, num_buckets_ := 1, dir_ := [0],
    heap_ := [{ size_ := 1, depth_ := 0, list_ := [(0, 5)] }] }

/-- Example with keys in `Fin 8`: bucket size 1 after `Insert(0, 5)`. -/
def exampleFin : ExtendibleHashTable (Fin 8) Nat :=
  { global_depth_ := 0, bucket_size_ := 1, num_buckets_ := 1, dir_ := [0],
    heap_ := [{ size_ := 1, depth_ := 0, list_ := [(0, 5)] }] }

/-- Structural invariant of the tables the public operations produce. For a
directory index `i`, the bucket `dir_[i]` has depth at most the global depth,
is shared by exactly the indices that agree with `i` on the low `depth_` bits,
holds only keys whose hash agrees with `i` on these bits, holds no key twice
and holds at most `bucket_size_` entries. -/
structure WF {K V : Type} (hash : K → Nat) (t : ExtendibleHashTable K V) : Prop where
  gd_le : t.global_depth_ ≤ 30
  dir_len : t.dir_.length = 2 ^ t.global_depth_
  ptr_lt : ∀ i, i < 2 ^ t.global_depth_ → t.slot i < t.heap_.length
  depth_le : ∀ i, i < 2 ^ t.global_depth_ → (t.deref (t.slot i)).depth_ ≤ t.global_depth_
  shared : ∀ i j, i < 2 ^ t.global_depth_ → j < 2 ^ t.global_depth_ →
    (t.slot j = t.slot i ↔
      j % 2 ^ (t.deref (t.slot i)).depth_ = i % 2 ^ (t.deref (t.slot i)).depth_)
  placed : ∀ i, i < 2 ^ t.global_depth_ → ∀ e ∈ (t.deref (t.slot i)).list_,
    hash e.1 % 2 ^ (t.deref (t.slot i)).depth_ = i % 2 ^ (t.deref (t.slot i)).depth_
  nodup : ∀ i, i < 2 ^ t.global_depth_ → ((t.deref (t.slot i)).list_.map Prod.fst).Nodup
  size_eq : ∀ i, i < 2 ^ t.global_depth_ → (t.deref (t.slot i)).size_ = t.bucket_size_
  cap : ∀ i, i < 2 ^ t.global_depth_ → (t.deref (t.slot i)).list_.length ≤ t.bucket_size_

/-! ## LRU-K replacer: data model -/

/-- The class `LRUKReplacer::FrameInfo`. -/
structure FrameInfo where
  frame_id_ : Int
  times_ : Nat
  evictable_ : Bool
  deriving DecidableEq, Repr

/-- The constructor `FrameInfo(frame_id)`. -/
def FrameInfo.new (frame_id : Int) : FrameInfo :=
  { frame_id_ := frame_id, times_ := 0, evictable_ := true }

/-- Modelled from the spec: the accessor `FrameInfo::IsEvicatable` of the header,
which is not among the sources; it returns the record's `evictable` flag. -/
def FrameInfo.IsEvicatable (r : FrameInfo) : Bool := r.evictable_

/-- Modelled from the spec: the accessor `FrameInfo::GetId` of the header; it
returns the record's `frame_id`. -/
def FrameInfo.GetId (r : FrameInfo) : Int := r.frame_id_

/-- Modelled from the spec: the accessor `FrameInfo::GetTimes` of the header; it
returns the record's access counter `times`. -/
def FrameInfo.GetTimes (r : FrameInfo) : Nat := r.times_

/-- Modelled from the spec: the mutator `FrameInfo::IncreaseTimes` of the header;
it increments the access counter. -/
def FrameInfo.IncreaseTimes (r : FrameInfo) : FrameInfo := { r with times_ := r.times_ + 1 }

/-- Modelled from the spec: the mutator `FrameInfo::SetEvictable` of the header;
it sets the evictable flag. -/
def FrameInfo.SetEvictable (r : FrameInfo) (set_evictable : Bool) : FrameInfo :=
  { r with evictable_ := set_evictable }

/-- A node of a `std::list<std::unique_ptr<FrameInfo>>`: its address, which is
what a list iterator stored in one of the maps designates, and the record. -/
abbrev Node := Nat × FrameInfo

/-- A `std::unordered_map<frame_id_t, std::list<...>::iterator>` as an
association list with at most one entry per key. -/
abbrev IterMap := List (Int × Nat)

/-- The class `LRUKReplacer`. `temp_pool_` is the cold set, `cache_pool_` the
hot set; `fresh_` is the address the next allocated list node receives. -/
structure LRUKReplacer where
  replacer_size_ : Nat
  k_ : Nat
  temp_pool_ : List Node
  temp_map_ : IterMap
  cache_pool_ : List Node
  cache_map_ : IterMap
  fresh_ : Nat
  deriving DecidableEq, Repr

/-- Ways in which a replacer call does not return normally. -/
inductive Fault where
  | assertion
  | invalidIterator
  deriving DecidableEq, Repr

/-- Result of a replacer call that may fail: `ok a` when the call returns,
`fault e a` when it ends in the failure `e`, where `a` is the state of the
replacer object at the moment of the failure. -/
inductive Result (α : Type) where
  | ok (a : α)
  | fault (e : Fault) (a : α)
  deriving DecidableEq, Repr

/-- Map lookup `m.count(key) != 0` together with `m[key]`. -/
def mapFind (key : Int) : IterMap → Option Nat
  | [] => none
  | (k, it) :: rest => if k = key then some it else mapFind key rest

/-- The call `m.erase(key)`. -/
def mapErase (key : Int) (m : IterMap) : IterMap :=
  m.filter (fun e => !decide (e.1 = key))

/-- The assignment `m[key] = it`. -/
def mapAssign (key : Int) (it : Nat) : IterMap → IterMap
  | [] => [(key, it)]
  | (k, i) :: rest => if k = key then (k, it) :: rest else (k, i) :: mapAssign key it rest

/-- Dereference `*iter` in a pool; `none` for an iterator that designates no
node of the pool. -/
def nodeAt (it : Nat) : List Node → Option FrameInfo
  | [] => none
  | (a, r) :: rest => if a = it then some r else nodeAt it rest

/-- The call `pool.erase(iter)`. -/
def eraseNode (it : Nat) : List Node → List Node
  | [] => []
  | (a, r) :: rest => if a = it then rest else (a, r) :: eraseNode it rest

/-- In-place update of the record held by the node `iter` designates. -/
def updateNode (it : Nat) (f : FrameInfo → FrameInfo) : List Node → List Node
  | [] => []
  | (a, r) :: rest => if a = it then (a, f r) :: rest else (a, r) :: updateNode it f rest

/-- The constructor `LRUKReplacer(num_frames, k)`. -/
def LRUKReplacer.new (num_frames k : Nat) : LRUKReplacer :=
  { replacer_size_ := num_frames, k_ := k, temp_pool_ := [], temp_map_ := [],
    cache_pool_ := [], cache_map_ := [], fresh_ := 0 }

/-- One of the two scanning loops of `Evict`: the frame id of the first node
whose record is evictable, and the pool with that node erased. -/
def evictScan : List Node → Option (Int × List Node)
  | [] => none
  | n :: rest =>
    if n.2.IsEvicatable then some (n.2.GetId, rest)
    else match evictScan rest with
      | some (f, rest') => some (f, n :: rest')
      | none => none

/-- The method `Evict`: the victim, if any, and the replacer afterwards. -/
def Evict (s : LRUKReplacer) : Option Int × LRUKReplacer :=
  match evictScan s.temp_pool_ with
  | some (f, pool) => (some f, { s with temp_pool_ := pool, temp_map_ := mapErase f s.temp_map_ })
  | none =>
    match evictScan s.cache_pool_ with
    | some (f, pool) =>
      (some f, { s with cache_pool_ := pool, cache_map_ := mapErase f s.cache_map_ })
    | none => (none, s)

/-- The conversion `(int)replacer_size_` of a `size_t` to a 32-bit `int`. -/
def castInt (n : Nat) : Int :=
  if n % 2 ^ 32 < 2 ^ 31 then ((n % 2 ^ 32 : Nat) : Int) else ((n % 2 ^ 32 : Nat) : Int) - 2 ^ 32

/-- The method `RecordAccess`. The macro `BUSTUB_ASSERT` is defined outside the
sources; following the spec it is a fatal assertion, here `Fault.assertion`.
Dereferencing an iterator that designates no node of the pool is
`Fault.invalidIterator`. -/
def RecordAccess (s : LRUKReplacer) (frame_id : Int) : Result LRUKReplacer :=
  if ¬ frame_id ≤ castInt s.replacer_size_ then Result.fault Fault.assertion s
  else match mapFind frame_id s.cache_map_ with
    | some iter =>
      match nodeAt iter s.cache_pool_ with
      | none => Result.fault Fault.invalidIterator s
      | some r =>
        Result.ok { s with
          cache_pool_ := eraseNode iter (s.cache_pool_ ++ [(s.fresh_, r)])
          cache_map_ := mapAssign frame_id s.fresh_ s.cache_map_
          fresh_ := s.fresh_ + 1 }
    | none =>
      match mapFind frame_id s.temp_map_ with
      | some iter =>
        match nodeAt iter s.temp_pool_ with
        | none => Result.fault Fault.invalidIterator s
        | some r =>
          let r' := r.IncreaseTimes
          if s.k_ ≤ r'.GetTimes then
            Result.ok { s with
              cache_pool_ := s.cache_pool_ ++ [(s.fresh_, r')]
              cache_map_ := mapAssign frame_id s.fresh_ s.cache_map_
              temp_pool_ := eraseNode iter s.temp_pool_
              temp_map_ := mapErase frame_id s.temp_map_
              fresh_ := s.fresh_ + 1 }
          else
            Result.ok { s with temp_pool_ := updateNode iter (fun _ => r') s.temp_pool_ }
      | none =>
        let frame_ptr := (FrameInfo.new frame_id).IncreaseTimes
        Result.ok { s with
          temp_pool_ := s.temp_pool_ ++ [(s.fresh_, frame_ptr)]
          temp_map_ := mapAssign frame_id s.fresh_ s.temp_map_
          fresh_ := s.fresh_ + 1 }

/-- The method `SetEvictable`. -/
def SetEvictable (s : LRUKReplacer) (frame_id : Int) (set_evictable : Bool) :
    Result LRUKReplacer :=
  if ¬ frame_id ≤ castInt s.replacer_size_ then Result.fault Fault.assertion s
  else match mapFind frame_id s.temp_map_ with
    | some iter =>
      match nodeAt iter s.temp_pool_ with
      | none => Result.fault Fault.invalidIterator s
      | some _ =>
        Result.ok { s with
          temp_pool_ := updateNode iter (fun r => r.SetEvictable set_evictable) s.temp_pool_ }
    | none =>
      match mapFind frame_id s.cache_map_ with
      | some iter =>
        match nodeAt iter s.cache_pool_ with
        | none => Result.fault Fault.invalidIterator s
        | some _ =>
          Result.ok { s with
            cache_pool_ := updateNode iter (fun r => r.SetEvictable set_evictable) s.cache_pool_ }
      | none => Result.ok s

/-- The method `Remove` of the replacer. In both branches `BUSTUB_ASSERT` (lines
116 and 124) comes before the two `erase` calls, so the state reported with
`Fault.assertion` is the state the call started in. -/
def LRUKReplacer.Remove (s : LRUKReplacer) (frame_id : Int) : Result LRUKReplacer :=
  match mapFind frame_id s.temp_map_ with
  | some iter =>
    match nodeAt iter s.temp_pool_ with
    | none => Result.fault Fault.invalidIterator s
    | some r =>
      if ¬ r.IsEvicatable then Result.fault Fault.assertion s
      else Result.ok { s with
        temp_pool_ := eraseNode iter s.temp_pool_
        temp_map_ := mapErase frame_id s.temp_map_ }
  | none =>
    match mapFind frame_id s.cache_map_ with
    | some iter =>
      match nodeAt iter s.cache_pool_ with
      | none => Result.fault Fault.invalidIterator s
      | some r =>
        if ¬ r.IsEvicatable then Result.fault Fault.assertion s
        else Result.ok { s with
          cache_pool_ := eraseNode iter s.cache_pool_
          cache_map_ := mapErase frame_id s.cache_map_ }
    | none => Result.ok s

/-- The method `Size`: the number of evictable records of both pools. -/
def Size (s : LRUKReplacer) : Nat :=
  (s.cache_pool_.filter (fun n => n.2.IsEvicatable)).length +
    (s.temp_pool_.filter (fun n => n.2.IsEvicatable)).length

/-- Replacer states reachable from a new replacer by calls that return. -/
inductive LRUKReplacer.Reachable (num_frames k : Nat) : LRUKReplacer → Prop
  | new : LRUKReplacer.Reachable num_frames k (LRUKReplacer.new num_frames k)
  | recordAccess {s s' : LRUKReplacer} {frame_id : Int} :
      LRUKReplacer.Reachable num_frames k s → RecordAccess s frame_id = Result.ok s' →
      LRUKReplacer.Reachable num_frames k s'
  | setEvictable {s s' : LRUKReplacer} {frame_id : Int} {flag : Bool} :
      LRUKReplacer.Reachable num_frames k s → SetEvictable s frame_id flag = Result.ok s' →
      LRUKReplacer.Reachable num_frames k s'
  | remove {s s' : LRUKReplacer} {frame_id : Int} :
      LRUKReplacer.Reachable num_frames k s → s.Remove frame_id = Result.ok s' →
      LRUKReplacer.Reachable num_frames k s'
  | evict {s : LRUKReplacer} :
      LRUKReplacer.Reachable num_frames k s → LRUKReplacer.Reachable num_frames k (Evict s).2

/-- A sequence of `RecordAccess` calls, stopping at the first call that fails. -/
def accessAll : LRUKReplacer → List Int → Result LRUKReplacer
  | s, [] => Result.ok s
  | s, f :: rest =>
    match RecordAccess s f with
    | Result.ok s' => accessAll s' rest
    | Result.fault e s' => Result.fault e s'

/-- Reference definition for the claim about `k = 1`, following the spec's words
"pure LRU": from the accesses listed most recent first, the tracked frames
ordered by their most recent access, most recent first. -/
def lruOrder : List Int → List Int
  | [] => []
  | f :: rest => f :: (lruOrder rest).filter (fun g => !decide (g = f))

/-- Reference definition: the frame that a pure LRU policy evicts after the
given accesses (oldest access first in the list), namely the tracked frame
whose most recent access is the oldest. -/
def lruVictim (accesses : List Int) : Option Int :=
  (lruOrder accesses.reverse).getLast?

/-- Invariant of two pools with their index maps: the list nodes have distinct
addresses below `fresh`, every frame id has at most one record in the two
pools together, and each map sends exactly the frame ids of its pool to the
node holding that frame's record. -/
structure PoolInv (pool other : List Node) (map omap : IterMap) (fresh : Nat) : Prop where
  addr_nodup : ((pool ++ other).map Prod.fst).Nodup
  addr_lt : ∀ n ∈ pool ++ other, n.1 < fresh
  id_nodup : ((pool ++ other).map (fun n => n.2.frame_id_)).Nodup
  map_spec : ∀ f a, mapFind f map = some a ↔ ∃ r, (a, r) ∈ pool ∧ r.frame_id_ = f
  omap_spec : ∀ f a, mapFind f omap = some a ↔ ∃ r, (a, r) ∈ other ∧ r.frame_id_ = f

/-- Structural invariant of the replacer states the public operations produce. -/
def ReplacerInv (s : LRUKReplacer) : Prop :=
  PoolInv s.temp_pool_ s.cache_pool_ s.temp_map_ s.cache_map_ s.fresh_

/-- Example state with `k = 2`: frame 1 cold and pinned, frame 2 cold and
evictable, frame 3 hot and evictable. -/
def exampleReplacer : LRUKReplacer :=
  { replacer_size_ := 7, k_ := 2,
    temp_pool_ := [(0, { frame_id_ := 1, times_ := 1, evictable_ := false }),
                   (1, { frame_id_ := 2, times_ := 1, evictable_ := true })],
    temp_map_ := [(1, 0), (2, 1)],
    cache_pool_ := [(3, { frame_id_ := 3, times_ := 2, evictable_ := true })],
    cache_map_ := [(3, 3)],
    fresh_ := 4 }

/-- Example state with `k = 2` in which every tracked frame is pinned. -/
def examplePinned : LRUKReplacer :=
  { replacer_size_ := 7, k_ := 2,
    temp_pool_ := [(0, { frame_id_ := 1, times_ := 1, evictable_ := false })],
    temp_map_ := [(1, 0)],
    cache_pool_ := [(2, { frame_id_ := 3, times_ := 2, evictable_ := false })],
    cache_map_ := [(3, 2)],
    fresh_ := 3 }

/-- The state with `k = 2` after accessing frames 1, 2, 3 on a new replacer. -/
def scenarioCold : LRUKReplacer :=
  { replacer_size_ := 7, k_ := 2,
    temp_pool_ := [(0, { frame_id_ := 1, times_ := 1, evictable_ := true }),
                   (1, { frame_id_ := 2, times_ := 1, evictable_ := true }),
                   (2, { frame_id_ := 3, times_ := 1, evictable_ := true })],
    temp_map_ := [(1, 0), (2, 1), (3, 2)],
    cache_pool_ := [], cache_map_ := [], fresh_ := 3 }

/-- The state reached from `scenarioCold` by `Evict` and then accessing frame 2. -/
def scenarioPromoted : LRUKReplacer :=
  { replacer_size_ := 7, k_ := 2,
    temp_pool_ := [(2, { frame_id_ := 3, times_ := 1, evictable_ := true })],
    temp_map_ := [(3, 2)],
    cache_pool_ := [(3, { frame_id_ := 2, times_ := 2, evictable_ := true })],
    cache_map_ := [(2, 3)], fresh_ := 4 }

/-- The state with `k = 1` after one access of frame 1 on a new replacer. -/
def scenarioFirstAccess : LRUKReplacer :=
  { replacer_size_ := 7, k_ := 1,
    temp_pool_ := [(0, { frame_id_ := 1, times_ := 1, evictable_ := true })],
    temp_map_ := [(1, 0)],
    cache_pool_ := [], cache_map_ := [], fresh_ := 1 }

/-- The state with `k = 1` after accessing frames 1, 1, 2 on a new replacer. -/
def scenarioRecency : LRUKReplacer :=
  { replacer_size_ := 7, k_ := 1,
    temp_pool_ := [(2, { frame_id_ := 2, times_ := 1, evictable_ := true })],
    temp_map_ := [(2, 2)],
    cache_pool_ := [(1, { frame_id_ := 1, times_ := 2, evictable_ := true })],
    cache_map_ := [(1, 1)], fresh_ := 3 }

/-- Example: bucket size 2, identity hash, after `Insert(0, 10)`. -/
def exampleFirst : ExtendibleHashTable Nat Nat :=
  { global_depth_ := 0, bucket_size_ := 2, num_buckets_ := 1, dir_ := [0],
    heap_ := [{ size_ := 2, depth_ := 0, list_ := [(0, 10)] }] }

/-- The table of bucket size 2 at global depth 0 whose single bucket holds the
given entries. -/
def singleBucket {K V : Type} (l : List (K × V)) : ExtendibleHashTable K V :=
  { global_depth_ := 0, bucket_size_ := 2, num_buckets_ := 1, dir_ := [0],
    heap_ := [{ size_ := 2, depth_ := 0, list_ := l }] }

/-- Facts about the replacer states reachable from `LRUKReplacer(num_frames, k)`:
the structural invariant, the constructor parameters, every tracked frame id
passes the range assertion, every hot record has at least `k` accesses, and a
cold record has fewer than `k` accesses unless it has exactly one. -/
structure ReplacerFacts (num_frames k : Nat) (s : LRUKReplacer) : Prop where
  inv : ReplacerInv s
  size_eq : s.replacer_size_ = num_frames
  k_eq : s.k_ = k
  in_range : ∀ n ∈ s.temp_pool_ ++ s.cache_pool_, n.2.frame_id_ ≤ castInt num_frames
  hot_counter : ∀ n ∈ s.cache_pool_, k ≤ n.2.times_
  cold_counter : ∀ n ∈ s.temp_pool_, n.2.times_ < k ∨ n.2.times_ = 1

/-- The records of a pool, front to back, without the node addresses. -/
def records (pool : List Node) : List FrameInfo := pool.map Prod.snd

/-- Reference definition of `RecordAccess` following the spec's three cases, on
the records of the cold and the hot set: a hot record moves to the back of the
hot set unchanged; a cold record has its counter incremented and, if the new
counter reaches `k` (is at least `k`, the condition under which the data model
places a record in the hot set), leaves the cold set for the back of the hot
set, otherwise stays in place; an untracked frame gets a record with counter 1
and evictable flag set at the back of the cold set. -/
def recordAccessSpec (k : Nat) (cold hot : List FrameInfo) (f : Int) :
    List FrameInfo × List FrameInfo :=
  match hot.find? (fun q => decide (q.frame_id_ = f)) with
  | some r => (cold, hot.filter (fun q => !decide (q.frame_id_ = f)) ++ [r])
  | none =>
    match cold.find? (fun q => decide (q.frame_id_ = f)) with
    | some r =>
      if k ≤ r.times_ + 1 then
        (cold.filter (fun q => !decide (q.frame_id_ = f)),
          hot ++ [{ r with times_ := r.times_ + 1 }])
      else
        (cold.map (fun q => if q.frame_id_ = f then { q with times_ := q.times_ + 1 } else q),
          hot)
    | none => (cold ++ [{ frame_id_ := f, times_ := 1, evictable_ := true }], hot)

/-! ## Arithmetic of masks -/

section Masks

theorem land_mask (x d : Nat) : x &&& ((1 <<< d) - 1) = x % 2 ^ d := by
  rw [Nat.one_shiftLeft, Nat.and_pow_two_sub_one_eq_mod]

theorem mod_mod_pow (x : Nat) {d g : Nat} (h : d ≤ g) : (x % 2 ^ g) % 2 ^ d = x % 2 ^ d :=
  Nat.mod_mod_of_dvd x (Nat.pow_dvd_pow 2 h)

theorem mod_succ_cases (x d : Nat) :
    x % 2 ^ (d + 1) = x % 2 ^ d ∨ x % 2 ^ (d + 1) = x % 2 ^ d + 2 ^ d := by
  rw [Nat.mod_pow_succ]
  rcases Nat.mod_two_eq_zero_or_one (x / 2 ^ d) with h | h <;> simp [h]

theorem mod_succ_eq_iff {x y d : Nat} (h : x % 2 ^ d = y % 2 ^ d) :
    x % 2 ^ (d + 1) = y % 2 ^ (d + 1) ↔
      (x % 2 ^ (d + 1) = x % 2 ^ d ↔ y % 2 ^ (d + 1) = y % 2 ^ d) := by
  have hp : 0 < 2 ^ d := Nat.pos_pow_of_pos d (by decide)
  rcases mod_succ_cases x d with hx | hx <;> rcases mod_succ_cases y d with hy | hy <;>
    constructor <;> intro h' <;> omega

theorem mod_succ_ne {x y d : Nat} (h : x % 2 ^ d ≠ y % 2 ^ d) :
    x % 2 ^ (d + 1) ≠ y % 2 ^ (d + 1) := by
  intro h'
  apply h
  rw [← mod_mod_pow x (Nat.le_succ d), ← mod_mod_pow y (Nat.le_succ d), h']

end Masks

/-! ## The loops over a bucket's entries -/

section Items

variable {K V : Type} [DecidableEq K]

theorem findItems_eq_none_iff (key : K) (l : List (K × V)) :
    findItems key l = none ↔ key ∉ l.map Prod.fst := by
  induction l with
  | nil => simp [findItems]
  | cons e rest ih =>
    obtain ⟨k, v⟩ := e
    by_cases h : k = key
    · simp [findItems, h]
    · simp [findItems, h, ih, Ne.symm h]

theorem findItems_mem {key : K} {v : V} {l : List (K × V)} (h : findItems key l = some v) :
    (key, v) ∈ l := by
  induction l with
  | nil => simp [findItems] at h
  | cons e rest ih =>
    obtain ⟨k, w⟩ := e
    by_cases hk : k = key
    · simp [findItems, hk] at h
      simp [hk, h]
    · simp [findItems, hk] at h
      exact List.mem_cons_of_mem _ (ih h)

theorem overwriteItems_eq_none_iff (key : K) (value : V) (l : List (K × V)) :
    overwriteItems key value l = none ↔ findItems key l = none := by
  induction l with
  | nil => simp [overwriteItems, findItems]
  | cons e rest ih =>
    obtain ⟨k, v⟩ := e
    by_cases h : k = key
    · simp [overwriteItems, findItems, h]
    · simp only [overwriteItems, findItems, h, if_false]
      rw [← ih]
      cases overwriteItems key value rest <;> simp

theorem overwriteItems_spec {key : K} {value : V} {l l' : List (K × V)}
    (h : overwriteItems key value l = some l') :
    findItems key l' = some value ∧ l'.map Prod.fst = l.map Prod.fst ∧
      l'.length = l.length ∧ ∀ k', k' ≠ key → findItems k' l' = findItems k' l := by
  induction l generalizing l' with
  | nil => simp [overwriteItems] at h
  | cons e rest ih =>
    obtain ⟨k, v⟩ := e
    by_cases hk : k = key
    · simp only [overwriteItems, hk, if_true, Option.some.injEq] at h
      subst h
      refine ⟨by simp [findItems], by simp [hk], by simp, ?_⟩
      intro k' hk'
      simp [findItems, hk, Ne.symm hk']
    · simp only [overwriteItems, hk, if_false] at h
      cases hr : overwriteItems key value rest with
      | none => simp [hr] at h
      | some r =>
        simp only [hr, Option.some.injEq] at h
        subst h
        obtain ⟨h1, h2, h3, h4⟩ := ih hr
        refine ⟨by simp [findItems, hk, h1], by simp [h2], by simp [h3], ?_⟩
        intro k' hk'
        simp [findItems, h4 k' hk']

theorem findItems_append_self {key : K} (value : V) {l : List (K × V)}
    (h : findItems key l = none) : findItems key (l ++ [(key, value)]) = some value := by
  induction l with
  | nil => simp [findItems]
  | cons e rest ih =>
    obtain ⟨k, v⟩ := e
    by_cases hk : k = key
    · simp [findItems, hk] at h
    · simp only [findItems, hk, if_false] at h
      simp [findItems, hk, ih h]

theorem findItems_append_other {key k' : K} (value : V) (l : List (K × V)) (h : k' ≠ key) :
    findItems k' (l ++ [(key, value)]) = findItems k' l := by
  induction l with
  | nil => simp [findItems, Ne.symm h]
  | cons e rest ih =>
    obtain ⟨k, v⟩ := e
    by_cases hk : k = k' <;> simp [findItems, hk, ih]

theorem removeItems_eq_none_iff (key : K) (l : List (K × V)) :
    removeItems key l = none ↔ findItems key l = none := by
  induction l with
  | nil => simp [removeItems, findItems]
  | cons e rest ih =>
    obtain ⟨k, v⟩ := e
    by_cases h : k = key
    · simp [removeItems, findItems, h]
    · simp only [removeItems, findItems, h, if_false]
      rw [← ih]
      cases removeItems key rest <;> simp

theorem removeItems_spec {key : K} {l l' : List (K × V)} (h : removeItems key l = some l') :
    l'.Sublist l ∧ l'.length + 1 = l.length ∧
      (∀ k', k' ≠ key → findItems k' l' = findItems k' l) ∧
      ((l.map Prod.fst).Nodup → findItems key l' = none) := by
  induction l generalizing l' with
  | nil => simp [removeItems] at h
  | cons e rest ih =>
    obtain ⟨k, v⟩ := e
    by_cases hk : k = key
    · simp only [removeItems, hk, if_true, Option.some.injEq] at h
      subst h
      refine ⟨List.sublist_cons_self _ _, by simp, ?_, ?_⟩
      · intro k' hk'
        simp [findItems, hk, Ne.symm hk']
      · intro hnd
        rw [findItems_eq_none_iff]
        simp only [List.map_cons, List.nodup_cons] at hnd
        rw [← hk]
        exact hnd.1
    · simp only [removeItems, hk, if_false] at h
      cases hr : removeItems key rest with
      | none => simp [hr] at h
      | some r =>
        simp only [hr, Option.some.injEq] at h
        subst h
        obtain ⟨h1, h2, h3, h4⟩ := ih hr
        refine ⟨h1.cons₂ _, by simp [h2], ?_, ?_⟩
        · intro k' hk'
          simp [findItems, h3 k' hk']
        · intro hnd
          simp only [List.map_cons, List.nodup_cons] at hnd
          simp [findItems, hk, h4 hnd.2]

theorem findItems_filter (key : K) (p : K × V → Bool) (l : List (K × V))
    (h : ∀ e ∈ l, e.1 = key → p e = true) :
    findItems key (l.filter p) = findItems key l := by
  induction l with
  | nil => simp [findItems]
  | cons e rest ih =>
    obtain ⟨k, v⟩ := e
    have ih' := ih (fun e he => h e (List.mem_cons_of_mem _ he))
    by_cases hk : k = key
    · have := h (k, v) (List.mem_cons_self _ _) hk
      rw [List.filter_cons_of_pos this]
      simp [findItems, hk]
    · cases hp : p (k, v)
      · rw [List.filter_cons_of_neg (by simp [hp])]
        simp [findItems, hk, ih']
      · rw [List.filter_cons_of_pos hp]
        simp [findItems, hk, ih']

end Items

/-! ## Structural invariant of the hash table -/

section Invariant

variable {K V : Type} [DecidableEq K]

theorem IndexOf_eq (hash : K → Nat) (t : ExtendibleHashTable K V) (key : K) :
    IndexOf hash t key = hash key % 2 ^ t.global_depth_ := by
  simp [IndexOf, land_mask]

theorem IndexOf_lt (hash : K → Nat) (t : ExtendibleHashTable K V) (key : K) :
    IndexOf hash t key < 2 ^ t.global_depth_ := by
  rw [IndexOf_eq]
  exact Nat.mod_lt _ (Nat.pos_pow_of_pos _ (by decide))

theorem deref_store (t : ExtendibleHashTable K V) (p q : Nat) (b : Bucket K V)
    (hp : p < t.heap_.length) :
    (t.store p b).deref q = if q = p then b else t.deref q := by
  unfold ExtendibleHashTable.store ExtendibleHashTable.deref
  simp only [List.getD_eq_getElem?_getD, List.getElem?_set]
  by_cases h : q = p
  · subst h
    simp [hp]
  · simp [h, Ne.symm h]

theorem slot_store (t : ExtendibleHashTable K V) (p i : Nat) (b : Bucket K V) :
    (t.store p b).slot i = t.slot i := rfl

theorem store_deref_self (t : ExtendibleHashTable K V) (p : Nat) :
    t.store p (t.deref p) = t := by
  unfold ExtendibleHashTable.store ExtendibleHashTable.deref
  have : t.heap_.set p (t.heap_.getD p { size_ := 0, depth_ := 0, list_ := [] }) = t.heap_ := by
    apply List.ext_getElem?
    intro n
    rw [List.getElem?_set]
    by_cases h : p = n
    · subst h
      by_cases hp : p < t.heap_.length
      · simp [hp, List.getD_eq_getElem?_getD]
      · simp [hp, List.getElem?_eq_none (Nat.le_of_not_lt hp)]
    · simp [h]
  rw [this]

theorem wf_new (hash : K → Nat) (bs : Nat) :
    WF hash (ExtendibleHashTable.new bs : ExtendibleHashTable K V) := by
  constructor <;>
    simp [ExtendibleHashTable.new, ExtendibleHashTable.slot, ExtendibleHashTable.deref]

theorem WF.store {hash : K → Nat} {t : ExtendibleHashTable K V} (h : WF hash t)
    {i0 : Nat} (hi0 : i0 < 2 ^ t.global_depth_) (b : Bucket K V)
    (hd : b.depth_ = (t.deref (t.slot i0)).depth_) (hs : b.size_ = t.bucket_size_)
    (hpl : ∀ e ∈ b.list_, hash e.1 % 2 ^ b.depth_ = i0 % 2 ^ b.depth_)
    (hnd : (b.list_.map Prod.fst).Nodup) (hcap : b.list_.length ≤ t.bucket_size_) :
    WF hash (t.store (t.slot i0) b) := by
  have hp := h.ptr_lt i0 hi0
  have hdep : ∀ q, ((t.store (t.slot i0) b).deref q).depth_ = (t.deref q).depth_ := by
    intro q
    rw [deref_store t _ q b hp]
    by_cases hq : q = t.slot i0
    · simp [hq, hd]
    · simp [hq]
  constructor
  · exact h.gd_le
  · exact h.dir_len
  · intro i hi
    simpa [ExtendibleHashTable.store, ExtendibleHashTable.slot] using h.ptr_lt i hi
  · intro i hi
    rw [slot_store, hdep]
    exact h.depth_le i hi
  · intro i j hi hj
    rw [slot_store, slot_store, hdep]
    exact h.shared i j hi hj
  · intro i hi e he
    rw [slot_store] at he ⊢
    rw [hdep]
    rw [deref_store t _ _ b hp] at he
    by_cases hq : t.slot i = t.slot i0
    · simp only [hq, if_true] at he
      have := hpl e he
      rw [hd] at this
      have hal := (h.shared i0 i hi0 hi).1 hq
      rw [hq, this, hal]
    · simp only [hq, if_false] at he
      exact h.placed i hi e he
  · intro i hi
    rw [slot_store, deref_store t _ _ b hp]
    by_cases hq : t.slot i = t.slot i0
    · simpa [hq] using hnd
    · simpa [hq] using h.nodup i hi
  · intro i hi
    rw [slot_store, deref_store t _ _ b hp]
    by_cases hq : t.slot i = t.slot i0
    · simpa [hq] using hs
    · simpa [hq] using h.size_eq i hi
  · intro i hi
    rw [slot_store, deref_store t _ _ b hp]
    by_cases hq : t.slot i = t.slot i0
    · simpa [hq] using hcap
    · simpa [hq] using h.cap i hi

theorem growDirectory_heap (t : ExtendibleHashTable K V) (b : Bucket K V) :
    (growDirectory t b).heap_ = t.heap_ := by
  unfold growDirectory
  split <;> rfl

theorem growDirectory_bucket_size (t : ExtendibleHashTable K V) (b : Bucket K V) :
    (growDirectory t b).bucket_size_ = t.bucket_size_ := by
  unfold growDirectory
  split <;> rfl

theorem growDirectory_gd (t : ExtendibleHashTable K V) (b : Bucket K V) :
    (growDirectory t b).global_depth_ =
      if t.global_depth_ = b.depth_ then t.global_depth_ + 1 else t.global_depth_ := by
  unfold growDirectory Bucket.GetDepth
  split <;> rfl

theorem growDirectory_dir_len (t : ExtendibleHashTable K V) (b : Bucket K V)
    (h : t.dir_.length = 2 ^ t.global_depth_) :
    (growDirectory t b).dir_.length = 2 ^ (growDirectory t b).global_depth_ := by
  unfold growDirectory
  split
  · simp [h, Nat.pow_succ]
    omega
  · exact h

theorem growDirectory_slot (t : ExtendibleHashTable K V) (b : Bucket K V)
    (h : t.dir_.length = 2 ^ t.global_depth_) (i : Nat)
    (hi : i < 2 ^ (growDirectory t b).global_depth_) :
    (growDirectory t b).slot i = t.slot (i % 2 ^ t.global_depth_) := by
  have hpos : 0 < 2 ^ t.global_depth_ := Nat.pos_pow_of_pos _ (by decide)
  rw [growDirectory_gd] at hi
  unfold growDirectory Bucket.GetDepth
  split
  · rename_i hg
    rw [if_pos hg, Nat.pow_succ] at hi
    unfold ExtendibleHashTable.slot
    simp only [List.getD_eq_getElem?_getD]
    by_cases hlt : i < 2 ^ t.global_depth_
    · rw [Nat.mod_eq_of_lt hlt, List.getElem?_append_left (by omega)]
    · have hge : 2 ^ t.global_depth_ ≤ i := Nat.le_of_not_lt hlt
      have hm : i % 2 ^ t.global_depth_ = i - 2 ^ t.global_depth_ := by
        rw [Nat.mod_eq_sub_mod hge, Nat.mod_eq_of_lt (by omega)]
      rw [hm, List.getElem?_append_right (by omega), h]
  · rename_i hg
    rw [if_neg hg] at hi
    rw [Nat.mod_eq_of_lt hi]

theorem splitBucket_slot (hash : K → Nat) (t : ExtendibleHashTable K V) (b : Bucket K V)
    (index i : Nat) (hi : i < t.dir_.length) :
    (splitBucket hash t b index).slot i =
      if i % 2 ^ b.depth_ = index % 2 ^ b.depth_ then
        if i % 2 ^ (b.depth_ + 1) = index % 2 ^ b.depth_ then t.heap_.length
        else t.heap_.length + 1
      else t.slot i := by
  unfold splitBucket ExtendibleHashTable.slot Bucket.GetDepth
  simp only [List.getD_eq_getElem?_getD, land_mask]
  rw [List.getElem?_map, List.getElem?_range hi]
  simp

theorem splitBucket_deref_old (hash : K → Nat) (t : ExtendibleHashTable K V) (b : Bucket K V)
    (index q : Nat) (hq : q < t.heap_.length) :
    (splitBucket hash t b index).deref q = t.deref q := by
  unfold splitBucket ExtendibleHashTable.deref
  simp only [List.getD_eq_getElem?_getD]
  rw [List.getElem?_append_left hq]

theorem splitBucket_deref_first (hash : K → Nat) (t : ExtendibleHashTable K V) (b : Bucket K V)
    (index : Nat) :
    (splitBucket hash t b index).deref t.heap_.length =
      { size_ := t.bucket_size_, depth_ := b.depth_ + 1,
        list_ := b.list_.filter (fun ele =>
          decide (hash ele.1 % 2 ^ t.global_depth_ % 2 ^ (b.depth_ + 1) = index % 2 ^ b.depth_)) } := by
  unfold splitBucket ExtendibleHashTable.deref Bucket.GetDepth Bucket.GetItems
  simp only [List.getD_eq_getElem?_getD, land_mask, IndexOf_eq]
  rw [List.getElem?_append_right (Nat.le_refl _)]
  simp

theorem splitBucket_deref_second (hash : K → Nat) (t : ExtendibleHashTable K V)
    (b : Bucket K V) (index : Nat) :
    (splitBucket hash t b index).deref (t.heap_.length + 1) =
      { size_ := t.bucket_size_, depth_ := b.depth_ + 1,
        list_ := b.list_.filter (fun ele =>
          !decide (hash ele.1 % 2 ^ t.global_depth_ % 2 ^ (b.depth_ + 1) = index % 2 ^ b.depth_)) } := by
  unfold splitBucket ExtendibleHashTable.deref Bucket.GetDepth Bucket.GetItems
  simp only [List.getD_eq_getElem?_getD, land_mask, IndexOf_eq]
  rw [List.getElem?_append_right (Nat.le_succ _)]
  simp

theorem splitStep_gd (hash : K → Nat) (t : ExtendibleHashTable K V) (key : K) :
    (splitStep hash t key).global_depth_ =
      if t.global_depth_ = (t.deref (t.slot (IndexOf hash t key))).depth_
      then t.global_depth_ + 1 else t.global_depth_ := by
  unfold splitStep
  simp only []
  rw [← growDirectory_gd]
  rfl

theorem splitStep_bucket_size (hash : K → Nat) (t : ExtendibleHashTable K V) (key : K) :
    (splitStep hash t key).bucket_size_ = t.bucket_size_ := by
  unfold splitStep
  simp only []
  rw [← growDirectory_bucket_size t (t.deref (t.slot (IndexOf hash t key)))]
  rfl

theorem splitStep_num_buckets (hash : K → Nat) (t : ExtendibleHashTable K V) (key : K) :
    (splitStep hash t key).num_buckets_ = t.num_buckets_ + 1 := by
  unfold splitStep splitBucket growDirectory
  simp only []
  split <;> rfl

theorem splitStep_gd_bounds {hash : K → Nat} {t : ExtendibleHashTable K V} (h : WF hash t)
    (key : K) :
    (t.deref (t.slot (IndexOf hash t key))).depth_ + 1 ≤ (splitStep hash t key).global_depth_ ∧
      t.global_depth_ ≤ (splitStep hash t key).global_depth_ ∧
      (splitStep hash t key).global_depth_ ≤ t.global_depth_ + 1 := by
  have hd := h.depth_le _ (IndexOf_lt hash t key)
  rw [splitStep_gd]
  split <;> omega

theorem splitStep_dir_len {hash : K → Nat} {t : ExtendibleHashTable K V} (h : WF hash t)
    (key : K) :
    (splitStep hash t key).dir_.length = 2 ^ (splitStep hash t key).global_depth_ := by
  have := growDirectory_dir_len t (t.deref (t.slot (IndexOf hash t key))) h.dir_len
  unfold splitStep splitBucket
  simpa using this

theorem splitStep_heap_len (hash : K → Nat) (t : ExtendibleHashTable K V) (key : K) :
    (splitStep hash t key).heap_.length = t.heap_.length + 2 := by
  unfold splitStep splitBucket
  simp [growDirectory_heap]

theorem splitStep_slot {hash : K → Nat} {t : ExtendibleHashTable K V} (h : WF hash t)
    (key : K) (i : Nat) (hi : i < 2 ^ (splitStep hash t key).global_depth_) :
    (splitStep hash t key).slot i =
      if i % 2 ^ (t.deref (t.slot (IndexOf hash t key))).depth_ =
          IndexOf hash t key % 2 ^ (t.deref (t.slot (IndexOf hash t key))).depth_ then
        if i % 2 ^ ((t.deref (t.slot (IndexOf hash t key))).depth_ + 1) =
            IndexOf hash t key % 2 ^ (t.deref (t.slot (IndexOf hash t key))).depth_
        then t.heap_.length else t.heap_.length + 1
      else t.slot (i % 2 ^ t.global_depth_) := by
  have hlen := growDirectory_dir_len t (t.deref (t.slot (IndexOf hash t key))) h.dir_len
  have hg : (splitStep hash t key).global_depth_ =
      (growDirectory t (t.deref (t.slot (IndexOf hash t key)))).global_depth_ := rfl
  rw [hg] at hi
  unfold splitStep
  simp only []
  rw [splitBucket_slot _ _ _ _ _ (by rw [hlen]; exact hi), growDirectory_heap,
    growDirectory_slot t _ h.dir_len i hi]

theorem splitStep_region {hash : K → Nat} {t : ExtendibleHashTable K V} (h : WF hash t)
    (key : K) (i : Nat) :
    (i % 2 ^ (t.deref (t.slot (IndexOf hash t key))).depth_ =
        IndexOf hash t key % 2 ^ (t.deref (t.slot (IndexOf hash t key))).depth_) ↔
      t.slot (i % 2 ^ t.global_depth_) = t.slot (IndexOf hash t key) := by
  have hpos : 0 < 2 ^ t.global_depth_ := Nat.pos_pow_of_pos _ (by decide)
  rw [h.shared _ _ (IndexOf_lt hash t key) (Nat.mod_lt i hpos),
    mod_mod_pow i (h.depth_le _ (IndexOf_lt hash t key))]

theorem splitStep_deref_old (hash : K → Nat) (t : ExtendibleHashTable K V) (key : K) (q : Nat)
    (hq : q < t.heap_.length) : (splitStep hash t key).deref q = t.deref q := by
  unfold splitStep
  simp only []
  rw [splitBucket_deref_old _ _ _ _ _ (by rw [growDirectory_heap]; exact hq)]
  unfold ExtendibleHashTable.deref
  rw [growDirectory_heap]

theorem splitStep_deref_first {hash : K → Nat} {t : ExtendibleHashTable K V} (h : WF hash t)
    (key : K) :
    (splitStep hash t key).deref t.heap_.length =
      { size_ := t.bucket_size_,
        depth_ := (t.deref (t.slot (IndexOf hash t key))).depth_ + 1,
        list_ := (t.deref (t.slot (IndexOf hash t key))).list_.filter (fun ele =>
          decide (hash ele.1 % 2 ^ ((t.deref (t.slot (IndexOf hash t key))).depth_ + 1) =
            IndexOf hash t key % 2 ^ (t.deref (t.slot (IndexOf hash t key))).depth_)) } := by
  have hb := (splitStep_gd_bounds h key).1
  have hg : (splitStep hash t key).global_depth_ =
      (growDirectory t (t.deref (t.slot (IndexOf hash t key)))).global_depth_ := rfl
  rw [hg] at hb
  have := splitBucket_deref_first hash (growDirectory t (t.deref (t.slot (IndexOf hash t key))))
    (t.deref (t.slot (IndexOf hash t key))) (IndexOf hash t key)
  rw [growDirectory_heap, growDirectory_bucket_size] at this
  unfold splitStep
  simp only []
  rw [this]
  congr 1
  apply List.filter_congr
  intro e _
  rw [mod_mod_pow _ hb]

theorem splitStep_deref_second {hash : K → Nat} {t : ExtendibleHashTable K V} (h : WF hash t)
    (key : K) :
    (splitStep hash t key).deref (t.heap_.length + 1) =
      { size_ := t.bucket_size_,
        depth_ := (t.deref (t.slot (IndexOf hash t key))).depth_ + 1,
        list_ := (t.deref (t.slot (IndexOf hash t key))).list_.filter (fun ele =>
          !decide (hash ele.1 % 2 ^ ((t.deref (t.slot (IndexOf hash t key))).depth_ + 1) =
            IndexOf hash t key % 2 ^ (t.deref (t.slot (IndexOf hash t key))).depth_)) } := by
  have hb := (splitStep_gd_bounds h key).1
  have hg : (splitStep hash t key).global_depth_ =
      (growDirectory t (t.deref (t.slot (IndexOf hash t key)))).global_depth_ := rfl
  rw [hg] at hb
  have := splitBucket_deref_second hash (growDirectory t (t.deref (t.slot (IndexOf hash t key))))
    (t.deref (t.slot (IndexOf hash t key))) (IndexOf hash t key)
  rw [growDirectory_heap, growDirectory_bucket_size] at this
  unfold splitStep
  simp only []
  rw [this]
  congr 1
  apply List.filter_congr
  intro e _
  rw [mod_mod_pow _ hb]

theorem low_index_mod {x d : Nat} {i : Nat} (h : i % 2 ^ (d + 1) = x % 2 ^ d) :
    i % 2 ^ d = x % 2 ^ d := by
  rw [← mod_mod_pow i (Nat.le_succ d), h, Nat.mod_mod]

/-- Where a directory slot points after one split: to the first new bucket, to
the second new bucket, or where it pointed before. -/
theorem splitStep_cases {hash : K → Nat} {t : ExtendibleHashTable K V} (h : WF hash t)
    (key : K) (i : Nat) (hi : i < 2 ^ (splitStep hash t key).global_depth_) :
    (i % 2 ^ ((keyBucket hash t key).depth_ + 1) =
        IndexOf hash t key % 2 ^ (keyBucket hash t key).depth_ ∧
      (splitStep hash t key).slot i = t.heap_.length) ∨
    (i % 2 ^ (keyBucket hash t key).depth_ =
        IndexOf hash t key % 2 ^ (keyBucket hash t key).depth_ ∧
      i % 2 ^ ((keyBucket hash t key).depth_ + 1) ≠
        IndexOf hash t key % 2 ^ (keyBucket hash t key).depth_ ∧
      (splitStep hash t key).slot i = t.heap_.length + 1) ∨
    (i % 2 ^ (keyBucket hash t key).depth_ ≠
        IndexOf hash t key % 2 ^ (keyBucket hash t key).depth_ ∧
      (splitStep hash t key).slot i = t.slot (i % 2 ^ t.global_depth_) ∧
      t.slot (i % 2 ^ t.global_depth_) ≠ t.slot (IndexOf hash t key)) := by
  have hs := splitStep_slot h key i hi
  have hr := splitStep_region h key i
  unfold keyBucket
  by_cases h1 : i % 2 ^ (t.deref (t.slot (IndexOf hash t key))).depth_ =
      IndexOf hash t key % 2 ^ (t.deref (t.slot (IndexOf hash t key))).depth_
  · by_cases h2 : i % 2 ^ ((t.deref (t.slot (IndexOf hash t key))).depth_ + 1) =
        IndexOf hash t key % 2 ^ (t.deref (t.slot (IndexOf hash t key))).depth_
    · left
      rw [if_pos h1, if_pos h2] at hs
      exact ⟨h2, hs⟩
    · right; left
      rw [if_pos h1, if_neg h2] at hs
      exact ⟨h1, h2, hs⟩
  · right; right
    rw [if_neg h1] at hs
    exact ⟨h1, hs, fun hc => h1 (hr.2 hc)⟩

/-- The bucket a directory slot designates after one split. -/
theorem splitStep_bucket {hash : K → Nat} {t : ExtendibleHashTable K V} (h : WF hash t)
    (key : K) (i : Nat) (hi : i < 2 ^ (splitStep hash t key).global_depth_) :
    (i % 2 ^ ((keyBucket hash t key).depth_ + 1) =
        IndexOf hash t key % 2 ^ (keyBucket hash t key).depth_ ∧
      (splitStep hash t key).slot i = t.heap_.length ∧
      (splitStep hash t key).deref ((splitStep hash t key).slot i) =
        { size_ := t.bucket_size_, depth_ := (keyBucket hash t key).depth_ + 1,
          list_ := (keyBucket hash t key).list_.filter (fun ele =>
            decide (hash ele.1 % 2 ^ ((keyBucket hash t key).depth_ + 1) =
              IndexOf hash t key % 2 ^ (keyBucket hash t key).depth_)) }) ∨
    (i % 2 ^ (keyBucket hash t key).depth_ =
        IndexOf hash t key % 2 ^ (keyBucket hash t key).depth_ ∧
      i % 2 ^ ((keyBucket hash t key).depth_ + 1) ≠
        IndexOf hash t key % 2 ^ (keyBucket hash t key).depth_ ∧
      (splitStep hash t key).slot i = t.heap_.length + 1 ∧
      (splitStep hash t key).deref ((splitStep hash t key).slot i) =
        { size_ := t.bucket_size_, depth_ := (keyBucket hash t key).depth_ + 1,
          list_ := (keyBucket hash t key).list_.filter (fun ele =>
            !decide (hash ele.1 % 2 ^ ((keyBucket hash t key).depth_ + 1) =
              IndexOf hash t key % 2 ^ (keyBucket hash t key).depth_)) }) ∨
    (i % 2 ^ (keyBucket hash t key).depth_ ≠
        IndexOf hash t key % 2 ^ (keyBucket hash t key).depth_ ∧
      (splitStep hash t key).slot i = t.slot (i % 2 ^ t.global_depth_) ∧
      t.slot (i % 2 ^ t.global_depth_) ≠ t.slot (IndexOf hash t key) ∧
      (splitStep hash t key).deref ((splitStep hash t key).slot i) =
        t.deref (t.slot (i % 2 ^ t.global_depth_))) := by
  have hpos : 0 < 2 ^ t.global_depth_ := Nat.pos_pow_of_pos _ (by decide)
  rcases splitStep_cases h key i hi with ⟨h1, h2⟩ | ⟨h1, h2, h3⟩ | ⟨h1, h2, h3⟩
  · left
    refine ⟨h1, h2, ?_⟩
    rw [h2]
    exact splitStep_deref_first h key
  · right; left
    refine ⟨h1, h2, h3, ?_⟩
    rw [h3]
    exact splitStep_deref_second h key
  · right; right
    refine ⟨h1, h2, h3, ?_⟩
    rw [h2]
    exact splitStep_deref_old hash t key _ (h.ptr_lt _ (Nat.mod_lt i hpos))

theorem splitStep_wf {hash : K → Nat} {t : ExtendibleHashTable K V} (h : WF hash t) (key : K)
    (hd : (keyBucket hash t key).depth_ + 1 ≤ 30) : WF hash (splitStep hash t key) := by
  have hpos : 0 < 2 ^ t.global_depth_ := Nat.pos_pow_of_pos _ (by decide)
  have hidx := IndexOf_lt hash t key
  have hb := splitStep_gd_bounds h key
  have hdg : (keyBucket hash t key).depth_ ≤ t.global_depth_ := h.depth_le _ hidx
  have hplaced := h.placed _ hidx
  have hnodup := h.nodup _ hidx
  have hcap := h.cap _ hidx
  have hptr : ∀ i, t.slot (i % 2 ^ t.global_depth_) < t.heap_.length :=
    fun i => h.ptr_lt _ (Nat.mod_lt i hpos)
  have hview := splitStep_bucket h key
  have hreg : ∀ i, (i % 2 ^ (keyBucket hash t key).depth_ =
      IndexOf hash t key % 2 ^ (keyBucket hash t key).depth_) ↔
      t.slot (i % 2 ^ t.global_depth_) = t.slot (IndexOf hash t key) := splitStep_region h key
  have hgd := splitStep_gd hash t key
  have hbs := splitStep_bucket_size hash t key
  have hlen := splitStep_heap_len hash t key
  have hdl := splitStep_dir_len h key
  change (keyBucket hash t key).depth_ + 1 ≤ _ ∧ _ at hb
  change ∀ e ∈ (keyBucket hash t key).list_, hash e.1 % 2 ^ (keyBucket hash t key).depth_ =
    IndexOf hash t key % 2 ^ (keyBucket hash t key).depth_ at hplaced
  change ((keyBucket hash t key).list_.map Prod.fst).Nodup at hnodup
  change (keyBucket hash t key).list_.length ≤ _ at hcap
  change _ = if _ = (keyBucket hash t key).depth_ then _ else _ at hgd
  generalize keyBucket hash t key = b at *
  generalize IndexOf hash t key = idx at *
  generalize splitStep hash t key = t2 at *
  constructor
  · have := h.gd_le
    rw [hgd]
    split <;> omega
  · exact hdl
  · intro i hi
    rcases hview i hi with ⟨_, h2, _⟩ | ⟨_, _, h2, _⟩ | ⟨_, h2, _, _⟩
    · omega
    · omega
    · have := hptr i
      omega
  · intro i hi
    rcases hview i hi with ⟨_, _, h3⟩ | ⟨_, _, _, h3⟩ | ⟨_, _, _, h3⟩
    · rw [h3]
      exact hb.1
    · rw [h3]
      exact hb.1
    · rw [h3]
      exact Nat.le_trans (h.depth_le _ (Nat.mod_lt i hpos)) hb.2.1
  · intro i j hi hj
    rcases hview i hi with ⟨i1, i2, i3⟩ | ⟨i1, i2, i3, i4⟩ | ⟨i1, i2, i3, i4⟩
    · rw [i3]
      simp only []
      rcases hview j hj with ⟨j1, j2, j3⟩ | ⟨j1, j2, j3, j4⟩ | ⟨j1, j2, j3, j4⟩
      · rw [i2, j2, i1, j1]
        simp
      · rw [i2, j3, i1]
        constructor
        · intro hc
          omega
        · intro hc
          exact absurd hc j2
      · rw [i2, j2]
        have := hptr j
        constructor
        · intro hc
          omega
        · intro hc
          exact absurd hc (mod_succ_ne (by rw [low_index_mod i1]; exact j1))
    · rw [i4]
      simp only []
      rcases hview j hj with ⟨j1, j2, j3⟩ | ⟨j1, j2, j3, j4⟩ | ⟨j1, j2, j3, j4⟩
      · rw [i3, j2]
        constructor
        · intro hc
          omega
        · intro hc
          rw [j1] at hc
          exact absurd hc.symm i2
      · rw [i3, j3]
        simp only [true_iff]
        rw [mod_succ_eq_iff (j1.trans i1.symm), j1, i1]
        simp [i2, j2]
      · rw [i3, j2]
        have := hptr j
        constructor
        · intro hc
          omega
        · intro hc
          exact absurd hc (mod_succ_ne (by rw [i1]; exact j1))
    · rw [i4]
      have hdq := h.depth_le _ (Nat.mod_lt i hpos)
      have hsh := h.shared (i % 2 ^ t.global_depth_) (j % 2 ^ t.global_depth_)
        (Nat.mod_lt i hpos) (Nat.mod_lt j hpos)
      rw [mod_mod_pow j hdq, mod_mod_pow i hdq] at hsh
      have hpi := hptr i
      rcases hview j hj with ⟨j1, j2, j3⟩ | ⟨j1, j2, j3, j4⟩ | ⟨j1, j2, j3, j4⟩
      · have hj' := (hreg j).1 (low_index_mod j1)
        rw [i2, j2, ← hsh, hj']
        constructor
        · intro hc
          omega
        · intro hc
          exact absurd hc.symm i3
      · have hj' := (hreg j).1 j1
        rw [i2, j3, ← hsh, hj']
        constructor
        · intro hc
          omega
        · intro hc
          exact absurd hc.symm i3
      · rw [i2, j2]
        exact hsh
  · intro i hi e he
    rcases hview i hi with ⟨i1, i2, i3⟩ | ⟨i1, i2, i3, i4⟩ | ⟨i1, i2, i3, i4⟩
    · rw [i3] at he ⊢
      simp only [List.mem_filter, decide_eq_true_eq] at he ⊢
      rw [he.2, i1]
    · rw [i4] at he ⊢
      simp only [List.mem_filter, Bool.not_eq_true', decide_eq_false_iff_not] at he ⊢
      have hp := hplaced e he.1
      rw [mod_succ_eq_iff (hp.trans i1.symm), hp, i1]
      simp [i2, he.2]
    · rw [i4] at he ⊢
      have hdq := h.depth_le _ (Nat.mod_lt i hpos)
      have := h.placed _ (Nat.mod_lt i hpos) e he
      rw [mod_mod_pow i hdq] at this
      exact this
  · intro i hi
    rcases hview i hi with ⟨i1, i2, i3⟩ | ⟨i1, i2, i3, i4⟩ | ⟨i1, i2, i3, i4⟩
    · rw [i3]
      exact (List.filter_sublist _).map _ |>.nodup hnodup
    · rw [i4]
      exact (List.filter_sublist _).map _ |>.nodup hnodup
    · rw [i4]
      exact h.nodup _ (Nat.mod_lt i hpos)
  · intro i hi
    rcases hview i hi with ⟨i1, i2, i3⟩ | ⟨i1, i2, i3, i4⟩ | ⟨i1, i2, i3, i4⟩
    · rw [i3, hbs]
    · rw [i4, hbs]
    · rw [i4, hbs]
      exact h.size_eq _ (Nat.mod_lt i hpos)
  · intro i hi
    rcases hview i hi with ⟨i1, i2, i3⟩ | ⟨i1, i2, i3, i4⟩ | ⟨i1, i2, i3, i4⟩
    · rw [i3, hbs]
      exact Nat.le_trans (List.length_filter_le _ _) hcap
    · rw [i4, hbs]
      exact Nat.le_trans (List.length_filter_le _ _) hcap
    · rw [i4, hbs]
      exact h.cap _ (Nat.mod_lt i hpos)

/-- One split changes the result of no lookup. -/
theorem splitStep_find {hash : K → Nat} {t : ExtendibleHashTable K V} (h : WF hash t)
    (key k' : K) : Find hash (splitStep hash t key) k' = Find hash t k' := by
  have hb := splitStep_gd_bounds h key
  have hi := IndexOf_lt hash (splitStep hash t key) k'
  have hview := splitStep_bucket h key _ hi
  have hreg := splitStep_region h key (IndexOf hash (splitStep hash t key) k')
  have hmod : IndexOf hash (splitStep hash t key) k' % 2 ^ t.global_depth_ =
      IndexOf hash t k' := by
    rw [IndexOf_eq, IndexOf_eq, mod_mod_pow _ hb.2.1]
  have hmod1 : IndexOf hash (splitStep hash t key) k' %
      2 ^ ((t.deref (t.slot (IndexOf hash t key))).depth_ + 1)
      = hash k' % 2 ^ ((t.deref (t.slot (IndexOf hash t key))).depth_ + 1) := by
    rw [IndexOf_eq, mod_mod_pow _ hb.1]
  rw [hmod] at hreg hview
  unfold keyBucket at hview
  unfold Find Bucket.Find
  simp only []
  rcases hview with ⟨i1, i2, i3⟩ | ⟨i1, i2, i3, i4⟩ | ⟨i1, i2, i3, i4⟩
  · rw [i3, hreg.1 (low_index_mod i1)]
    apply findItems_filter
    intro e _ hek
    rw [hek, ← hmod1, i1]
    simp
  · rw [i4, hreg.1 i1]
    apply findItems_filter
    intro e _ hek
    rw [hek, ← hmod1]
    simpa using i2
  · rw [i4]

theorem Bucket.Insert_true {b : Bucket K V} {key : K} {value : V}
    (h : (b.Insert key value).1 = true) :
    (b.Insert key value).2.depth_ = b.depth_ ∧ (b.Insert key value).2.size_ = b.size_ ∧
      findItems key (b.Insert key value).2.list_ = some value ∧
      (∀ k', k' ≠ key → findItems k' (b.Insert key value).2.list_ = findItems k' b.list_) ∧
      (((b.Insert key value).2.list_.map Prod.fst = b.list_.map Prod.fst ∧
          findItems key b.list_ ≠ none) ∨
        (findItems key b.list_ = none ∧ b.list_.length ≠ b.size_ ∧
          (b.Insert key value).2.list_ = b.list_ ++ [(key, value)])) := by
  unfold Bucket.Insert at h ⊢
  cases ho : overwriteItems key value b.list_ with
  | some l =>
    obtain ⟨h1, h2, _, h4⟩ := overwriteItems_spec ho
    refine ⟨rfl, rfl, h1, h4, Or.inl ⟨h2, ?_⟩⟩
    intro hc
    rw [← overwriteItems_eq_none_iff key value] at hc
    simp [hc] at ho
  | none =>
    have hn := (overwriteItems_eq_none_iff key value b.list_).1 ho
    simp only [ho] at h ⊢
    by_cases hf : b.IsFull = true
    · simp [hf] at h
    · simp only [hf]
      refine ⟨rfl, rfl, findItems_append_self value hn,
        fun k' hk' => findItems_append_other value _ hk', Or.inr ⟨hn, ?_, rfl⟩⟩
      simpa [Bucket.IsFull] using hf

theorem Bucket.Insert_false {b : Bucket K V} {key : K} {value : V}
    (h : (b.Insert key value).1 = false) :
    findItems key b.list_ = none ∧ b.list_.length = b.size_ := by
  unfold Bucket.Insert at h
  cases ho : overwriteItems key value b.list_ with
  | some l => simp [ho] at h
  | none =>
    have hn := (overwriteItems_eq_none_iff key value b.list_).1 ho
    simp only [ho] at h
    by_cases hf : b.IsFull = true
    · exact ⟨hn, by simpa [Bucket.IsFull] using hf⟩
    · simp [hf] at h

theorem InsertInternal_succ (hash : K → Nat) (n : Nat) (t : ExtendibleHashTable K V)
    (key : K) (value : V) :
    InsertInternal hash (n + 1) t key value =
      if ((keyBucket hash t key).Insert key value).1 then
        Outcome.done (t.store (t.slot (IndexOf hash t key))
          ((keyBucket hash t key).Insert key value).2)
      else if 31 ≤ (keyBucket hash t key).depth_ + 1 then Outcome.overflow
      else InsertInternal hash n (splitStep hash t key) key value := rfl

theorem Find_store (hash : K → Nat) (t : ExtendibleHashTable K V) (p : Nat) (b : Bucket K V)
    (hp : p < t.heap_.length) (k' : K) :
    Find hash (t.store p b) k' =
      if t.slot (IndexOf hash t k') = p then findItems k' b.list_ else Find hash t k' := by
  have hidx : IndexOf hash (t.store p b) k' = IndexOf hash t k' := rfl
  unfold Find
  simp only []
  rw [hidx, slot_store, deref_store t p _ b hp]
  split <;> rfl

/-- A successful `Bucket::Insert` on the bucket the key addresses keeps the
invariant. -/
theorem store_insert_wf {hash : K → Nat} {t : ExtendibleHashTable K V} (h : WF hash t)
    (key : K) (value : V) (hres : ((keyBucket hash t key).Insert key value).1 = true) :
    WF hash (t.store (t.slot (IndexOf hash t key)) ((keyBucket hash t key).Insert key value).2) := by
  have hidx := IndexOf_lt hash t key
  obtain ⟨h1, h2, _, _, h5⟩ := Bucket.Insert_true hres
  have hdg : (keyBucket hash t key).depth_ ≤ t.global_depth_ := h.depth_le _ hidx
  have hkey : hash key % 2 ^ (keyBucket hash t key).depth_ =
      IndexOf hash t key % 2 ^ (keyBucket hash t key).depth_ := by
    rw [IndexOf_eq, mod_mod_pow _ hdg]
  have hplaced : ∀ e ∈ (keyBucket hash t key).list_, hash e.1 % 2 ^ (keyBucket hash t key).depth_ =
      IndexOf hash t key % 2 ^ (keyBucket hash t key).depth_ := h.placed _ hidx
  have hnodup : ((keyBucket hash t key).list_.map Prod.fst).Nodup := h.nodup _ hidx
  have hcap : (keyBucket hash t key).list_.length ≤ t.bucket_size_ := h.cap _ hidx
  have hsize : (keyBucket hash t key).size_ = t.bucket_size_ := h.size_eq _ hidx
  apply WF.store h hidx _ h1 (h2.trans hsize)
  · intro e he
    rw [h1]
    rcases h5 with ⟨hm, _⟩ | ⟨_, _, hl⟩
    · have : e.1 ∈ (keyBucket hash t key).list_.map Prod.fst := by
        rw [← hm]
        exact List.mem_map_of_mem _ he
      obtain ⟨e', he', hee⟩ := List.mem_map.1 this
      rw [← hee]
      exact hplaced e' he'
    · rw [hl] at he
      rcases List.mem_append.1 he with he | he
      · exact hplaced e he
      · simp only [List.mem_singleton] at he
        rw [he]
        exact hkey
  · rcases h5 with ⟨hm, _⟩ | ⟨hn, _, hl⟩
    · rw [hm]
      exact hnodup
    · rw [hl, List.map_append]
      rw [findItems_eq_none_iff] at hn
      apply List.Nodup.append hnodup (by simp)
      intro a ha hb
      simp only [List.map_cons, List.map_nil, List.mem_singleton] at hb
      subst hb
      exact hn ha
  · rcases h5 with ⟨hm, _⟩ | ⟨_, hne, hl⟩
    · have := congrArg List.length hm
      simp only [List.length_map] at this
      rw [this]
      exact hcap
    · rw [hl, List.length_append]
      simp only [List.length_singleton]
      omega

/-- A larger recursion budget does not change the result of a call that
returned. -/
theorem InsertInternal_mono (hash : K → Nat) (n : Nat) :
    ∀ (t t' : ExtendibleHashTable K V) (key : K) (value : V) (m : Nat), n ≤ m →
      InsertInternal hash n t key value = Outcome.done t' →
      InsertInternal hash m t key value = Outcome.done t' := by
  induction n with
  | zero =>
    intro t t' key value m _ h
    simp [InsertInternal] at h
  | succ n ih =>
    intro t t' key value m hm h
    obtain ⟨m', rfl⟩ : ∃ m', m = m' + 1 := ⟨m - 1, by omega⟩
    rw [InsertInternal_succ] at h ⊢
    by_cases hres : ((keyBucket hash t key).Insert key value).1 = true
    · rw [if_pos hres] at h ⊢
      exact h
    · rw [if_neg hres] at h ⊢
      by_cases hov : 31 ≤ (keyBucket hash t key).depth_ + 1
      · rw [if_pos hov] at h
        cases h
      · rw [if_neg hov] at h ⊢
        exact ih _ _ _ _ m' (by omega) h

/-- What a completed `InsertInternal` achieves on a table that satisfies the
invariant. -/
theorem InsertInternal_done {hash : K → Nat} (fuel : Nat) :
    ∀ (t t' : ExtendibleHashTable K V) (key : K) (value : V), WF hash t →
      InsertInternal hash fuel t key value = Outcome.done t' →
      WF hash t' ∧ Find hash t' key = some value ∧
        (∀ k', k' ≠ key → Find hash t' k' = Find hash t k') ∧
        t'.bucket_size_ = t.bucket_size_ := by
  induction fuel with
  | zero =>
    intro t t' key value _ h
    simp [InsertInternal] at h
  | succ n ih =>
    intro t t' key value hwf h
    rw [InsertInternal_succ] at h
    have hidx := IndexOf_lt hash t key
    have hp := hwf.ptr_lt _ hidx
    by_cases hres : ((keyBucket hash t key).Insert key value).1 = true
    · rw [if_pos hres] at h
      injection h with h
      subst h
      obtain ⟨_, _, h3, h4, _⟩ := Bucket.Insert_true hres
      refine ⟨store_insert_wf hwf key value hres, ?_, ?_, rfl⟩
      · rw [Find_store hash t _ _ hp, if_pos rfl]
        exact h3
      · intro k' hk'
        rw [Find_store hash t _ _ hp]
        split
        · rename_i hs
          rw [h4 k' hk']
          unfold Find Bucket.Find keyBucket
          simp only []
          rw [hs]
        · rfl
    · rw [if_neg hres] at h
      by_cases hov : 31 ≤ (keyBucket hash t key).depth_ + 1
      · rw [if_pos hov] at h
        cases h
      · rw [if_neg hov] at h
        have hwf2 := splitStep_wf hwf key (by omega)
        obtain ⟨h1, h2, h3, h4⟩ := ih _ _ _ _ hwf2 h
        refine ⟨h1, h2, ?_, by rw [h4, splitStep_bucket_size]⟩
        intro k' hk'
        rw [h3 k' hk', splitStep_find hwf]

theorem Bucket.Remove_spec (b : Bucket K V) (key : K) :
    (b.Remove key).2.depth_ = b.depth_ ∧ (b.Remove key).2.size_ = b.size_ ∧
      (b.Remove key).2.list_.Sublist b.list_ ∧
      (∀ k', k' ≠ key → findItems k' (b.Remove key).2.list_ = findItems k' b.list_) ∧
      ((b.list_.map Prod.fst).Nodup → findItems key (b.Remove key).2.list_ = none) ∧
      ((b.Remove key).1 = true ↔ findItems key b.list_ ≠ none) ∧
      (findItems key b.list_ = none → (b.Remove key).2 = b) := by
  unfold Bucket.Remove
  cases hr : removeItems key b.list_ with
  | none =>
    have hn := (removeItems_eq_none_iff key b.list_).1 hr
    simp [hn]
  | some l =>
    obtain ⟨h1, _, h3, h4⟩ := removeItems_spec hr
    have hn : findItems key b.list_ ≠ none := by
      intro hc
      rw [← removeItems_eq_none_iff] at hc
      simp [hc] at hr
    exact ⟨rfl, rfl, h1, h3, h4, by simp [hn], fun hc => absurd hc hn⟩

theorem Remove_wf {hash : K → Nat} {t : ExtendibleHashTable K V} (h : WF hash t) (key : K) :
    WF hash (Remove hash t key).2 := by
  have hidx := IndexOf_lt hash t key
  obtain ⟨h1, h2, h3, _⟩ := Bucket.Remove_spec (t.deref (t.slot (IndexOf hash t key))) key
  unfold Remove
  simp only []
  apply WF.store h hidx _ h1 (h2.trans (h.size_eq _ hidx))
  · intro e he
    rw [h1]
    exact h.placed _ hidx e (h3.subset he)
  · exact (h3.map _).nodup (h.nodup _ hidx)
  · exact Nat.le_trans h3.length_le (h.cap _ hidx)

theorem Reachable.wf {hash : K → Nat} {bs : Nat} {t : ExtendibleHashTable K V}
    (h : Reachable hash bs t) : WF hash t ∧ t.bucket_size_ = bs := by
  induction h with
  | new => exact ⟨wf_new hash bs, rfl⟩
  | insert _ hins ih =>
    obtain ⟨h1, _, _, h4⟩ := InsertInternal_done _ _ _ _ _ ih.1 hins
    exact ⟨h1, h4.trans ih.2⟩
  | remove key _ ih => exact ⟨Remove_wf ih.1 key, ih.2⟩

/-- After one split the bucket the key addresses is one level deeper and holds
exactly the entries of the old bucket whose hash agrees with the key's on one
more bit. -/
theorem splitStep_keyBucket {hash : K → Nat} {t : ExtendibleHashTable K V} (h : WF hash t)
    (key : K) :
    keyBucket hash (splitStep hash t key) key =
      { size_ := t.bucket_size_, depth_ := (keyBucket hash t key).depth_ + 1,
        list_ := (keyBucket hash t key).list_.filter (fun ele =>
          decide (hash ele.1 % 2 ^ ((keyBucket hash t key).depth_ + 1) =
            hash key % 2 ^ ((keyBucket hash t key).depth_ + 1))) } := by
  have hidx := IndexOf_lt hash t key
  have hb : (keyBucket hash t key).depth_ + 1 ≤ (splitStep hash t key).global_depth_ ∧
      t.global_depth_ ≤ (splitStep hash t key).global_depth_ ∧
      (splitStep hash t key).global_depth_ ≤ t.global_depth_ + 1 := splitStep_gd_bounds h key
  have hdg : (keyBucket hash t key).depth_ ≤ t.global_depth_ := h.depth_le _ hidx
  have hplaced : ∀ e ∈ (keyBucket hash t key).list_, hash e.1 % 2 ^ (keyBucket hash t key).depth_ =
      IndexOf hash t key % 2 ^ (keyBucket hash t key).depth_ := h.placed _ hidx
  have hi := IndexOf_lt hash (splitStep hash t key) key
  have hview := splitStep_bucket h key _ hi
  have hk1 : IndexOf hash (splitStep hash t key) key % 2 ^ ((keyBucket hash t key).depth_ + 1)
      = hash key % 2 ^ ((keyBucket hash t key).depth_ + 1) := by
    rw [IndexOf_eq, mod_mod_pow _ hb.1]
  have hk0 : hash key % 2 ^ (keyBucket hash t key).depth_ =
      IndexOf hash t key % 2 ^ (keyBucket hash t key).depth_ := by
    rw [IndexOf_eq, mod_mod_pow _ hdg]
  have hk2 : IndexOf hash (splitStep hash t key) key % 2 ^ (keyBucket hash t key).depth_
      = hash key % 2 ^ (keyBucket hash t key).depth_ := by
    rw [IndexOf_eq, mod_mod_pow _ (Nat.le_of_succ_le hb.1)]
  rw [hk1, hk2] at hview
  show (splitStep hash t key).deref ((splitStep hash t key).slot
    (IndexOf hash (splitStep hash t key) key)) = _
  rcases hview with ⟨i1, _, i3⟩ | ⟨i1, i2, _, i4⟩ | ⟨i1, _, _, _⟩
  · rw [i3, i1]
  · rw [i4]
    congr 1
    apply List.filter_congr
    intro e he
    have hp := hplaced e he
    have hiff := mod_succ_eq_iff (hp.trans hk0.symm)
    rw [hp, hk0] at hiff
    by_cases hc : hash e.1 % 2 ^ ((keyBucket hash t key).depth_ + 1) =
        hash key % 2 ^ ((keyBucket hash t key).depth_ + 1)
    · have := hiff.1 hc
      simp only [hc, decide_True]
      simp only [Bool.not_eq_true', decide_eq_false_iff_not]
      intro hx
      exact i2 hx
    · simp only [hc, decide_False]
      simp only [Bool.not_eq_false', decide_eq_true_eq]
      by_contra hx
      apply hc
      rw [hiff]
      constructor
      · intro hy
        exact absurd hy hx
      · intro hy
        exact absurd hy i2
  · exact absurd hk0 i1

theorem Bucket.Insert_eq_false {b : Bucket K V} {key : K} (value : V)
    (hn : findItems key b.list_ = none) (hf : b.list_.length = b.size_) :
    (b.Insert key value).1 = false := by
  unfold Bucket.Insert
  rw [(overwriteItems_eq_none_iff key value b.list_).2 hn]
  simp [Bucket.IsFull, hf]

/-- When the bucket the key addresses is full of other keys whose hashes agree
with the key's hash on the low 30 bits, no recursion budget lets
`InsertInternal` return. -/
theorem InsertInternal_never_done {hash : K → Nat} (key : K) (value : V) (fuel : Nat) :
    ∀ (t : ExtendibleHashTable K V), WF hash t →
      findItems key (keyBucket hash t key).list_ = none →
      (keyBucket hash t key).list_.length = (keyBucket hash t key).size_ →
      (∀ e ∈ (keyBucket hash t key).list_, hash e.1 % 2 ^ 30 = hash key % 2 ^ 30) →
      ∀ t', InsertInternal hash fuel t key value ≠ Outcome.done t' := by
  induction fuel with
  | zero =>
    intro t _ _ _ _ t' h
    simp [InsertInternal] at h
  | succ n ih =>
    intro t hwf hn hf hag t' h
    rw [InsertInternal_succ, Bucket.Insert_eq_false value hn hf] at h
    simp only [Bool.false_eq_true, if_false] at h
    by_cases hov : 31 ≤ (keyBucket hash t key).depth_ + 1
    · rw [if_pos hov] at h
      cases h
    · rw [if_neg hov] at h
      have hkb := splitStep_keyBucket hwf key
      have hsize : (keyBucket hash t key).size_ = t.bucket_size_ :=
        hwf.size_eq _ (IndexOf_lt hash t key)
      have hall : (keyBucket hash t key).list_.filter (fun ele =>
          decide (hash ele.1 % 2 ^ ((keyBucket hash t key).depth_ + 1) =
            hash key % 2 ^ ((keyBucket hash t key).depth_ + 1))) = (keyBucket hash t key).list_ := by
        rw [List.filter_eq_self]
        intro e he
        have := hag e he
        simp only [decide_eq_true_eq]
        rw [← mod_mod_pow (hash e.1) (show (keyBucket hash t key).depth_ + 1 ≤ 30 by omega),
          this, mod_mod_pow _ (show (keyBucket hash t key).depth_ + 1 ≤ 30 by omega)]
      rw [hall] at hkb
      refine ih (splitStep hash t key) (splitStep_wf hwf key (by omega)) ?_ ?_ ?_ t' h
      · rw [hkb]
        exact hn
      · rw [hkb]
        simp only []
        rw [hf, hsize]
      · rw [hkb]
        exact hag

/-- When the bucket the key addresses holds the key, or is not full, or holds an
entry whose hash differs from the key's hash within the low 30 bits,
`InsertInternal` returns within `31 - depth` recursive calls, where `depth` is
the local depth of the addressed bucket. -/
theorem InsertInternal_returns {hash : K → Nat} (key : K) (value : V) (n : Nat) :
    ∀ (t : ExtendibleHashTable K V), WF hash t →
      30 ≤ (keyBucket hash t key).depth_ + n →
      (findItems key (keyBucket hash t key).list_ ≠ none ∨
        (keyBucket hash t key).list_.length ≠ (keyBucket hash t key).size_ ∨
        ∃ e ∈ (keyBucket hash t key).list_, hash e.1 % 2 ^ 30 ≠ hash key % 2 ^ 30) →
      ∃ t', InsertInternal hash (n + 1) t key value = Outcome.done t' := by
  induction n with
  | zero =>
    intro t hwf hn hcond
    rw [InsertInternal_succ]
    by_cases hres : ((keyBucket hash t key).Insert key value).1 = true
    · rw [if_pos hres]
      exact ⟨_, rfl⟩
    · exfalso
      have hidx := IndexOf_lt hash t key
      obtain ⟨h1, h2⟩ := Bucket.Insert_false (by simpa using hres)
      have hdg : (keyBucket hash t key).depth_ ≤ t.global_depth_ := hwf.depth_le _ hidx
      have hgd := hwf.gd_le
      have hd30 : (keyBucket hash t key).depth_ = 30 := by omega
      have hplaced : ∀ e ∈ (keyBucket hash t key).list_,
          hash e.1 % 2 ^ (keyBucket hash t key).depth_ =
          IndexOf hash t key % 2 ^ (keyBucket hash t key).depth_ := hwf.placed _ hidx
      rcases hcond with hc | hc | ⟨e, he, hne⟩
      · exact hc h1
      · exact hc h2
      · have hp := hplaced e he
        rw [IndexOf_eq, mod_mod_pow _ hdg, hd30] at hp
        exact hne hp
  | succ m ih =>
    intro t hwf hn hcond
    rw [InsertInternal_succ]
    by_cases hres : ((keyBucket hash t key).Insert key value).1 = true
    · rw [if_pos hres]
      exact ⟨_, rfl⟩
    · rw [if_neg hres]
      have hidx := IndexOf_lt hash t key
      obtain ⟨h1, h2⟩ := Bucket.Insert_false (by simpa using hres)
      have hsize : (keyBucket hash t key).size_ = t.bucket_size_ := hwf.size_eq _ hidx
      have hdg : (keyBucket hash t key).depth_ ≤ t.global_depth_ := hwf.depth_le _ hidx
      have hgd := hwf.gd_le
      have hplaced : ∀ e ∈ (keyBucket hash t key).list_,
          hash e.1 % 2 ^ (keyBucket hash t key).depth_ =
          IndexOf hash t key % 2 ^ (keyBucket hash t key).depth_ := hwf.placed _ hidx
      obtain ⟨e, he, hne⟩ : ∃ e ∈ (keyBucket hash t key).list_,
          hash e.1 % 2 ^ 30 ≠ hash key % 2 ^ 30 := by
        rcases hcond with hc | hc | hc
        · exact absurd h1 hc
        · exact absurd h2 hc
        · exact hc
      have hlt : (keyBucket hash t key).depth_ < 30 := by
        by_contra hc
        have hd30 : (keyBucket hash t key).depth_ = 30 := by omega
        have hp := hplaced e he
        rw [IndexOf_eq, mod_mod_pow _ hdg, hd30] at hp
        exact hne hp
      rw [if_neg (by omega)]
      have hkb := splitStep_keyBucket hwf key
      apply ih (splitStep hash t key) (splitStep_wf hwf key (by omega))
      · rw [hkb]
        simp only []
        omega
      · rw [hkb]
        simp only []
        by_cases hpass : hash e.1 % 2 ^ ((keyBucket hash t key).depth_ + 1) =
            hash key % 2 ^ ((keyBucket hash t key).depth_ + 1)
        · right; right
          exact ⟨e, List.mem_filter.2 ⟨he, by simpa using hpass⟩, hne⟩
        · right; left
          have hlen : ((keyBucket hash t key).list_.filter (fun ele =>
              decide (hash ele.1 % 2 ^ ((keyBucket hash t key).depth_ + 1) =
                hash key % 2 ^ ((keyBucket hash t key).depth_ + 1)))).length <
              (keyBucket hash t key).list_.length := by
            rw [List.length_filter_lt_length_iff_exists]
            exact ⟨e, he, by simpa using hpass⟩
          omega

end Invariant

/-! ## Hash table: the operations' contracts -/

section Contracts

variable {K V : Type} [DecidableEq K]

theorem exampleFull_reachable : Reachable (fun k : Nat => k) 2 exampleFull :=
  @Reachable.insert Nat Nat _ (fun k : Nat => k) 2
    { global_depth_ := 0, bucket_size_ := 2, num_buckets_ := 1, dir_ := [0],
      heap_ := [{ size_ := 2, depth_ := 0, list_ := [(0, 10)] }] }
    exampleFull 2 20 1
    (@Reachable.insert Nat Nat _ (fun k : Nat => k) 2 (ExtendibleHashTable.new 2) _ 0 10 1
      Reachable.new (by decide))
    (by decide)

theorem exampleOne_reachable (hash : Nat → Nat) : Reachable hash 1 exampleOne :=
  @Reachable.insert Nat Nat _ hash 1 (ExtendibleHashTable.new 1) exampleOne 0 5 1 Reachable.new
    (by simp [Insert, InsertInternal, Bucket.Insert, overwriteItems, Bucket.IsFull,
      ExtendibleHashTable.new, ExtendibleHashTable.deref, ExtendibleHashTable.slot,
      ExtendibleHashTable.store, exampleOne])

theorem exampleFin_reachable : Reachable (fun k : Fin 8 => k.val) 1 exampleFin :=
  @Reachable.insert (Fin 8) Nat _ (fun k : Fin 8 => k.val) 1 (ExtendibleHashTable.new 1)
    exampleFin 0 5 1 Reachable.new (by decide)

/-- C1. Round trip: on a table reachable from a new table by `Insert` and
`Remove`, whenever `Insert(k, v)` completes, whatever the number of splits and
directory doublings it performed, `Find(k)` on the resulting table returns `v`. -/
theorem insert_find_roundtrip (hash : K → Nat) (bs : Nat) (t t' : ExtendibleHashTable K V)
    (k : K) (v : V) (fuel : Nat) (hr : Reachable hash bs t)
    (hins : Insert hash fuel t k v = Outcome.done t') : Find hash t' k = some v :=
  (InsertInternal_done fuel t t' k v hr.wf.1 hins).2.1

theorem insert_find_roundtrip_witness :
    Reachable (fun k : Nat => k) 2 exampleFull ∧
      Insert (fun k : Nat => k) 3 exampleFull 4 40 = Outcome.done exampleSplit ∧
      Find (fun k : Nat => k) exampleSplit 4 = some 40 :=
  ⟨exampleFull_reachable, by decide,
    insert_find_roundtrip (fun k : Nat => k) 2 exampleFull exampleSplit 4 40 3
      exampleFull_reachable (by decide)⟩

/-- C2. `Insert` preserves every other key: on a reachable table, whenever
`Insert(k, v)` completes, `Find(k')` for any key `k'` different from `k` returns
on the resulting table what it returned before, whatever the number of splits
and directory doublings. -/
theorem insert_preserves_other_keys (hash : K → Nat) (bs : Nat)
    (t t' : ExtendibleHashTable K V) (k k' : K) (v : V) (fuel : Nat)
    (hr : Reachable hash bs t) (hins : Insert hash fuel t k v = Outcome.done t')
    (hne : k' ≠ k) : Find hash t' k' = Find hash t k' :=
  (InsertInternal_done fuel t t' k v hr.wf.1 hins).2.2.1 k' hne

theorem insert_preserves_other_keys_witness :
    Reachable (fun k : Nat => k) 2 exampleFull ∧
      Insert (fun k : Nat => k) 3 exampleFull 4 40 = Outcome.done exampleSplit ∧
      (2 : Nat) ≠ 4 ∧
      Find (fun k : Nat => k) exampleSplit 2 = Find (fun k : Nat => k) exampleFull 2 :=
  ⟨exampleFull_reachable, by decide, by decide,
    insert_preserves_other_keys (fun k : Nat => k) 2 exampleFull exampleSplit 4 2 40 3
      exampleFull_reachable (by decide) (by decide)⟩

/-- C3, as stated, fails: `Insert` does not complete (i) on a new table of
bucket size 0, where every bucket is full from the start, and (ii) with bucket
size 1 and a constant hash function when a second key is inserted, where no
split separates the two keys: no recursion budget makes the call return. -/
theorem insert_terminates_counterexample :
    (∀ fuel t', Insert (fun k : Nat => k) fuel
        (ExtendibleHashTable.new 0 : ExtendibleHashTable Nat Nat) 7 70 ≠ Outcome.done t') ∧
    (Reachable (fun _ : Nat => 0) 1 exampleOne ∧
      ∀ fuel t', Insert (fun _ : Nat => 0) fuel exampleOne 1 6 ≠ Outcome.done t') := by
  refine ⟨?_, exampleOne_reachable _, ?_⟩
  · intro fuel t'
    exact InsertInternal_never_done 7 70 fuel _ (wf_new _ 0) (by decide) (by decide)
      (by decide) t'
  · intro fuel t'
    exact InsertInternal_never_done 1 6 fuel _ (exampleOne_reachable _).wf.1 (by decide)
      (by decide) (by decide) t'

/-- C3 (amended). On a table reachable from a new table of any bucket size,
for any hash function:

* if the bucket the key addresses already holds the key, or holds fewer than
  `bucket_size` entries, or holds an entry whose hash differs from the key's
  hash within the low 30 bits, then `Insert(key, value)` completes within 31
  calls of `InsertInternal` (at most 30 splits), and the pair is stored:
  `Find(key)` returns `value` afterwards;
* if that bucket does not hold the key, is full, and every entry of it has the
  same hash as the key, then `Insert(key, value)` does not complete, whatever
  the recursion budget. -/
theorem insert_terminates (hash : K → Nat) (bs : Nat) (t : ExtendibleHashTable K V) (k : K)
    (v : V) (hr : Reachable hash bs t) :
    ((Find hash t k ≠ none ∨ (keyBucket hash t k).list_.length < bs ∨
        ∃ e ∈ (keyBucket hash t k).list_, hash e.1 % 2 ^ 30 ≠ hash k % 2 ^ 30) →
      ∃ t', Insert hash 31 t k v = Outcome.done t' ∧ Find hash t' k = some v) ∧
    ((Find hash t k = none ∧ bs ≤ (keyBucket hash t k).list_.length ∧
        ∀ e ∈ (keyBucket hash t k).list_, hash e.1 = hash k) →
      ∀ fuel t', Insert hash fuel t k v ≠ Outcome.done t') := by
  obtain ⟨hwf, hsz⟩ := hr.wf
  have hidx := IndexOf_lt hash t k
  have hsize : (keyBucket hash t k).size_ = bs := (hwf.size_eq _ hidx).trans hsz
  have hcap : (keyBucket hash t k).list_.length ≤ bs := by
    rw [← hsz]
    exact hwf.cap _ hidx
  have hfind : Find hash t k = findItems k (keyBucket hash t k).list_ := rfl
  constructor
  · intro hcond
    obtain ⟨t', ht'⟩ : ∃ t', Insert hash 31 t k v = Outcome.done t' := by
      apply InsertInternal_returns k v 30 t hwf (by omega)
      rcases hcond with hc | hc | hc
      · exact Or.inl (by rw [← hfind]; exact hc)
      · exact Or.inr (Or.inl (by omega))
      · exact Or.inr (Or.inr hc)
    exact ⟨t', ht', (InsertInternal_done 31 t t' k v hwf ht').2.1⟩
  · rintro ⟨c1, c2, c3⟩ fuel t'
    exact InsertInternal_never_done k v fuel t hwf (by rw [← hfind]; exact c1) (by omega)
      (fun e he => by rw [c3 e he]) t'

theorem insert_terminates_witness :
    Reachable (fun k : Nat => k) 2 exampleFull ∧
      (∃ e ∈ (keyBucket (fun k : Nat => k) exampleFull 4).list_,
        e.1 % 2 ^ 30 ≠ 4 % 2 ^ 30) ∧
      (∃ t', Insert (fun k : Nat => k) 31 exampleFull 4 40 = Outcome.done t' ∧
        Find (fun k : Nat => k) t' 4 = some 40) ∧
      Reachable (fun k : Fin 8 => k.val) 1 exampleFin ∧
      (∃ t', Insert (fun k : Fin 8 => k.val) 31 exampleFin 1 6 = Outcome.done t' ∧
        Find (fun k : Fin 8 => k.val) t' 1 = some 6) ∧
      Reachable (fun _ : Nat => 0) 1 exampleOne ∧
      (∀ fuel t', Insert (fun _ : Nat => 0) fuel exampleOne 1 6 ≠ Outcome.done t') :=
  ⟨exampleFull_reachable, by decide,
    (insert_terminates (fun k : Nat => k) 2 exampleFull 4 40 exampleFull_reachable).1
      (Or.inr (Or.inr (by decide))),
    exampleFin_reachable,
    (insert_terminates (fun k : Fin 8 => k.val) 1 exampleFin 1 6 exampleFin_reachable).1
      (Or.inr (Or.inr (by decide))),
    exampleOne_reachable _,
    (insert_terminates (fun _ : Nat => 0) 1 exampleOne 1 6 (exampleOne_reachable _)).2
      ⟨by decide, by decide, by decide⟩⟩

/-- In the model, where a split of a bucket of depth 30 is reported as
`Outcome.overflow`, the condition of `InsertInternal_returns` is also
necessary: on a reachable table `Insert(key, value)` completes for some
recursion budget exactly when the addressed bucket holds the key, or holds
fewer than `bucket_size` entries, or holds an entry whose hash differs from the
key's hash within the low 30 bits. -/
theorem insert_completes_iff (hash : K → Nat) (bs : Nat) (t : ExtendibleHashTable K V) (k : K)
    (v : V) (hr : Reachable hash bs t) :
    (∃ fuel t', Insert hash fuel t k v = Outcome.done t') ↔
      (Find hash t k ≠ none ∨ (keyBucket hash t k).list_.length < bs ∨
        ∃ e ∈ (keyBucket hash t k).list_, hash e.1 % 2 ^ 30 ≠ hash k % 2 ^ 30) := by
  obtain ⟨hwf, hsz⟩ := hr.wf
  have hidx := IndexOf_lt hash t k
  have hsize : (keyBucket hash t k).size_ = bs := (hwf.size_eq _ hidx).trans hsz
  have hcap : (keyBucket hash t k).list_.length ≤ bs := by
    rw [← hsz]
    exact hwf.cap _ hidx
  have hfind : Find hash t k = findItems k (keyBucket hash t k).list_ := rfl
  constructor
  · rintro ⟨fuel, t', hdone⟩
    by_contra hc
    simp only [not_or, not_exists, not_and, ne_eq, not_not, Nat.not_lt] at hc
    obtain ⟨c1, c2, c3⟩ := hc
    exact InsertInternal_never_done k v fuel t hwf (by rw [← hfind]; exact c1) (by omega)
      c3 t' hdone
  · intro hcond
    refine ⟨31, ?_⟩
    apply InsertInternal_returns k v 30 t hwf (by omega)
    rcases hcond with hc | hc | hc
    · exact Or.inl (by rw [← hfind]; exact hc)
    · exact Or.inr (Or.inl (by omega))
    · exact Or.inr (Or.inr hc)

/-- With bucket size 1 and the identity hash, the keys 0 and 2^30 agree on the
low 30 bits: separating them would take a bucket of depth 31, whose mask
`(1 << 31) - 1` does not fit the 32-bit `int` of the code; the model reports no
completed insert for the second key. -/
theorem insert_overflow_example :
    Reachable (fun k : Nat => k) 1 exampleOne ∧
      ∀ fuel t', Insert (fun k : Nat => k) fuel exampleOne (2 ^ 30) 6 ≠ Outcome.done t' := by
  refine ⟨exampleOne_reachable _, ?_⟩
  intro fuel t'
  exact InsertInternal_never_done (2 ^ 30) 6 fuel _ (exampleOne_reachable _).wf.1 (by decide)
    (by decide) (by decide) t'

theorem found_ptr_lt {hash : K → Nat} {t : ExtendibleHashTable K V} {k : K} {v0 : V}
    (h : Find hash t k = some v0) : t.slot (IndexOf hash t k) < t.heap_.length := by
  by_contra hc
  unfold Find ExtendibleHashTable.deref Bucket.Find at h
  simp only [List.getD_eq_getElem?_getD] at h
  rw [List.getElem?_eq_none (Nat.le_of_not_lt hc)] at h
  simp [findItems] at h

/-- C4. Upsert: when `Find` finds `k`, `Insert(k, v)` returns without any
split (one call of `InsertInternal`), `Find(k)` then returns `v`, every other
key is found as before, and the number of stored entries, the keys of every
bucket and their order, the global depth, every local depth, the directory
and `NumBuckets` are unchanged. -/
theorem insert_existing_key (hash : K → Nat) (t : ExtendibleHashTable K V) (k : K) (v v0 : V)
    (n : Nat) (hfound : Find hash t k = some v0) :
    ∃ t', Insert hash (n + 1) t k v = Outcome.done t' ∧ Find hash t' k = some v ∧
      (∀ k', k' ≠ k → Find hash t' k' = Find hash t k') ∧
      numEntries t' = numEntries t ∧
      (∀ p, (t'.deref p).list_.map Prod.fst = (t.deref p).list_.map Prod.fst) ∧
      GetGlobalDepth t' = GetGlobalDepth t ∧
      (∀ i, GetLocalDepth t' i = GetLocalDepth t i) ∧
      t'.dir_ = t.dir_ ∧ GetNumBuckets t' = GetNumBuckets t := by
  have hp := found_ptr_lt hfound
  have hf : findItems k (keyBucket hash t k).list_ = some v0 := hfound
  have hres : ((keyBucket hash t k).Insert k v).1 = true := by
    by_contra hc
    have := (@Bucket.Insert_false K V _ (keyBucket hash t k) k v (by simpa using hc)).1
    rw [hf] at this
    cases this
  obtain ⟨h1, _, h3, h4, h5⟩ := Bucket.Insert_true hres
  have hkeys : ((keyBucket hash t k).Insert k v).2.list_.map Prod.fst =
      (keyBucket hash t k).list_.map Prod.fst := by
    rcases h5 with ⟨hm, _⟩ | ⟨hn, _, _⟩
    · exact hm
    · rw [hf] at hn
      cases hn
  have hall : ∀ p, ((t.store (t.slot (IndexOf hash t k))
      ((keyBucket hash t k).Insert k v).2).deref p).list_.map Prod.fst =
      (t.deref p).list_.map Prod.fst := by
    intro p
    rw [deref_store t _ p _ hp]
    split
    · rename_i hpp
      rw [hkeys, hpp]
      rfl
    · rfl
  refine ⟨_, ?_, ?_, ?_, ?_, hall, rfl, ?_, rfl, rfl⟩
  · unfold Insert
    rw [InsertInternal_succ, if_pos hres]
  · rw [Find_store hash t _ _ hp, if_pos rfl]
    exact h3
  · intro k' hk'
    rw [Find_store hash t _ _ hp]
    split
    · rename_i hs
      rw [h4 k' hk']
      unfold Find Bucket.Find keyBucket
      simp only []
      rw [hs]
    · rfl
  · unfold numEntries
    apply congrArg List.sum
    apply List.map_congr_left
    intro p _
    have := congrArg List.length (hall p)
    simpa using this
  · intro i
    unfold GetLocalDepth Bucket.GetDepth
    rw [slot_store, deref_store t _ _ _ hp]
    split
    · rename_i hpp
      rw [h1, hpp]
      rfl
    · rfl

theorem insert_existing_key_witness :
    Find (fun k : Nat => k) exampleFull 2 = some 20 ∧
      ∃ t', Insert (fun k : Nat => k) 1 exampleFull 2 99 = Outcome.done t' ∧
        Find (fun k : Nat => k) t' 2 = some 99 ∧
        (∀ k', k' ≠ 2 → Find (fun k : Nat => k) t' k' = Find (fun k : Nat => k) exampleFull k') ∧
        numEntries t' = numEntries exampleFull ∧
        (∀ p, (t'.deref p).list_.map Prod.fst = (exampleFull.deref p).list_.map Prod.fst) ∧
        GetGlobalDepth t' = GetGlobalDepth exampleFull ∧
        (∀ i, GetLocalDepth t' i = GetLocalDepth exampleFull i) ∧
        t'.dir_ = exampleFull.dir_ ∧ GetNumBuckets t' = GetNumBuckets exampleFull :=
  ⟨by decide, insert_existing_key (fun k : Nat => k) exampleFull 2 99 20 0 (by decide)⟩

/-- C5. `Remove` of a key that `Find` does not find returns false and leaves
the table exactly as it was. -/
theorem remove_absent (hash : K → Nat) (t : ExtendibleHashTable K V) (k : K)
    (habsent : Find hash t k = none) : Remove hash t k = (false, t) := by
  have hf : findItems k (t.deref (t.slot (IndexOf hash t k))).list_ = none := habsent
  obtain ⟨_, _, _, _, _, h6, h7⟩ := Bucket.Remove_spec (t.deref (t.slot (IndexOf hash t k))) k
  have h1 : ((t.deref (t.slot (IndexOf hash t k))).Remove k).1 = false := by
    cases hb : ((t.deref (t.slot (IndexOf hash t k))).Remove k).1 with
    | false => rfl
    | true => exact absurd hf (h6.1 hb)
  unfold Remove
  simp only []
  rw [h1, h7 hf, store_deref_self]

theorem remove_absent_witness :
    Find (fun k : Nat => k) exampleSplit 6 = none ∧
      Remove (fun k : Nat => k) exampleSplit 6 = (false, exampleSplit) :=
  ⟨by decide, remove_absent (fun k : Nat => k) exampleSplit 6 (by decide)⟩

/-- C6. `Remove` of a key that `Find` finds, on a reachable table: it returns
true; afterwards `Find(k)` finds nothing and no bucket referenced by the
directory holds `k`; every other key is found as before; the global depth,
every local depth, the directory and `NumBuckets` are unchanged. -/
theorem remove_present (hash : K → Nat) (bs : Nat) (t : ExtendibleHashTable K V) (k : K)
    (v0 : V) (hr : Reachable hash bs t) (hfound : Find hash t k = some v0) :
    (Remove hash t k).1 = true ∧ Find hash (Remove hash t k).2 k = none ∧
      (∀ i, i < (Remove hash t k).2.dir_.length →
        findItems k ((Remove hash t k).2.deref ((Remove hash t k).2.slot i)).list_ = none) ∧
      (∀ k', k' ≠ k → Find hash (Remove hash t k).2 k' = Find hash t k') ∧
      GetGlobalDepth (Remove hash t k).2 = GetGlobalDepth t ∧
      (∀ i, GetLocalDepth (Remove hash t k).2 i = GetLocalDepth t i) ∧
      (Remove hash t k).2.dir_ = t.dir_ ∧
      GetNumBuckets (Remove hash t k).2 = GetNumBuckets t := by
  have hwf := hr.wf.1
  have hidx := IndexOf_lt hash t k
  have hp := hwf.ptr_lt _ hidx
  have hf : findItems k (t.deref (t.slot (IndexOf hash t k))).list_ = some v0 := hfound
  obtain ⟨h1, _, _, h4, h5, h6, _⟩ := Bucket.Remove_spec (t.deref (t.slot (IndexOf hash t k))) k
  have hnone := h5 (hwf.nodup _ hidx)
  have hrem : (Remove hash t k).2 = t.store (t.slot (IndexOf hash t k))
      ((t.deref (t.slot (IndexOf hash t k))).Remove k).2 := rfl
  refine ⟨?_, ?_, ?_, ?_, rfl, ?_, rfl, rfl⟩
  · exact h6.2 (by rw [hf]; simp)
  · rw [hrem, Find_store hash t _ _ hp, if_pos rfl]
    exact hnone
  · intro i hi
    have hi' : i < 2 ^ t.global_depth_ := by
      rw [← hwf.dir_len]
      exact hi
    rw [hrem, slot_store, deref_store t _ _ _ hp]
    split
    · exact hnone
    · rename_i hne
      by_contra hc
      obtain ⟨w, hw⟩ := Option.ne_none_iff_exists'.1 hc
      have hpl := hwf.placed i hi' _ (findItems_mem hw)
      have hsh := (hwf.shared i (IndexOf hash t k) hi' hidx).2
      apply hne
      rw [hsh]
      rw [IndexOf_eq, mod_mod_pow _ (hwf.depth_le i hi')]
      exact hpl
  · intro k' hk'
    rw [hrem, Find_store hash t _ _ hp]
    split
    · rename_i hs
      rw [h4 k' hk']
      unfold Find Bucket.Find
      simp only []
      rw [hs]
    · rfl
  · intro i
    unfold GetLocalDepth Bucket.GetDepth
    rw [hrem, slot_store, deref_store t _ _ _ hp]
    split
    · rename_i hpp
      rw [h1, hpp]
    · rfl

theorem exampleSplit_reachable : Reachable (fun k : Nat => k) 2 exampleSplit :=
  @Reachable.insert Nat Nat _ (fun k : Nat => k) 2 exampleFull exampleSplit 4 40 3
    exampleFull_reachable (by decide)

theorem remove_present_witness :
    Reachable (fun k : Nat => k) 2 exampleSplit ∧
      Find (fun k : Nat => k) exampleSplit 4 = some 40 ∧
      (Remove (fun k : Nat => k) exampleSplit 4).1 = true ∧
      Find (fun k : Nat => k) (Remove (fun k : Nat => k) exampleSplit 4).2 4 = none :=
  ⟨exampleSplit_reachable, by decide,
    (remove_present (fun k : Nat => k) 2 exampleSplit 4 40 exampleSplit_reachable
      (by decide)).1,
    (remove_present (fun k : Nat => k) 2 exampleSplit 4 40 exampleSplit_reachable
      (by decide)).2.1⟩

end Contracts

/-! ## Replacer: pools and index maps -/

section Pools

theorem mapFind_mapErase (f g : Int) (m : IterMap) :
    mapFind g (mapErase f m) = if g = f then none else mapFind g m := by
  induction m with
  | nil => simp [mapErase, mapFind]
  | cons e rest ih =>
    obtain ⟨k, a⟩ := e
    unfold mapErase at ih ⊢
    by_cases hk : k = f
    · rw [List.filter_cons_of_neg (by simp [hk]), ih]
      by_cases hg : g = f
      · simp [hg]
      · have : k ≠ g := by rw [hk]; exact Ne.symm hg
        simp [hg, mapFind, this]
    · rw [List.filter_cons_of_pos (by simp [hk])]
      by_cases hg : g = f
      · subst hg
        simp only [mapFind, hk, if_false]
        rw [ih]
        simp
      · simp only [mapFind, ih, hg, if_false]

theorem mapFind_mapAssign (f g : Int) (a : Nat) (m : IterMap) :
    mapFind g (mapAssign f a m) = if g = f then some a else mapFind g m := by
  induction m with
  | nil =>
    by_cases hg : g = f
    · simp [mapAssign, mapFind, hg]
    · simp [mapAssign, mapFind, hg, Ne.symm hg]
  | cons e rest ih =>
    obtain ⟨k, b⟩ := e
    by_cases hk : k = f
    · by_cases hg : g = f
      · simp [mapAssign, mapFind, hk, hg]
      · have : f ≠ g := Ne.symm hg
        simp [mapAssign, mapFind, hk, hg, this]
    · by_cases hg : g = f
      · subst hg
        simp only [mapAssign, hk, if_false, mapFind]
        rw [ih]
        simp
      · simp only [mapAssign, hk, if_false, mapFind, ih, hg]

theorem eraseNode_sublist (a : Nat) (l : List Node) : (eraseNode a l).Sublist l := by
  induction l with
  | nil => exact List.Sublist.slnil
  | cons n rest ih =>
    obtain ⟨b, r⟩ := n
    by_cases hb : b = a
    · simp only [eraseNode, hb, if_true]
      exact List.sublist_cons_self _ _
    · simp only [eraseNode, hb, if_false]
      exact ih.cons₂ _

theorem mem_eraseNode {a : Nat} {l : List Node} (hnd : (l.map Prod.fst).Nodup) (x : Node) :
    x ∈ eraseNode a l ↔ x ∈ l ∧ x.1 ≠ a := by
  induction l with
  | nil => simp [eraseNode]
  | cons n rest ih =>
    obtain ⟨b, r⟩ := n
    simp only [List.map_cons, List.nodup_cons] at hnd
    by_cases hb : b = a
    · simp only [eraseNode, hb, if_true, List.mem_cons]
      constructor
      · intro hx
        refine ⟨Or.inr hx, ?_⟩
        intro hxa
        apply hnd.1
        rw [hb, ← hxa]
        exact List.mem_map_of_mem _ hx
      · rintro ⟨hx | hx, hne⟩
        · rw [hx] at hne
          exact absurd rfl hne
        · exact hx
    · simp only [eraseNode, hb, if_false, List.mem_cons, ih hnd.2]
      constructor
      · rintro (hx | ⟨hx, hne⟩)
        · rw [hx]
          exact ⟨Or.inl rfl, hb⟩
        · exact ⟨Or.inr hx, hne⟩
      · rintro ⟨hx | hx, hne⟩
        · exact Or.inl hx
        · exact Or.inr ⟨hx, hne⟩

theorem eraseNode_eq_filter {a : Nat} {l : List Node} (hnd : (l.map Prod.fst).Nodup) :
    eraseNode a l = l.filter (fun n => !decide (n.1 = a)) := by
  induction l with
  | nil => rfl
  | cons n rest ih =>
    obtain ⟨b, r⟩ := n
    simp only [List.map_cons, List.nodup_cons] at hnd
    by_cases hb : b = a
    · rw [List.filter_cons_of_neg (by simp [hb])]
      simp only [eraseNode, hb, if_true]
      symm
      rw [List.filter_eq_self]
      intro x hx
      have : x.1 ≠ a := by
        intro hxa
        apply hnd.1
        rw [hb, ← hxa]
        exact List.mem_map_of_mem _ hx
      simp [this]
    · rw [List.filter_cons_of_pos (by simp [hb])]
      simp only [eraseNode, hb, if_false, ih hnd.2]

theorem eraseNode_append {a : Nat} {l : List Node} (l2 : List Node)
    (ha : a ∈ l.map Prod.fst) : eraseNode a (l ++ l2) = eraseNode a l ++ l2 := by
  induction l with
  | nil => simp at ha
  | cons n rest ih =>
    obtain ⟨b, r⟩ := n
    by_cases hb : b = a
    · simp [eraseNode, hb]
    · simp only [List.map_cons, List.mem_cons] at ha
      rcases ha with ha | ha
      · exact absurd ha.symm hb
      · have := ih ha
        simp [eraseNode, hb, this]

theorem nodeAt_mem {a : Nat} {r : FrameInfo} {l : List Node} (h : nodeAt a l = some r) :
    (a, r) ∈ l := by
  induction l with
  | nil => simp [nodeAt] at h
  | cons n rest ih =>
    obtain ⟨b, q⟩ := n
    by_cases hb : b = a
    · simp only [nodeAt, hb, if_true, Option.some.injEq] at h
      rw [hb, h]
      exact List.mem_cons_self _ _
    · simp only [nodeAt, hb, if_false] at h
      exact List.mem_cons_of_mem _ (ih h)

theorem nodeAt_of_mem {a : Nat} {r : FrameInfo} {l : List Node}
    (hnd : (l.map Prod.fst).Nodup) (h : (a, r) ∈ l) : nodeAt a l = some r := by
  induction l with
  | nil => simp at h
  | cons n rest ih =>
    obtain ⟨b, q⟩ := n
    simp only [List.map_cons, List.nodup_cons] at hnd
    rcases List.mem_cons.1 h with h | h
    · injection h with h1 h2
      simp [nodeAt, h1, h2]
    · have hb : b ≠ a := by
        intro hb
        apply hnd.1
        rw [hb]
        exact List.mem_map_of_mem Prod.fst h
      simp only [nodeAt, hb, if_false]
      exact ih hnd.2 h

theorem updateNode_map_fst (a : Nat) (g : FrameInfo → FrameInfo) (l : List Node) :
    (updateNode a g l).map Prod.fst = l.map Prod.fst := by
  induction l with
  | nil => rfl
  | cons n rest ih =>
    obtain ⟨b, q⟩ := n
    by_cases hb : b = a
    · simp [updateNode, hb]
    · simp [updateNode, hb, ih]

theorem updateNode_map_id (a : Nat) (g : FrameInfo → FrameInfo)
    (hg : ∀ r, (g r).frame_id_ = r.frame_id_) (l : List Node) :
    (updateNode a g l).map (fun n => n.2.frame_id_) = l.map (fun n => n.2.frame_id_) := by
  induction l with
  | nil => rfl
  | cons n rest ih =>
    obtain ⟨b, q⟩ := n
    by_cases hb : b = a
    · simp [updateNode, hb, hg]
    · simp [updateNode, hb, ih]

theorem mem_updateNode {a : Nat} {g : FrameInfo → FrameInfo} {l : List Node}
    (hnd : (l.map Prod.fst).Nodup) (x : Node) :
    x ∈ updateNode a g l ↔
      (x.1 ≠ a ∧ x ∈ l) ∨ (x.1 = a ∧ ∃ r, (a, r) ∈ l ∧ x.2 = g r) := by
  induction l with
  | nil => simp [updateNode]
  | cons n rest ih =>
    obtain ⟨b, q⟩ := n
    obtain ⟨xa, xr⟩ := x
    simp only [List.map_cons, List.nodup_cons] at hnd
    have hnot : ∀ r, (b, r) ∉ rest := fun r hr => hnd.1 (List.mem_map_of_mem Prod.fst hr)
    by_cases hb : b = a
    · subst hb
      simp only [updateNode, if_true]
      constructor
      · intro h
        rcases List.mem_cons.1 h with h' | h'
        · injection h' with h1 h2
          exact Or.inr ⟨h1, q, List.mem_cons_self _ _, h2⟩
        · refine Or.inl ⟨?_, List.mem_cons_of_mem _ h'⟩
          intro hxa
          change xa = b at hxa
          subst hxa
          exact hnot xr h'
      · rintro (⟨h1, h2⟩ | ⟨h1, r, h2, h3⟩)
        · rcases List.mem_cons.1 h2 with h2 | h2
          · injection h2 with h21 _
            exact absurd h21 h1
          · exact List.mem_cons_of_mem _ h2
        · rcases List.mem_cons.1 h2 with h2 | h2
          · injection h2 with _ h22
            change xa = b at h1
            change xr = g r at h3
            subst h1
            rw [h3, h22]
            exact List.mem_cons_self _ _
          · exact absurd h2 (hnot r)
    · simp only [updateNode, hb, if_false]
      constructor
      · intro h
        rcases List.mem_cons.1 h with h | h
        · injection h with h1 h2
          refine Or.inl ⟨?_, ?_⟩
          · change xa ≠ a
            rw [h1]
            exact hb
          · rw [h1, h2]
            exact List.mem_cons_self _ _
        · rcases (ih hnd.2).1 h with ⟨h1, h2⟩ | ⟨h1, r, h2, h3⟩
          · exact Or.inl ⟨h1, List.mem_cons_of_mem _ h2⟩
          · exact Or.inr ⟨h1, r, List.mem_cons_of_mem _ h2, h3⟩
      · rintro (⟨h1, h2⟩ | ⟨h1, r, h2, h3⟩)
        · rcases List.mem_cons.1 h2 with h2 | h2
          · rw [h2]
            exact List.mem_cons_self _ _
          · exact List.mem_cons_of_mem _ ((ih hnd.2).2 (Or.inl ⟨h1, h2⟩))
        · rcases List.mem_cons.1 h2 with h2 | h2
          · injection h2 with h21 _
            exact absurd h21.symm hb
          · exact List.mem_cons_of_mem _ ((ih hnd.2).2 (Or.inr ⟨h1, r, h2, h3⟩))

theorem updateNode_const {a : Nat} {r : FrameInfo} {l : List Node} (g : FrameInfo → FrameInfo)
    (h : nodeAt a l = some r) : updateNode a (fun _ => g r) l = updateNode a g l := by
  induction l with
  | nil => rfl
  | cons n rest ih =>
    obtain ⟨b, q⟩ := n
    by_cases hb : b = a
    · simp only [nodeAt, hb, if_true, Option.some.injEq] at h
      simp [updateNode, hb, h]
    · simp only [nodeAt, hb, if_false] at h
      simp [updateNode, hb, ih h]

theorem evictScan_eq_none_iff (l : List Node) :
    evictScan l = none ↔ ∀ n ∈ l, n.2.evictable_ = false := by
  induction l with
  | nil => simp [evictScan]
  | cons n rest ih =>
    by_cases hn : n.2.evictable_ = true
    · simp [evictScan, FrameInfo.IsEvicatable, hn]
    · simp only [evictScan, FrameInfo.IsEvicatable, hn, if_false, List.mem_cons, forall_eq_or_imp]
      rw [← ih]
      cases evictScan rest <;> simp [hn]

theorem evictScan_some {l l' : List Node} {f : Int} (h : evictScan l = some (f, l')) :
    ∃ pre n post, l = pre ++ n :: post ∧ (∀ m ∈ pre, m.2.evictable_ = false) ∧
      n.2.evictable_ = true ∧ n.2.frame_id_ = f ∧ l' = pre ++ post := by
  induction l generalizing l' f with
  | nil => simp [evictScan] at h
  | cons n rest ih =>
    by_cases hn : n.2.evictable_ = true
    · simp only [evictScan, FrameInfo.IsEvicatable, hn, if_true, Option.some.injEq,
        Prod.mk.injEq, FrameInfo.GetId] at h
      exact ⟨[], n, rest, rfl, by simp, hn, h.1, by simp [h.2]⟩
    · have hn' : n.2.evictable_ = false := by simpa using hn
      cases hr : evictScan rest with
      | none => simp [evictScan, FrameInfo.IsEvicatable, hn', hr] at h
      | some p =>
        obtain ⟨f', rest'⟩ := p
        simp only [evictScan, FrameInfo.IsEvicatable, hn', hr, Option.some.injEq,
          Prod.mk.injEq, Bool.false_eq_true, if_false] at h
        obtain ⟨pre, m, post, h1, h2, h3, h4, h5⟩ := ih hr
        refine ⟨n :: pre, m, post, by simp [h1], ?_, h3, by rw [h4, h.1], by simp [← h.2, h5]⟩
        intro x hx
        rcases List.mem_cons.1 hx with hx | hx
        · rw [hx]
          exact hn'
        · exact h2 x hx

theorem evictScan_of_split {pre post : List Node} {n : Node}
    (hpre : ∀ m ∈ pre, m.2.evictable_ = false) (hn : n.2.evictable_ = true) :
    evictScan (pre ++ n :: post) = some (n.2.frame_id_, pre ++ post) := by
  induction pre with
  | nil => simp [evictScan, FrameInfo.IsEvicatable, FrameInfo.GetId, hn]
  | cons m rest ih =>
    have hm := hpre m (List.mem_cons_self _ _)
    have := ih (fun x hx => hpre x (List.mem_cons_of_mem _ hx))
    simp [evictScan, FrameInfo.IsEvicatable, hm, this]

end Pools

/-! ## Replacer: `Evict` -/

section EvictContracts

theorem Evict_cold {s : LRUKReplacer} {f : Int} {pool : List Node}
    (h : evictScan s.temp_pool_ = some (f, pool)) :
    Evict s = (some f, { s with temp_pool_ := pool, temp_map_ := mapErase f s.temp_map_ }) := by
  unfold Evict
  rw [h]

theorem Evict_hot {s : LRUKReplacer} {f : Int} {pool : List Node}
    (hc : evictScan s.temp_pool_ = none) (h : evictScan s.cache_pool_ = some (f, pool)) :
    Evict s =
      (some f, { s with cache_pool_ := pool, cache_map_ := mapErase f s.cache_map_ }) := by
  unfold Evict
  rw [hc, h]

theorem Evict_none {s : LRUKReplacer} (hc : evictScan s.temp_pool_ = none)
    (h : evictScan s.cache_pool_ = none) : Evict s = (none, s) := by
  unfold Evict
  rw [hc, h]

/-- The three possible courses of `Evict`. -/
theorem Evict_cases (s : LRUKReplacer) :
    (∃ f pool, evictScan s.temp_pool_ = some (f, pool) ∧
      Evict s = (some f, { s with temp_pool_ := pool, temp_map_ := mapErase f s.temp_map_ })) ∨
    (∃ f pool, evictScan s.temp_pool_ = none ∧ evictScan s.cache_pool_ = some (f, pool) ∧
      Evict s =
        (some f, { s with cache_pool_ := pool, cache_map_ := mapErase f s.cache_map_ })) ∨
    (evictScan s.temp_pool_ = none ∧ evictScan s.cache_pool_ = none ∧ Evict s = (none, s)) := by
  cases hc : evictScan s.temp_pool_ with
  | some p =>
    obtain ⟨f, pool⟩ := p
    exact Or.inl ⟨f, pool, rfl, Evict_cold hc⟩
  | none =>
    cases hh : evictScan s.cache_pool_ with
    | some p =>
      obtain ⟨f, pool⟩ := p
      exact Or.inr (Or.inl ⟨f, pool, rfl, rfl, Evict_hot hc hh⟩)
    | none => exact Or.inr (Or.inr ⟨rfl, rfl, Evict_none hc hh⟩)

theorem Evict_victim_mem {s : LRUKReplacer} {f : Int} (hf : (Evict s).1 = some f) :
    ∃ n ∈ s.temp_pool_ ++ s.cache_pool_, n.2.frame_id_ = f ∧ n.2.evictable_ = true := by
  rcases Evict_cases s with ⟨g, pool, h1, h2⟩ | ⟨g, pool, _, h1, h2⟩ | ⟨_, _, h2⟩
  · rw [h2] at hf
    injection hf with hf
    obtain ⟨pre, n, post, e1, _, e3, e4, _⟩ := evictScan_some h1
    refine ⟨n, ?_, e4.trans hf, e3⟩
    rw [e1]
    simp
  · rw [h2] at hf
    injection hf with hf
    obtain ⟨pre, n, post, e1, _, e3, e4, _⟩ := evictScan_some h1
    refine ⟨n, ?_, e4.trans hf, e3⟩
    rw [e1]
    simp
  · rw [h2] at hf
    cases hf

/-- C7. Selection order of `Evict`, for every replacer state: if the cold set
(`temp_pool_`) holds an evictable record, the victim is the first evictable
record in cold-set order, whatever the hot set holds; otherwise, if the hot set
(`cache_pool_`) holds an evictable record, the victim is the first evictable
record in hot-set order; a returned frame always has a record whose evictable
flag is set. Scenario: with k = 2, after accessing 1, 2, 3 `Evict` returns 1,
and after then accessing 2 `Evict` returns 3. -/
theorem evict_selection_order :
    (∀ s : LRUKReplacer,
      (∀ pre n post, s.temp_pool_ = pre ++ n :: post →
        (∀ m ∈ pre, m.2.evictable_ = false) → n.2.evictable_ = true →
        (Evict s).1 = some n.2.frame_id_) ∧
      (∀ pre n post, (∀ m ∈ s.temp_pool_, m.2.evictable_ = false) →
        s.cache_pool_ = pre ++ n :: post →
        (∀ m ∈ pre, m.2.evictable_ = false) → n.2.evictable_ = true →
        (Evict s).1 = some n.2.frame_id_) ∧
      (∀ f, (Evict s).1 = some f →
        ∃ n ∈ s.temp_pool_ ++ s.cache_pool_, n.2.frame_id_ = f ∧ n.2.evictable_ = true)) ∧
    (accessAll (LRUKReplacer.new 7 2) [1, 2, 3] = Result.ok scenarioCold ∧
      (Evict scenarioCold).1 = some 1 ∧
      RecordAccess (Evict scenarioCold).2 2 = Result.ok scenarioPromoted ∧
      (Evict scenarioPromoted).1 = some 3) := by
  refine ⟨fun s => ⟨?_, ?_, ?_⟩, ?_⟩
  · intro pre n post hs hpre hn
    have := @evictScan_of_split pre post n hpre hn
    rw [← hs] at this
    rw [Evict_cold this]
  · intro pre n post hcold hs hpre hn
    have := @evictScan_of_split pre post n hpre hn
    rw [← hs] at this
    rw [Evict_hot ((evictScan_eq_none_iff _).2 hcold) this]
  · intro f hf
    exact Evict_victim_mem hf
  · exact ⟨by decide, by decide, by decide, by decide⟩

theorem evict_selection_order_witness :
    exampleReplacer.temp_pool_ =
        [(0, { frame_id_ := 1, times_ := 1, evictable_ := false })] ++
          (1, { frame_id_ := 2, times_ := 1, evictable_ := true }) :: [] ∧
      (Evict exampleReplacer).1 = some 2 :=
  ⟨rfl, (evict_selection_order.1 exampleReplacer).1
    [(0, { frame_id_ := 1, times_ := 1, evictable_ := false })]
    (1, { frame_id_ := 2, times_ := 1, evictable_ := true }) [] rfl (by decide) rfl⟩

theorem size_eq_zero_iff (s : LRUKReplacer) :
    Size s = 0 ↔ ∀ n ∈ s.temp_pool_ ++ s.cache_pool_, n.2.evictable_ = false := by
  unfold Size FrameInfo.IsEvicatable
  simp only [Nat.add_eq_zero_iff, List.length_eq_zero, List.filter_eq_nil_iff, List.mem_append]
  constructor
  · rintro ⟨h1, h2⟩ n (hn | hn)
    · simpa using h2 n hn
    · simpa using h1 n hn
  · intro h
    exact ⟨fun n hn => by simpa using h n (Or.inr hn), fun n hn => by simpa using h n (Or.inl hn)⟩

/-- C8. For every replacer state, `Evict` returns "no victim" exactly when
`Size()` is 0, that is when no record of either set has its evictable flag
set; in that case the state is unchanged. "No victim" is an ordinary return
value of `Evict`, which has no failing path. -/
theorem evict_none_iff_size_zero (s : LRUKReplacer) :
    ((Evict s).1 = none ↔ Size s = 0) ∧
      (Size s = 0 ↔ ∀ n ∈ s.temp_pool_ ++ s.cache_pool_, n.2.evictable_ = false) ∧
      ((Evict s).1 = none → (Evict s).2 = s) := by
  refine ⟨?_, size_eq_zero_iff s, ?_⟩
  · rw [size_eq_zero_iff]
    rcases Evict_cases s with ⟨g, pool, h1, h2⟩ | ⟨g, pool, _, h1, h2⟩ | ⟨h0, h1, h2⟩
    · rw [h2]
      simp only [false_iff, reduceCtorEq]
      intro hall
      have := (evictScan_eq_none_iff _).2 (fun n hn => hall n (List.mem_append_left _ hn))
      rw [h1] at this
      cases this
    · rw [h2]
      simp only [false_iff, reduceCtorEq]
      intro hall
      have := (evictScan_eq_none_iff _).2 (fun n hn => hall n (List.mem_append_right _ hn))
      rw [h1] at this
      cases this
    · rw [h2]
      simp only [true_iff]
      intro n hn
      rcases List.mem_append.1 hn with hn | hn
      · exact (evictScan_eq_none_iff _).1 h0 n hn
      · exact (evictScan_eq_none_iff _).1 h1 n hn
  · intro h
    rcases Evict_cases s with ⟨g, pool, h1, h2⟩ | ⟨g, pool, _, h1, h2⟩ | ⟨h0, h1, h2⟩
    · rw [h2] at h
      cases h
    · rw [h2] at h
      cases h
    · rw [h2]

theorem evict_none_iff_size_zero_witness :
    Size examplePinned = 0 ∧ Evict examplePinned = (none, examplePinned) ∧
      Size exampleReplacer = 2 ∧ (Evict exampleReplacer).1 ≠ none :=
  ⟨by decide,
    Prod.ext ((evict_none_iff_size_zero examplePinned).1.2 (by decide))
      ((evict_none_iff_size_zero examplePinned).2.2
        ((evict_none_iff_size_zero examplePinned).1.2 (by decide))),
    by decide,
    fun h => absurd ((evict_none_iff_size_zero exampleReplacer).1.1 h) (by decide)⟩

end EvictContracts

/-! ## Replacer: structural invariant -/

section ReplacerInvariant

theorem PoolInv.swap {pool other : List Node} {map omap : IterMap} {fresh : Nat}
    (h : PoolInv pool other map omap fresh) : PoolInv other pool omap map fresh := by
  constructor
  · exact (List.perm_append_comm.map _).nodup_iff.1 h.addr_nodup
  · intro n hn
    exact h.addr_lt n (List.perm_append_comm.mem_iff.1 hn)
  · exact (List.perm_append_comm.map _).nodup_iff.1 h.id_nodup
  · exact h.omap_spec
  · exact h.map_spec

theorem PoolInv.pool_addr_nodup {pool other : List Node} {map omap : IterMap} {fresh : Nat}
    (h : PoolInv pool other map omap fresh) : (pool.map Prod.fst).Nodup :=
  ((List.sublist_append_left pool other).map _).nodup h.addr_nodup

theorem PoolInv.pool_id_nodup {pool other : List Node} {map omap : IterMap} {fresh : Nat}
    (h : PoolInv pool other map omap fresh) : (pool.map (fun n => n.2.frame_id_)).Nodup :=
  ((List.sublist_append_left pool other).map _).nodup h.id_nodup

theorem PoolInv.remove {pool other : List Node} {map omap : IterMap} {fresh : Nat}
    (h : PoolInv pool other map omap fresh) (f : Int) (map' : IterMap)
    (hmap : ∀ g, mapFind g map' = if g = f then none else mapFind g map) :
    PoolInv (pool.filter (fun n => !decide (n.2.frame_id_ = f))) other map' omap fresh := by
  have hsub : (pool.filter (fun n => !decide (n.2.frame_id_ = f)) ++ other).Sublist
      (pool ++ other) := (List.filter_sublist _).append (List.Sublist.refl _)
  constructor
  · exact (hsub.map _).nodup h.addr_nodup
  · intro n hn
    exact h.addr_lt n (hsub.subset hn)
  · exact (hsub.map _).nodup h.id_nodup
  · intro g a
    rw [hmap]
    by_cases hg : g = f
    · simp only [hg, if_true, List.mem_filter, reduceCtorEq, false_iff, not_exists, not_and]
      intro r hr
      simpa using hr.2
    · simp only [hg, if_false, h.map_spec, List.mem_filter]
      constructor
      · rintro ⟨r, hr, hid⟩
        exact ⟨r, ⟨hr, by simp [hid, hg]⟩, hid⟩
      · rintro ⟨r, ⟨hr, _⟩, hid⟩
        exact ⟨r, hr, hid⟩
  · exact h.omap_spec

theorem PoolInv.push {pool other : List Node} {map omap : IterMap} {fresh : Nat}
    (h : PoolInv pool other map omap fresh) (r : FrameInfo)
    (hnew : r.frame_id_ ∉ (pool ++ other).map (fun n => n.2.frame_id_)) (map' : IterMap)
    (hmap : ∀ g, mapFind g map' = if g = r.frame_id_ then some fresh else mapFind g map) :
    PoolInv (pool ++ [(fresh, r)]) other map' omap (fresh + 1) := by
  have hperm : ((pool ++ [(fresh, r)]) ++ other).Perm ((fresh, r) :: (pool ++ other)) := by
    rw [List.append_assoc, List.singleton_append]
    exact List.perm_middle
  constructor
  · rw [(hperm.map _).nodup_iff, List.map_cons, List.nodup_cons]
    refine ⟨?_, h.addr_nodup⟩
    intro hc
    obtain ⟨n, hn, hn1⟩ := List.mem_map.1 hc
    have := h.addr_lt n hn
    simp only [] at hn1
    omega
  · intro n hn
    rcases List.mem_cons.1 (hperm.mem_iff.1 hn) with hn | hn
    · rw [hn]
      exact Nat.lt_succ_self _
    · exact Nat.lt_succ_of_lt (h.addr_lt n hn)
  · rw [(hperm.map _).nodup_iff, List.map_cons, List.nodup_cons]
    exact ⟨hnew, h.id_nodup⟩
  · intro g a
    rw [hmap]
    by_cases hg : g = r.frame_id_
    · simp only [hg, if_true, Option.some.injEq, List.mem_append, List.mem_singleton,
        Prod.mk.injEq]
      constructor
      · intro ha
        exact ⟨r, Or.inr ⟨ha.symm, rfl⟩, rfl⟩
      · rintro ⟨q, hq | hq, hid⟩
        · exfalso
          apply hnew
          rw [← hid]
          exact List.mem_map_of_mem (fun n => n.2.frame_id_) (List.mem_append_left _ hq)
        · exact hq.1.symm
    · simp only [hg, if_false, h.map_spec, List.mem_append, List.mem_singleton, Prod.mk.injEq]
      constructor
      · rintro ⟨q, hq, hid⟩
        exact ⟨q, Or.inl hq, hid⟩
      · rintro ⟨q, hq | hq, hid⟩
        · exact ⟨q, hq, hid⟩
        · rw [hq.2] at hid
          exact absurd hid.symm hg
  · exact h.omap_spec

theorem PoolInv.update {pool other : List Node} {map omap : IterMap} {fresh : Nat}
    (h : PoolInv pool other map omap fresh) (a0 : Nat) (g : FrameInfo → FrameInfo)
    (hg : ∀ r, (g r).frame_id_ = r.frame_id_) :
    PoolInv (updateNode a0 g pool) other map omap fresh := by
  have haddr : (updateNode a0 g pool ++ other).map Prod.fst = (pool ++ other).map Prod.fst := by
    rw [List.map_append, List.map_append, updateNode_map_fst]
  have hid : (updateNode a0 g pool ++ other).map (fun n => n.2.frame_id_) =
      (pool ++ other).map (fun n => n.2.frame_id_) := by
    rw [List.map_append, List.map_append, updateNode_map_id a0 g hg]
  constructor
  · rw [haddr]
    exact h.addr_nodup
  · intro n hn
    have : n.1 ∈ (pool ++ other).map Prod.fst := by
      rw [← haddr]
      exact List.mem_map_of_mem _ hn
    obtain ⟨m, hm, hm1⟩ := List.mem_map.1 this
    rw [← hm1]
    exact h.addr_lt m hm
  · rw [hid]
    exact h.id_nodup
  · intro f a
    rw [h.map_spec]
    constructor
    · rintro ⟨r, hr, hrid⟩
      by_cases ha : a = a0
      · refine ⟨g r, (mem_updateNode h.pool_addr_nodup _).2 (Or.inr ⟨ha, r, ha ▸ hr, rfl⟩), ?_⟩
        rw [hg, hrid]
      · exact ⟨r, (mem_updateNode h.pool_addr_nodup _).2 (Or.inl ⟨ha, hr⟩), hrid⟩
    · rintro ⟨r, hr, hrid⟩
      rcases (mem_updateNode h.pool_addr_nodup _).1 hr with ⟨_, h2⟩ | ⟨h1, q, h2, h3⟩
      · exact ⟨r, h2, hrid⟩
      · refine ⟨q, ?_, ?_⟩
        · change a = a0 at h1
          rw [h1]
          exact h2
        · change r = g q at h3
          rw [h3, hg] at hrid
          exact hrid
  · exact h.omap_spec

/-- What a successful map lookup designates. -/
theorem PoolInv.lookup {pool other : List Node} {map omap : IterMap} {fresh : Nat}
    (h : PoolInv pool other map omap fresh) {f : Int} {a : Nat}
    (hf : mapFind f map = some a) :
    ∃ r, nodeAt a pool = some r ∧ r.frame_id_ = f ∧ (a, r) ∈ pool ∧
      eraseNode a pool = pool.filter (fun n => !decide (n.2.frame_id_ = f)) ∧
      f ∉ other.map (fun n => n.2.frame_id_) := by
  obtain ⟨r, hr, hid⟩ := (h.map_spec f a).1 hf
  refine ⟨r, nodeAt_of_mem h.pool_addr_nodup hr, hid, hr, ?_, ?_⟩
  · rw [eraseNode_eq_filter h.pool_addr_nodup]
    apply List.filter_congr
    intro x hx
    have h1 : x.1 = a → x.2.frame_id_ = f := by
      intro hxa
      have := List.inj_on_of_nodup_map h.pool_addr_nodup hx hr hxa
      rw [this]
      exact hid
    have h2 : x.2.frame_id_ = f → x.1 = a := by
      intro hxf
      have := List.inj_on_of_nodup_map h.pool_id_nodup hx hr (hxf.trans hid.symm)
      rw [this]
    by_cases hxa : x.1 = a
    · simp [hxa, h1 hxa]
    · have : x.2.frame_id_ ≠ f := fun hc => hxa (h2 hc)
      simp [hxa, this]
  · intro hc
    obtain ⟨m, hm, hmid⟩ := List.mem_map.1 hc
    have hnd := h.id_nodup
    rw [List.map_append, List.nodup_append] at hnd
    exact hnd.2.2 (List.mem_map_of_mem (fun n => n.2.frame_id_) hr)
      (by rw [hid, ← hmid]; exact List.mem_map_of_mem (fun n => n.2.frame_id_) hm)

/-- A frame id that a map does not know has no record in the map's pool. -/
theorem PoolInv.absent {pool other : List Node} {map omap : IterMap} {fresh : Nat}
    (h : PoolInv pool other map omap fresh) {f : Int} (hf : mapFind f map = none) :
    f ∉ pool.map (fun n => n.2.frame_id_) := by
  intro hc
  obtain ⟨m, hm, hmid⟩ := List.mem_map.1 hc
  have := (h.map_spec f m.1).2 ⟨m.2, hm, hmid⟩
  rw [hf] at this
  cases this

theorem not_mem_ids_filter (f : Int) (pool : List Node) :
    f ∉ (pool.filter (fun n => !decide (n.2.frame_id_ = f))).map (fun n => n.2.frame_id_) := by
  intro hc
  obtain ⟨m, hm, hmid⟩ := List.mem_map.1 hc
  have := (List.mem_filter.1 hm).2
  simp [hmid] at this

theorem replacerInv_new (num_frames k : Nat) : ReplacerInv (LRUKReplacer.new num_frames k) := by
  constructor <;> simp [LRUKReplacer.new, mapFind]

/-- Moving a record of `pool` to the back of `other` under a fresh node. -/
theorem PoolInv.move {pool other : List Node} {map omap : IterMap} {fresh : Nat}
    (h : PoolInv pool other map omap fresh) {f : Int} (r : FrameInfo) (hr : r.frame_id_ = f)
    (hf : f ∉ other.map (fun n => n.2.frame_id_)) :
    PoolInv (pool.filter (fun n => !decide (n.2.frame_id_ = f))) (other ++ [(fresh, r)])
      (mapErase f map) (mapAssign f fresh omap) (fresh + 1) := by
  have h1 := (h.remove f (mapErase f map) (fun g => mapFind_mapErase f g map)).swap
  have h2 := h1.push r (by
    rw [hr, List.map_append, List.mem_append]
    rintro (hc | hc)
    · exact hf hc
    · exact not_mem_ids_filter f pool hc) (mapAssign f fresh omap) (by
    intro g
    rw [hr]
    exact mapFind_mapAssign f g fresh omap)
  exact h2.swap

/-- Moving a record of `pool` to the back of `pool` under a fresh node. -/
theorem PoolInv.rotate {pool other : List Node} {map omap : IterMap} {fresh : Nat}
    (h : PoolInv pool other map omap fresh) {f : Int} (r : FrameInfo) (hr : r.frame_id_ = f)
    (hf : f ∉ other.map (fun n => n.2.frame_id_)) :
    PoolInv (pool.filter (fun n => !decide (n.2.frame_id_ = f)) ++ [(fresh, r)]) other
      (mapAssign f fresh map) omap (fresh + 1) := by
  have h1 := h.remove f (mapErase f map) (fun g => mapFind_mapErase f g map)
  exact h1.push r (by
    rw [hr, List.map_append, List.mem_append]
    rintro (hc | hc)
    · exact not_mem_ids_filter f pool hc
    · exact hf hc) (mapAssign f fresh map) (by
    intro g
    rw [hr, mapFind_mapAssign, mapFind_mapErase]
    by_cases hg : g = f <;> simp [hg])

theorem RecordAccess_inv {s s' : LRUKReplacer} {f : Int} (h : ReplacerInv s)
    (hacc : RecordAccess s f = Result.ok s') : ReplacerInv s' := by
  unfold RecordAccess at hacc
  by_cases hassert : f ≤ castInt s.replacer_size_
  · simp only [hassert, not_true_eq_false, if_false] at hacc
    cases hc : mapFind f s.cache_map_ with
    | some iter =>
      obtain ⟨r, hr1, hr2, hr3, hr4, hr5⟩ := PoolInv.lookup (PoolInv.swap h) hc
      simp only [hc, hr1] at hacc
      injection hacc with hacc
      subst hacc
      have hmem : iter ∈ s.cache_pool_.map Prod.fst := List.mem_map_of_mem Prod.fst hr3
      unfold ReplacerInv
      simp only []
      rw [eraseNode_append _ hmem, hr4]
      exact (PoolInv.rotate (PoolInv.swap h) r hr2 hr5).swap
    | none =>
      simp only [hc] at hacc
      cases ht : mapFind f s.temp_map_ with
      | some iter =>
        obtain ⟨r, hr1, hr2, hr3, hr4, hr5⟩ := PoolInv.lookup h ht
        simp only [ht, hr1] at hacc
        by_cases hk : s.k_ ≤ r.IncreaseTimes.GetTimes
        · simp only [hk, if_true] at hacc
          injection hacc with hacc
          subst hacc
          unfold ReplacerInv
          simp only []
          rw [hr4]
          exact PoolInv.move h r.IncreaseTimes hr2 hr5
        · simp only [hk, if_false] at hacc
          injection hacc with hacc
          subst hacc
          unfold ReplacerInv
          simp only []
          rw [updateNode_const FrameInfo.IncreaseTimes hr1]
          exact PoolInv.update h iter FrameInfo.IncreaseTimes (fun q => rfl)
      | none =>
        simp only [ht] at hacc
        injection hacc with hacc
        subst hacc
        have hnew : ((FrameInfo.new f).IncreaseTimes).frame_id_ ∉
            (s.temp_pool_ ++ s.cache_pool_).map (fun n => n.2.frame_id_) := by
          rw [List.map_append, List.mem_append]
          rintro (hx | hx)
          · exact PoolInv.absent h ht hx
          · exact PoolInv.absent (PoolInv.swap h) hc hx
        exact PoolInv.push h _ hnew _ (fun g => mapFind_mapAssign f g s.fresh_ s.temp_map_)
  · simp [hassert] at hacc

theorem SetEvictable_inv {s s' : LRUKReplacer} {f : Int} {flag : Bool} (h : ReplacerInv s)
    (hset : SetEvictable s f flag = Result.ok s') : ReplacerInv s' := by
  unfold SetEvictable at hset
  by_cases hassert : f ≤ castInt s.replacer_size_
  · simp only [hassert, not_true_eq_false, if_false] at hset
    cases ht : mapFind f s.temp_map_ with
    | some iter =>
      obtain ⟨r, hr1, _⟩ := PoolInv.lookup h ht
      simp only [ht, hr1] at hset
      injection hset with hset
      subst hset
      exact PoolInv.update h iter (fun r => r.SetEvictable flag) (fun q => rfl)
    | none =>
      simp only [ht] at hset
      cases hc : mapFind f s.cache_map_ with
      | some iter =>
        obtain ⟨r, hr1, _⟩ := PoolInv.lookup (PoolInv.swap h) hc
        simp only [hc, hr1] at hset
        injection hset with hset
        subst hset
        exact (PoolInv.update (PoolInv.swap h) iter (fun r => r.SetEvictable flag)
          (fun q => rfl)).swap
      | none =>
        simp only [hc] at hset
        injection hset with hset
        subst hset
        exact h
  · simp [hassert] at hset

theorem Remove_inv {s s' : LRUKReplacer} {f : Int} (h : ReplacerInv s)
    (hrem : s.Remove f = Result.ok s') : ReplacerInv s' := by
  unfold LRUKReplacer.Remove at hrem
  cases ht : mapFind f s.temp_map_ with
  | some iter =>
    obtain ⟨r, hr1, _, _, hr4, _⟩ := PoolInv.lookup h ht
    simp only [ht, hr1] at hrem
    by_cases he : r.IsEvicatable = true
    · simp only [he, not_true_eq_false, if_false] at hrem
      injection hrem with hrem
      subst hrem
      unfold ReplacerInv
      simp only []
      rw [hr4]
      exact PoolInv.remove h f _ (fun g => mapFind_mapErase f g _)
    · simp [he] at hrem
  | none =>
    simp only [ht] at hrem
    cases hc : mapFind f s.cache_map_ with
    | some iter =>
      obtain ⟨r, hr1, _, _, hr4, _⟩ := PoolInv.lookup (PoolInv.swap h) hc
      simp only [hc, hr1] at hrem
      by_cases he : r.IsEvicatable = true
      · simp only [he, not_true_eq_false, if_false] at hrem
        injection hrem with hrem
        subst hrem
        unfold ReplacerInv
        simp only []
        rw [hr4]
        exact (PoolInv.remove (PoolInv.swap h) f _ (fun g => mapFind_mapErase f g _)).swap
      · simp [he] at hrem
    | none =>
      simp only [hc] at hrem
      injection hrem with hrem
      subst hrem
      exact h

/-- With distinct frame ids, erasing the node a scan stopped at is the same as
filtering out the frame id it returned. -/
theorem evictScan_filter {l l' : List Node} {f : Int}
    (hnd : (l.map (fun n => n.2.frame_id_)).Nodup) (h : evictScan l = some (f, l')) :
    l' = l.filter (fun n => !decide (n.2.frame_id_ = f)) := by
  obtain ⟨pre, n, post, h1, _, _, h4, h5⟩ := evictScan_some h
  subst h1
  rw [List.map_append, List.map_cons] at hnd
  have hnot : ∀ m ∈ pre ++ post, m.2.frame_id_ ≠ f := by
    intro m hm hc
    have hmid : m.2.frame_id_ ∈ pre.map (fun n => n.2.frame_id_) ++
        post.map (fun n => n.2.frame_id_) := by
      rw [← List.map_append]
      exact List.mem_map_of_mem (fun n => n.2.frame_id_) hm
    have := (List.nodup_cons.1 (List.nodup_middle.1 hnd)).1
    rw [hc, ← h4] at hmid
    exact this hmid
  rw [h5, List.filter_append, List.filter_cons_of_neg (by simp [h4]), ← List.filter_append]
  symm
  rw [List.filter_eq_self]
  intro m hm
  simpa using hnot m hm

theorem Evict_inv {s : LRUKReplacer} (h : ReplacerInv s) : ReplacerInv (Evict s).2 := by
  rcases Evict_cases s with ⟨f, pool, h1, h2⟩ | ⟨f, pool, _, h1, h2⟩ | ⟨_, _, h2⟩
  · rw [h2]
    unfold ReplacerInv
    simp only []
    rw [evictScan_filter (PoolInv.pool_id_nodup h) h1]
    exact PoolInv.remove h f _ (fun g => mapFind_mapErase f g _)
  · rw [h2]
    unfold ReplacerInv
    simp only []
    rw [evictScan_filter (PoolInv.pool_id_nodup (PoolInv.swap h)) h1]
    exact (PoolInv.remove (PoolInv.swap h) f _ (fun g => mapFind_mapErase f g _)).swap
  · rw [h2]
    exact h

theorem LRUKReplacer.Reachable.inv {num_frames k : Nat} {s : LRUKReplacer}
    (h : s.Reachable num_frames k) : ReplacerInv s := by
  induction h with
  | new => exact replacerInv_new num_frames k
  | recordAccess _ hacc ih => exact RecordAccess_inv ih hacc
  | setEvictable _ hset ih => exact SetEvictable_inv ih hset
  | remove _ hrem ih => exact Remove_inv ih hrem
  | evict _ ih => exact Evict_inv ih

end ReplacerInvariant

/-! ## Replacer: what `Evict` leaves behind, and the case `k = 1` -/

section EvictPost

theorem evictScan_size {l l' : List Node} {f : Int} (h : evictScan l = some (f, l')) :
    (l'.filter (fun n => n.2.IsEvicatable)).length + 1 =
      (l.filter (fun n => n.2.IsEvicatable)).length := by
  obtain ⟨pre, n, post, h1, _, h3, _, h5⟩ := evictScan_some h
  rw [h1, h5, List.filter_append, List.filter_append,
    List.filter_cons_of_pos (by simpa [FrameInfo.IsEvicatable] using h3)]
  simp only [List.length_append, List.length_cons]
  omega

theorem filter_id_eq_self {f : Int} {l : List Node}
    (h : f ∉ l.map (fun n => n.2.frame_id_)) :
    l.filter (fun n => !decide (n.2.frame_id_ = f)) = l := by
  rw [List.filter_eq_self]
  intro m hm
  have : m.2.frame_id_ ≠ f := fun hc => h (hc ▸ List.mem_map_of_mem (fun n => n.2.frame_id_) hm)
  simpa using this

theorem accessAll_reachable {num_frames k : Nat} (l : List Int) :
    ∀ {s s' : LRUKReplacer}, s.Reachable num_frames k → accessAll s l = Result.ok s' →
      s'.Reachable num_frames k := by
  induction l with
  | nil =>
    intro s s' hr h
    simp only [accessAll, Result.ok.injEq] at h
    rw [← h]
    exact hr
  | cons f rest ih =>
    intro s s' hr h
    unfold accessAll at h
    cases ha : RecordAccess s f with
    | ok s1 =>
      rw [ha] at h
      exact ih (LRUKReplacer.Reachable.recordAccess hr ha) h
    | fault e s1 =>
      rw [ha] at h
      cases h

theorem scenarioCold_reachable : scenarioCold.Reachable 7 2 :=
  accessAll_reachable [1, 2, 3] LRUKReplacer.Reachable.new (by decide)

/-- C9. Postcondition of `Evict` on a reachable replacer state, when it returns
a frame `f`: `f` had an evictable record before the call; afterwards no record
of `f` is left in the cold or the hot set; `Size()` has decreased by exactly
one; and each set is the set before the call without the record of `f`, so
every other record keeps its set, its relative order, its counter and its
evictable flag. -/
theorem evict_postcondition (num_frames k : Nat) (s : LRUKReplacer) (f : Int)
    (hr : s.Reachable num_frames k) (hev : (Evict s).1 = some f) :
    (∃ n ∈ s.temp_pool_ ++ s.cache_pool_, n.2.frame_id_ = f ∧ n.2.evictable_ = true) ∧
      (∀ n ∈ (Evict s).2.temp_pool_ ++ (Evict s).2.cache_pool_, n.2.frame_id_ ≠ f) ∧
      Size (Evict s).2 + 1 = Size s ∧
      (Evict s).2.temp_pool_ = s.temp_pool_.filter (fun n => !decide (n.2.frame_id_ = f)) ∧
      (Evict s).2.cache_pool_ = s.cache_pool_.filter (fun n => !decide (n.2.frame_id_ = f)) := by
  have hinv : PoolInv s.temp_pool_ s.cache_pool_ s.temp_map_ s.cache_map_ s.fresh_ := hr.inv
  have hdis := hinv.id_nodup
  rw [List.map_append, List.nodup_append] at hdis
  have hpools : Size (Evict s).2 + 1 = Size s ∧
      (Evict s).2.temp_pool_ = s.temp_pool_.filter (fun n => !decide (n.2.frame_id_ = f)) ∧
      (Evict s).2.cache_pool_ =
        s.cache_pool_.filter (fun n => !decide (n.2.frame_id_ = f)) := by
    rcases Evict_cases s with ⟨g, pool, h1, h2⟩ | ⟨g, pool, _, h1, h2⟩ | ⟨_, _, h2⟩
    · rw [h2] at hev ⊢
      injection hev with hev
      subst hev
      obtain ⟨pre, n, post, e1, _, _, e4, _⟩ := evictScan_some h1
      have hmem : g ∈ s.temp_pool_.map (fun n => n.2.frame_id_) := by
        rw [e1, ← e4]
        exact List.mem_map_of_mem (fun m : Node => m.2.frame_id_)
          (List.mem_append_right pre (List.mem_cons_self n post))
      refine ⟨?_, evictScan_filter hinv.pool_id_nodup h1, ?_⟩
      · have := evictScan_size h1
        unfold Size
        simp only []
        omega
      · exact (filter_id_eq_self (fun hc => hdis.2.2 hmem hc)).symm
    · rw [h2] at hev ⊢
      injection hev with hev
      subst hev
      obtain ⟨pre, n, post, e1, _, _, e4, _⟩ := evictScan_some h1
      have hmem : g ∈ s.cache_pool_.map (fun n => n.2.frame_id_) := by
        rw [e1, ← e4]
        exact List.mem_map_of_mem (fun m : Node => m.2.frame_id_)
          (List.mem_append_right pre (List.mem_cons_self n post))
      refine ⟨?_, ?_, evictScan_filter hinv.swap.pool_id_nodup h1⟩
      · have := evictScan_size h1
        unfold Size
        simp only []
        omega
      · exact (filter_id_eq_self (fun hc => hdis.2.2 hc hmem)).symm
    · rw [h2] at hev
      cases hev
  refine ⟨Evict_victim_mem hev, ?_, hpools⟩
  intro n hn hc
  rw [hpools.2.1, hpools.2.2] at hn
  rcases List.mem_append.1 hn with hn | hn
  · exact not_mem_ids_filter f _
      (hc ▸ List.mem_map_of_mem (fun m : Node => m.2.frame_id_) hn)
  · exact not_mem_ids_filter f _
      (hc ▸ List.mem_map_of_mem (fun m : Node => m.2.frame_id_) hn)

theorem evict_postcondition_witness :
    scenarioCold.Reachable 7 2 ∧ (Evict scenarioCold).1 = some 1 ∧
      Size (Evict scenarioCold).2 + 1 = Size scenarioCold ∧
      (Evict scenarioCold).2.temp_pool_ =
        scenarioCold.temp_pool_.filter (fun n => !decide (n.2.frame_id_ = 1)) :=
  ⟨scenarioCold_reachable, by decide,
    (evict_postcondition 7 2 scenarioCold 1 scenarioCold_reachable (by decide)).2.2.1,
    (evict_postcondition 7 2 scenarioCold 1 scenarioCold_reachable (by decide)).2.2.2.1⟩

/-- C10, evaluated on the code with `k = 1`. The first access of frame 1 puts
its record in the cold set (`temp_pool_`), not in the hot set; and after the
accesses 1, 1, 2 `Evict` returns frame 2, although frame 1 is the tracked frame
whose most recent access is the oldest. (After the accesses 1, 2, 3 of the
spec's scenario the three evictions do return 1, 2, 3.) -/
theorem k_one_is_not_lru :
    accessAll (LRUKReplacer.new 7 1) [1] = Result.ok scenarioFirstAccess ∧
      scenarioFirstAccess.cache_pool_ = [] ∧
      scenarioFirstAccess.temp_pool_.map (fun n => n.2.frame_id_) = [1] ∧
      accessAll (LRUKReplacer.new 7 1) [1, 1, 2] = Result.ok scenarioRecency ∧
      (Evict scenarioRecency).1 = some 2 ∧
      lruVictim [1, 1, 2] = some 1 := by
  refine ⟨by decide, by decide, by decide, by decide, by decide, by decide⟩

end EvictPost

/-! ## Hash table: invariants of reachable tables -/

section TableInvariants

variable {K V : Type} [DecidableEq K]

theorem countP_mod_range (d c : Nat) (hc : c < 2 ^ d) (n : Nat) :
    (List.range (2 ^ (d + n))).countP (fun j => decide (j % 2 ^ d = c)) = 2 ^ n := by
  induction n with
  | zero =>
    have h1 : (List.range (2 ^ d)).countP (fun j => decide (j % 2 ^ d = c)) =
        (List.range (2 ^ d)).countP (fun j => j == c) := by
      apply List.countP_congr
      intro x hx
      rw [List.mem_range] at hx
      simp [Nat.mod_eq_of_lt hx]
    rw [Nat.add_zero, h1, ← List.count_eq_countP]
    exact List.count_eq_one_of_mem (List.nodup_range _) (List.mem_range.2 hc)
  | succ n ih =>
    have hpow : 2 ^ (d + (n + 1)) = 2 ^ (d + n) + 2 ^ (d + n) := by
      rw [← Nat.add_assoc, Nat.pow_succ]
      omega
    have hdvd : 2 ^ d ∣ 2 ^ (d + n) := Nat.pow_dvd_pow 2 (Nat.le_add_right d n)
    rw [hpow, List.range_add, List.countP_append, List.countP_map, ih]
    have h2 : (List.range (2 ^ (d + n))).countP
        ((fun j => decide (j % 2 ^ d = c)) ∘ fun x => 2 ^ (d + n) + x) =
        (List.range (2 ^ (d + n))).countP (fun j => decide (j % 2 ^ d = c)) := by
      apply List.countP_congr
      intro x _
      simp only [Function.comp, decide_eq_true_eq]
      rw [Nat.add_mod, Nat.mod_eq_zero_of_dvd hdvd, Nat.zero_add, Nat.mod_mod]
    rw [h2, ih, Nat.pow_succ]
    omega

theorem dir_eq_map_slot (t : ExtendibleHashTable K V) :
    t.dir_ = (List.range t.dir_.length).map t.slot := by
  apply List.ext_getElem
  · simp
  · intro n h1 h2
    simp [ExtendibleHashTable.slot, List.getD_eq_getElem?_getD, List.getElem?_eq_getElem h1]

/-- The number of directory slots that hold the pointer of slot `i`. -/
theorem WF.count_slot {hash : K → Nat} {t : ExtendibleHashTable K V} (h : WF hash t) (i : Nat)
    (hi : i < 2 ^ t.global_depth_) :
    t.dir_.count (t.slot i) =
      2 ^ (t.global_depth_ - (t.deref (t.slot i)).depth_) := by
  have hd := h.depth_le i hi
  have hpos : 0 < 2 ^ (t.deref (t.slot i)).depth_ := Nat.pos_pow_of_pos _ (by decide)
  have hlen := h.dir_len
  rw [List.count_eq_countP]
  conv_lhs => rw [dir_eq_map_slot t]
  rw [List.countP_map, hlen]
  have h1 : (List.range (2 ^ t.global_depth_)).countP ((fun x => x == t.slot i) ∘ t.slot) =
      (List.range (2 ^ t.global_depth_)).countP (fun j =>
        decide (j % 2 ^ (t.deref (t.slot i)).depth_ = i % 2 ^ (t.deref (t.slot i)).depth_)) := by
    apply List.countP_congr
    intro j hj
    rw [List.mem_range] at hj
    simp only [Function.comp, beq_iff_eq, decide_eq_true_eq]
    exact h.shared i j hi hj
  rw [h1]
  have := countP_mod_range (t.deref (t.slot i)).depth_ (i % 2 ^ (t.deref (t.slot i)).depth_)
    (Nat.mod_lt _ hpos) (t.global_depth_ - (t.deref (t.slot i)).depth_)
  rw [Nat.add_sub_cancel' hd] at this
  exact this

/-- C14. Depth and aliasing invariant: in every table reachable from a new
table by `Insert` and `Remove` the directory has exactly `2 ^ GlobalDepth()`
slots, and for every directory index `i` the local depth is at most the global
depth, the bucket of slot `i` is referenced by exactly
`2 ^ (GlobalDepth() - LocalDepth(i))` slots, and these are the slots that agree
with `i` on the low `LocalDepth(i)` bits. -/
theorem depth_and_aliasing (hash : K → Nat) (bs : Nat) (t : ExtendibleHashTable K V)
    (hr : Reachable hash bs t) :
    t.dir_.length = 2 ^ GetGlobalDepth t ∧
      ∀ i, i < t.dir_.length →
        GetLocalDepth t i ≤ GetGlobalDepth t ∧
        t.dir_.count (t.slot i) = 2 ^ (GetGlobalDepth t - GetLocalDepth t i) ∧
        ∀ j, j < t.dir_.length →
          (t.slot j = t.slot i ↔ j % 2 ^ GetLocalDepth t i = i % 2 ^ GetLocalDepth t i) := by
  have hwf := hr.wf.1
  refine ⟨hwf.dir_len, ?_⟩
  intro i hi
  rw [hwf.dir_len] at hi
  refine ⟨hwf.depth_le i hi, hwf.count_slot i hi, ?_⟩
  intro j hj
  rw [hwf.dir_len] at hj
  exact hwf.shared i j hi hj

theorem depth_and_aliasing_witness :
    Reachable (fun k : Nat => k) 2 exampleSplit ∧
      exampleSplit.dir_.length = 2 ^ GetGlobalDepth exampleSplit ∧
      GetLocalDepth exampleSplit 1 = 1 ∧
      exampleSplit.dir_.count (exampleSplit.slot 1) = 2 :=
  ⟨exampleSplit_reachable,
    (depth_and_aliasing (fun k : Nat => k) 2 exampleSplit exampleSplit_reachable).1,
    by decide,
    ((depth_and_aliasing (fun k : Nat => k) 2 exampleSplit exampleSplit_reachable).2 1
      (by decide)).2.1⟩

/-- C16. Key placement invariant: in every reachable table, an entry stored in
the bucket of a directory slot is stored in the bucket that `IndexOf` of its key
designates, so no other bucket of the directory holds that key; the keys of a
bucket of local depth `d` agree on the low `d` bits of their hashes; and no key
occurs twice in a bucket, hence no key is stored twice in the table. -/
theorem key_placement (hash : K → Nat) (bs : Nat) (t : ExtendibleHashTable K V)
    (hr : Reachable hash bs t) (i : Nat) (hi : i < t.dir_.length) :
    (∀ e ∈ (t.deref (t.slot i)).list_, t.slot (IndexOf hash t e.1) = t.slot i) ∧
      (∀ e ∈ (t.deref (t.slot i)).list_, ∀ j, j < t.dir_.length → t.slot j ≠ t.slot i →
        findItems e.1 (t.deref (t.slot j)).list_ = none) ∧
      (∀ e ∈ (t.deref (t.slot i)).list_, ∀ e' ∈ (t.deref (t.slot i)).list_,
        hash e.1 % 2 ^ GetLocalDepth t i = hash e'.1 % 2 ^ GetLocalDepth t i) ∧
      ((t.deref (t.slot i)).list_.map Prod.fst).Nodup := by
  have hwf := hr.wf.1
  rw [hwf.dir_len] at hi
  have hown : ∀ i, i < 2 ^ t.global_depth_ → ∀ e ∈ (t.deref (t.slot i)).list_,
      t.slot (IndexOf hash t e.1) = t.slot i := by
    intro i hi e he
    rw [hwf.shared i _ hi (IndexOf_lt hash t e.1), IndexOf_eq,
      mod_mod_pow _ (hwf.depth_le i hi)]
    exact hwf.placed i hi e he
  refine ⟨hown i hi, ?_, ?_, hwf.nodup i hi⟩
  · intro e he j hj hne
    rw [hwf.dir_len] at hj
    by_contra hc
    obtain ⟨w, hw⟩ := Option.ne_none_iff_exists'.1 hc
    have h1 := hown j hj _ (findItems_mem hw)
    have h2 := hown i hi e he
    exact hne (h1.symm.trans h2)
  · intro e he e' he'
    exact (hwf.placed i hi e he).trans (hwf.placed i hi e' he').symm

theorem key_placement_witness :
    Reachable (fun k : Nat => k) 2 exampleSplit ∧ 0 < exampleSplit.dir_.length ∧
      ((exampleSplit.deref (exampleSplit.slot 0)).list_.map Prod.fst).Nodup :=
  ⟨exampleSplit_reachable, by decide,
    (key_placement (fun k : Nat => k) 2 exampleSplit exampleSplit_reachable 0 (by decide)).2.2.2⟩

/-- C17. Bucket capacity invariant: in every table reachable from a new table
of bucket size `bucket_size` by completed `Insert` calls and `Remove` calls,
every bucket referenced by the directory holds at most `bucket_size` entries. -/
theorem bucket_capacity (hash : K → Nat) (bs : Nat) (t : ExtendibleHashTable K V)
    (hr : Reachable hash bs t) (i : Nat) (hi : i < t.dir_.length) :
    (t.deref (t.slot i)).list_.length ≤ bs := by
  obtain ⟨hwf, hbs⟩ := hr.wf
  rw [hwf.dir_len] at hi
  rw [← hbs]
  exact hwf.cap i hi

theorem bucket_capacity_witness :
    Reachable (fun k : Nat => k) 2 exampleSplit ∧ 2 < exampleSplit.dir_.length ∧
      (exampleSplit.deref (exampleSplit.slot 2)).list_.length ≤ 2 :=
  ⟨exampleSplit_reachable, by decide,
    bucket_capacity (fun k : Nat => k) 2 exampleSplit exampleSplit_reachable 2 (by decide)⟩

end TableInvariants

/-! ## Hash table: the three-insert scenario -/

section SplitScenario

variable {K V : Type} [DecidableEq K]

/-- C15, as stated, fails: with bucket size 2 and the identity hash, inserting
the distinct keys 0, 2, 4 into a new table leaves the global depth at 2, not 1:
the third `Insert` splits twice, since 0, 2 and 4 agree on the lowest bit. -/
theorem three_inserts_counterexample :
    Insert (fun k : Nat => k) 1 (ExtendibleHashTable.new 2) 0 10 = Outcome.done exampleFirst ∧
      Insert (fun k : Nat => k) 1 exampleFirst 2 20 = Outcome.done exampleFull ∧
      Insert (fun k : Nat => k) 3 exampleFull 4 40 = Outcome.done exampleSplit ∧
      (∀ fuel t', Insert (fun k : Nat => k) fuel exampleFull 4 40 = Outcome.done t' →
        GetGlobalDepth t' = 2) := by
  refine ⟨by decide, by decide, by decide, ?_⟩
  intro fuel t' h
  have h3 : Insert (fun k : Nat => k) 3 exampleFull 4 40 = Outcome.done exampleSplit := by decide
  have ha := InsertInternal_mono (fun k : Nat => k) fuel exampleFull t' 4 40 (max fuel 3)
    (Nat.le_max_left _ _) h
  have hb := InsertInternal_mono (fun k : Nat => k) 3 exampleFull exampleSplit 4 40 (max fuel 3)
    (Nat.le_max_right _ _) h3
  rw [ha] at hb
  injection hb with hb
  rw [hb]
  rfl

/-- C15 (amended). With bucket size 2, inserting three distinct keys whose
hashes do not all have the same lowest bit into a new table: the first two
inserts fill the single bucket at global depth 0; the third `Insert` does not
fit, splits the bucket once and doubles the directory, so that `GlobalDepth()`
is exactly 1 and `NumBuckets()` is 2 afterwards; and `Find` then returns the
inserted value for each of the three keys. -/
theorem three_inserts_split (hash : K → Nat) (k1 k2 k3 : K) (v1 v2 v3 : V)
    (h12 : k1 ≠ k2) (h13 : k1 ≠ k3) (h23 : k2 ≠ k3)
    (hbit : ¬ (hash k1 % 2 = hash k3 % 2 ∧ hash k2 % 2 = hash k3 % 2)) :
    ∃ t1 t2 t3, Insert hash 1 (ExtendibleHashTable.new 2) k1 v1 = Outcome.done t1 ∧
      Insert hash 1 t1 k2 v2 = Outcome.done t2 ∧
      GetGlobalDepth t2 = 0 ∧
      Insert hash 1 t2 k3 v3 = Outcome.fuel ∧
      Insert hash 2 t2 k3 v3 = Outcome.done t3 ∧
      GetGlobalDepth t3 = 1 ∧ GetNumBuckets t3 = 2 ∧
      Find hash t3 k1 = some v1 ∧ Find hash t3 k2 = some v2 ∧ Find hash t3 k3 = some v3 := by
  have e1 : Insert hash 1 (ExtendibleHashTable.new 2) k1 v1 =
      Outcome.done (singleBucket [(k1, v1)]) := by
    simp [Insert, InsertInternal, Bucket.Insert, overwriteItems, Bucket.IsFull,
      ExtendibleHashTable.new, ExtendibleHashTable.deref, ExtendibleHashTable.slot,
      ExtendibleHashTable.store, IndexOf, singleBucket]
  have e2 : Insert hash 1 (singleBucket [(k1, v1)]) k2 v2 =
      Outcome.done (singleBucket [(k1, v1), (k2, v2)]) := by
    simp [Insert, InsertInternal, Bucket.Insert, overwriteItems, Bucket.IsFull,
      ExtendibleHashTable.deref, ExtendibleHashTable.slot,
      ExtendibleHashTable.store, IndexOf, h12, singleBucket]
  obtain ⟨t2, ht2⟩ : ∃ t2 : ExtendibleHashTable K V, singleBucket [(k1, v1), (k2, v2)] = t2 :=
    ⟨_, rfl⟩
  rw [ht2] at e2
  have hr2 : Reachable hash 2 t2 :=
    Reachable.insert (Reachable.insert Reachable.new e1) e2
  have hwf := hr2.wf.1
  have hkb : keyBucket hash t2 k3 = { size_ := 2, depth_ := 0, list_ := [(k1, v1), (k2, v2)] } := by
    rw [← ht2]
    simp [keyBucket, IndexOf, ExtendibleHashTable.deref, ExtendibleHashTable.slot, singleBucket]
  have hfind : ∀ k, Find hash t2 k = findItems k [(k1, v1), (k2, v2)] := by
    intro k
    rw [← ht2]
    simp [Find, Bucket.Find, IndexOf, ExtendibleHashTable.deref, ExtendibleHashTable.slot,
      singleBucket]
  have hfail : ((keyBucket hash t2 k3).Insert k3 v3).1 = false := by
    apply Bucket.Insert_eq_false
    · rw [hkb]
      simp [findItems, h13, h23]
    · rw [hkb]
      rfl
  have hbs2 : t2.bucket_size_ = 2 := by rw [← ht2]; rfl
  have hkb2 := splitStep_keyBucket hwf k3
  rw [hkb] at hkb2
  simp only [Nat.zero_add, Nat.pow_one] at hkb2
  have hok : ((keyBucket hash (splitStep hash t2 k3) k3).Insert k3 v3).1 = true := by
    by_contra hc
    have hlen := (@Bucket.Insert_false K V _ _ k3 v3 (by simpa using hc)).2
    rw [hkb2] at hlen
    simp only [hbs2] at hlen
    apply hbit
    by_cases a1 : hash k1 % 2 = hash k3 % 2 <;> by_cases a2 : hash k2 % 2 = hash k3 % 2 <;>
      simp [List.filter, a1, a2] at hlen
    exact ⟨a1, a2⟩
  have hstep1 : Insert hash 1 t2 k3 v3 = Outcome.fuel := by
    unfold Insert
    rw [InsertInternal_succ, hfail, hkb]
    simp [InsertInternal]
  have hstep2 : Insert hash 2 t2 k3 v3 = Outcome.done
      ((splitStep hash t2 k3).store ((splitStep hash t2 k3).slot
        (IndexOf hash (splitStep hash t2 k3) k3))
        ((keyBucket hash (splitStep hash t2 k3) k3).Insert k3 v3).2) := by
    unfold Insert
    rw [InsertInternal_succ, hfail, hkb]
    simp only [Bool.false_eq_true, if_false]
    rw [if_neg (by omega), InsertInternal_succ, if_pos hok]
  obtain ⟨_, hf3, hother, _⟩ := InsertInternal_done 2 t2 _ k3 v3 hwf hstep2
  refine ⟨_, t2, _, e1, e2, by rw [← ht2]; rfl, hstep1, hstep2, ?_, ?_, ?_, ?_, hf3⟩
  · show (splitStep hash t2 k3).global_depth_ = 1
    rw [splitStep_gd]
    change (if t2.global_depth_ = (keyBucket hash t2 k3).depth_ then _ else _) = 1
    rw [hkb, ← ht2]
    rfl
  · show (splitStep hash t2 k3).num_buckets_ = 2
    rw [splitStep_num_buckets, ← ht2]
    rfl
  · rw [hother k1 h13, hfind]
    simp [findItems]
  · rw [hother k2 h23, hfind]
    simp [findItems, h12]

theorem three_inserts_split_witness :
    (1 : Nat) ≠ 2 ∧ (1 : Nat) ≠ 4 ∧ (2 : Nat) ≠ 4 ∧
      ¬ ((1 : Nat) % 2 = 4 % 2 ∧ (2 : Nat) % 2 = 4 % 2) ∧
      ∃ t1 t2 t3, Insert (fun k : Nat => k) 1 (ExtendibleHashTable.new 2) 1 10 = Outcome.done t1 ∧
        Insert (fun k : Nat => k) 1 t1 2 20 = Outcome.done t2 ∧
        GetGlobalDepth t2 = 0 ∧
        Insert (fun k : Nat => k) 1 t2 4 40 = Outcome.fuel ∧
        Insert (fun k : Nat => k) 2 t2 4 40 = Outcome.done t3 ∧
        GetGlobalDepth t3 = 1 ∧ GetNumBuckets t3 = 2 ∧
        Find (fun k : Nat => k) t3 1 = some 10 ∧ Find (fun k : Nat => k) t3 2 = some 20 ∧
        Find (fun k : Nat => k) t3 4 = some 40 :=
  ⟨by decide, by decide, by decide, by decide,
    three_inserts_split (fun k : Nat => k) 1 2 4 10 20 40 (by decide) (by decide) (by decide)
      (by decide)⟩

end SplitScenario

/-! ## Replacer: the courses of the operations -/

section Courses

theorem updateNode_eq_map {a : Nat} {r : FrameInfo} {f : Int} {l : List Node}
    (g : FrameInfo → FrameInfo) (hna : (l.map Prod.fst).Nodup)
    (hni : (l.map (fun n => n.2.frame_id_)).Nodup) (hm : (a, r) ∈ l) (hr : r.frame_id_ = f) :
    updateNode a g l = l.map (fun n => if n.2.frame_id_ = f then (n.1, g n.2) else n) := by
  induction l with
  | nil => cases hm
  | cons n rest ih =>
    obtain ⟨b, q⟩ := n
    simp only [List.map_cons, List.nodup_cons] at hna hni
    by_cases hb : b = a
    · subst hb
      have hq : q = r := by
        rcases List.mem_cons.1 hm with hm | hm
        · injection hm with _ h2
          exact h2.symm
        · exact absurd (List.mem_map_of_mem Prod.fst hm) hna.1
      subst hq
      have hrest : rest.map (fun n => if n.2.frame_id_ = f then (n.1, g n.2) else n) = rest := by
        conv_rhs => rw [← List.map_id rest]
        apply List.map_congr_left
        intro x hx
        have : x.2.frame_id_ ≠ f := by
          intro hc
          apply hni.1
          rw [hr, ← hc]
          exact List.mem_map_of_mem (fun n : Node => n.2.frame_id_) hx
        simp [this]
      simp only [updateNode, if_true, List.map_cons, hr, hrest]
    · have hm' : (a, r) ∈ rest := by
        rcases List.mem_cons.1 hm with hm | hm
        · injection hm with h1 _
          exact absurd h1.symm hb
        · exact hm
      have hq : q.frame_id_ ≠ f := by
        intro hc
        apply hni.1
        rw [hc, ← hr]
        exact List.mem_map_of_mem (fun n : Node => n.2.frame_id_) hm'
      simp only [updateNode, hb, if_false, List.map_cons, hq]
      rw [ih hna.2 hni.2 hm']

/-- The four courses of `RecordAccess` on a state that satisfies the invariant,
for a frame id that passes the assertion. -/
theorem RecordAccess_cases {s : LRUKReplacer} (h : ReplacerInv s) (f : Int)
    (hf : f ≤ castInt s.replacer_size_) :
    (∃ a r, (a, r) ∈ s.cache_pool_ ∧ r.frame_id_ = f ∧
      f ∉ s.temp_pool_.map (fun n => n.2.frame_id_) ∧
      RecordAccess s f = Result.ok { s with
        cache_pool_ := s.cache_pool_.filter (fun n => !decide (n.2.frame_id_ = f)) ++
          [(s.fresh_, r)]
        cache_map_ := mapAssign f s.fresh_ s.cache_map_
        fresh_ := s.fresh_ + 1 }) ∨
    (∃ a r, (a, r) ∈ s.temp_pool_ ∧ r.frame_id_ = f ∧
      f ∉ s.cache_pool_.map (fun n => n.2.frame_id_) ∧ s.k_ ≤ r.times_ + 1 ∧
      RecordAccess s f = Result.ok { s with
        cache_pool_ := s.cache_pool_ ++ [(s.fresh_, r.IncreaseTimes)]
        cache_map_ := mapAssign f s.fresh_ s.cache_map_
        temp_pool_ := s.temp_pool_.filter (fun n => !decide (n.2.frame_id_ = f))
        temp_map_ := mapErase f s.temp_map_
        fresh_ := s.fresh_ + 1 }) ∨
    (∃ a r, (a, r) ∈ s.temp_pool_ ∧ r.frame_id_ = f ∧
      f ∉ s.cache_pool_.map (fun n => n.2.frame_id_) ∧ ¬ s.k_ ≤ r.times_ + 1 ∧
      RecordAccess s f = Result.ok { s with
        temp_pool_ := s.temp_pool_.map (fun n =>
          if n.2.frame_id_ = f then (n.1, n.2.IncreaseTimes) else n) }) ∨
    (f ∉ s.temp_pool_.map (fun n => n.2.frame_id_) ∧
      f ∉ s.cache_pool_.map (fun n => n.2.frame_id_) ∧
      RecordAccess s f = Result.ok { s with
        temp_pool_ := s.temp_pool_ ++ [(s.fresh_, (FrameInfo.new f).IncreaseTimes)]
        temp_map_ := mapAssign f s.fresh_ s.temp_map_
        fresh_ := s.fresh_ + 1 }) := by
  unfold RecordAccess
  simp only [hf, not_true_eq_false, if_false]
  cases hc : mapFind f s.cache_map_ with
  | some iter =>
    obtain ⟨r, hr1, hr2, hr3, hr4, hr5⟩ := PoolInv.lookup (PoolInv.swap h) hc
    have hmem : iter ∈ s.cache_pool_.map Prod.fst := List.mem_map_of_mem Prod.fst hr3
    refine Or.inl ⟨iter, r, hr3, hr2, hr5, ?_⟩
    simp only [hr1]
    rw [eraseNode_append _ hmem, hr4]
  | none =>
    have hnc := PoolInv.absent (PoolInv.swap h) hc
    cases ht : mapFind f s.temp_map_ with
    | some iter =>
      obtain ⟨r, hr1, hr2, hr3, hr4, hr5⟩ := PoolInv.lookup h ht
      simp only [hr1]
      by_cases hk : s.k_ ≤ r.times_ + 1
      · refine Or.inr (Or.inl ⟨iter, r, hr3, hr2, hr5, hk, ?_⟩)
        have hk' : s.k_ ≤ r.IncreaseTimes.GetTimes := hk
        simp only [hk', if_true]
        rw [hr4]
      · refine Or.inr (Or.inr (Or.inl ⟨iter, r, hr3, hr2, hr5, hk, ?_⟩))
        have hk' : ¬ s.k_ ≤ r.IncreaseTimes.GetTimes := hk
        simp only [hk', if_false]
        rw [updateNode_const FrameInfo.IncreaseTimes hr1,
          updateNode_eq_map FrameInfo.IncreaseTimes (PoolInv.pool_addr_nodup h)
            (PoolInv.pool_id_nodup h) hr3 hr2]
    | none =>
      exact Or.inr (Or.inr (Or.inr ⟨PoolInv.absent h ht, hnc, rfl⟩))

/-- The courses of `SetEvictable` on a state that satisfies the invariant, for
a frame id that passes the assertion. -/
theorem SetEvictable_cases {s : LRUKReplacer} (h : ReplacerInv s) (f : Int) (flag : Bool)
    (hf : f ≤ castInt s.replacer_size_) :
    (f ∈ s.temp_pool_.map (fun n => n.2.frame_id_) ∧
      f ∉ s.cache_pool_.map (fun n => n.2.frame_id_) ∧
      SetEvictable s f flag = Result.ok { s with
        temp_pool_ := s.temp_pool_.map (fun n =>
          if n.2.frame_id_ = f then (n.1, n.2.SetEvictable flag) else n) }) ∨
    (f ∉ s.temp_pool_.map (fun n => n.2.frame_id_) ∧
      f ∈ s.cache_pool_.map (fun n => n.2.frame_id_) ∧
      SetEvictable s f flag = Result.ok { s with
        cache_pool_ := s.cache_pool_.map (fun n =>
          if n.2.frame_id_ = f then (n.1, n.2.SetEvictable flag) else n) }) ∨
    (f ∉ s.temp_pool_.map (fun n => n.2.frame_id_) ∧
      f ∉ s.cache_pool_.map (fun n => n.2.frame_id_) ∧
      SetEvictable s f flag = Result.ok s) := by
  unfold SetEvictable
  simp only [hf, not_true_eq_false, if_false]
  cases ht : mapFind f s.temp_map_ with
  | some iter =>
    obtain ⟨r, hr1, hr2, hr3, hr4, hr5⟩ := PoolInv.lookup h ht
    refine Or.inl ⟨List.mem_map.2 ⟨(iter, r), hr3, hr2⟩, hr5, ?_⟩
    simp only [hr1]
    rw [updateNode_eq_map (fun r => r.SetEvictable flag) (PoolInv.pool_addr_nodup h)
      (PoolInv.pool_id_nodup h) hr3 hr2]
  | none =>
    have hnt := PoolInv.absent h ht
    cases hc : mapFind f s.cache_map_ with
    | some iter =>
      obtain ⟨r, hr1, hr2, hr3, hr4, hr5⟩ := PoolInv.lookup (PoolInv.swap h) hc
      refine Or.inr (Or.inl ⟨hnt, List.mem_map.2 ⟨(iter, r), hr3, hr2⟩, ?_⟩)
      simp only [hr1]
      rw [updateNode_eq_map (fun r => r.SetEvictable flag)
        (PoolInv.pool_addr_nodup (PoolInv.swap h)) (PoolInv.pool_id_nodup (PoolInv.swap h))
        hr3 hr2]
    | none =>
      exact Or.inr (Or.inr ⟨hnt, PoolInv.absent (PoolInv.swap h) hc, rfl⟩)

/-- The courses of the replacer's `Remove` on a state that satisfies the
invariant. -/
theorem Remove_cases {s : LRUKReplacer} (h : ReplacerInv s) (f : Int) :
    (∃ a r, (a, r) ∈ s.temp_pool_ ∧ r.frame_id_ = f ∧
      f ∉ s.cache_pool_.map (fun n => n.2.frame_id_) ∧
      s.Remove f = if r.evictable_ = true then Result.ok { s with
          temp_pool_ := s.temp_pool_.filter (fun n => !decide (n.2.frame_id_ = f))
          temp_map_ := mapErase f s.temp_map_ }
        else Result.fault Fault.assertion s) ∨
    (∃ a r, (a, r) ∈ s.cache_pool_ ∧ r.frame_id_ = f ∧
      f ∉ s.temp_pool_.map (fun n => n.2.frame_id_) ∧
      s.Remove f = if r.evictable_ = true then Result.ok { s with
          cache_pool_ := s.cache_pool_.filter (fun n => !decide (n.2.frame_id_ = f))
          cache_map_ := mapErase f s.cache_map_ }
        else Result.fault Fault.assertion s) ∨
    (f ∉ s.temp_pool_.map (fun n => n.2.frame_id_) ∧
      f ∉ s.cache_pool_.map (fun n => n.2.frame_id_) ∧ s.Remove f = Result.ok s) := by
  unfold LRUKReplacer.Remove
  cases ht : mapFind f s.temp_map_ with
  | some iter =>
    obtain ⟨r, hr1, hr2, hr3, hr4, hr5⟩ := PoolInv.lookup h ht
    refine Or.inl ⟨iter, r, hr3, hr2, hr5, ?_⟩
    simp only [hr1, hr4, FrameInfo.IsEvicatable]
    by_cases he : r.evictable_ = true <;> simp [he]
  | none =>
    have hnt := PoolInv.absent h ht
    cases hc : mapFind f s.cache_map_ with
    | some iter =>
      obtain ⟨r, hr1, hr2, hr3, hr4, hr5⟩ := PoolInv.lookup (PoolInv.swap h) hc
      refine Or.inr (Or.inl ⟨iter, r, hr3, hr2, hnt, ?_⟩)
      simp only [hr1, hr4, FrameInfo.IsEvicatable]
      by_cases he : r.evictable_ = true <;> simp [he]
    | none =>
      exact Or.inr (Or.inr ⟨hnt, PoolInv.absent (PoolInv.swap h) hc, rfl⟩)

/-- The pools after `Evict` returned a frame, on a state that satisfies the
invariant: the record of that frame is gone, nothing else changed. -/
theorem Evict_pools {s : LRUKReplacer} (h : ReplacerInv s) {f : Int}
    (hev : (Evict s).1 = some f) :
    (Evict s).2.temp_pool_ = s.temp_pool_.filter (fun n => !decide (n.2.frame_id_ = f)) ∧
    (Evict s).2.cache_pool_ = s.cache_pool_.filter (fun n => !decide (n.2.frame_id_ = f)) := by
  have hinv : PoolInv s.temp_pool_ s.cache_pool_ s.temp_map_ s.cache_map_ s.fresh_ := h
  have hdis := hinv.id_nodup
  rw [List.map_append, List.nodup_append] at hdis
  rcases Evict_cases s with ⟨g, pool, h1, h2⟩ | ⟨g, pool, _, h1, h2⟩ | ⟨_, _, h2⟩
  · rw [h2] at hev ⊢
    injection hev with hev
    subst hev
    obtain ⟨pre, n, post, e1, _, _, e4, _⟩ := evictScan_some h1
    have hmem : g ∈ s.temp_pool_.map (fun n => n.2.frame_id_) := by
      rw [e1, ← e4]
      exact List.mem_map_of_mem (fun m : Node => m.2.frame_id_)
        (List.mem_append_right pre (List.mem_cons_self n post))
    exact ⟨evictScan_filter hinv.pool_id_nodup h1,
      (filter_id_eq_self (fun hc => hdis.2.2 hmem hc)).symm⟩
  · rw [h2] at hev ⊢
    injection hev with hev
    subst hev
    obtain ⟨pre, n, post, e1, _, _, e4, _⟩ := evictScan_some h1
    have hmem : g ∈ s.cache_pool_.map (fun n => n.2.frame_id_) := by
      rw [e1, ← e4]
      exact List.mem_map_of_mem (fun m : Node => m.2.frame_id_)
        (List.mem_append_right pre (List.mem_cons_self n post))
    exact ⟨(filter_id_eq_self (fun hc => hdis.2.2 hc hmem)).symm,
      evictScan_filter hinv.swap.pool_id_nodup h1⟩
  · rw [h2] at hev
    cases hev

end Courses

/-! ## Replacer: facts of reachable states -/

section ReachableFacts

theorem RecordAccess_ok_range {s s' : LRUKReplacer} {f : Int}
    (h : RecordAccess s f = Result.ok s') : f ≤ castInt s.replacer_size_ := by
  by_contra hc
  unfold RecordAccess at h
  simp [hc] at h

theorem SetEvictable_ok_range {s s' : LRUKReplacer} {f : Int} {flag : Bool}
    (h : SetEvictable s f flag = Result.ok s') : f ≤ castInt s.replacer_size_ := by
  by_contra hc
  unfold SetEvictable at h
  simp [hc] at h

theorem mem_map_ite {f : Int} (g : FrameInfo → FrameInfo) {l : List Node} {x : Node}
    (hx : x ∈ l.map (fun n => if n.2.frame_id_ = f then (n.1, g n.2) else n)) :
    x ∈ l ∨ ∃ y ∈ l, y.2.frame_id_ = f ∧ x = (y.1, g y.2) := by
  obtain ⟨y, hy, hxy⟩ := List.mem_map.1 hx
  by_cases hf : y.2.frame_id_ = f
  · rw [if_pos hf] at hxy
    exact Or.inr ⟨y, hy, hf, hxy.symm⟩
  · rw [if_neg hf] at hxy
    rw [← hxy]
    exact Or.inl hy

theorem facts_recordAccess {num_frames k : Nat} {s s' : LRUKReplacer} {f : Int}
    (h : ReplacerFacts num_frames k s) (hacc : RecordAccess s f = Result.ok s') :
    ReplacerFacts num_frames k s' := by
  have hf := RecordAccess_ok_range hacc
  have hinv' := RecordAccess_inv h.inv hacc
  have hfr : f ≤ castInt num_frames := by rw [← h.size_eq]; exact hf
  have hk := h.k_eq
  rcases RecordAccess_cases h.inv f hf with ⟨a, r, h1, h2, _, h4⟩ | ⟨a, r, h1, h2, _, hkr, h4⟩ |
      ⟨a, r, h1, h2, _, hkr, h4⟩ | ⟨_, _, h4⟩
  · rw [h4] at hacc
    injection hacc with hacc
    subst hacc
    refine ⟨hinv', h.size_eq, h.k_eq, ?_, ?_, h.cold_counter⟩
    · intro n hn
      simp only [List.mem_append, List.mem_filter, List.mem_singleton] at hn
      rcases hn with hn | ⟨hn, _⟩ | hn
      · exact h.in_range n (List.mem_append_left _ hn)
      · exact h.in_range n (List.mem_append_right _ hn)
      · rw [hn]
        exact h.in_range (a, r) (List.mem_append_right _ h1)
    · intro n hn
      simp only [List.mem_append, List.mem_filter, List.mem_singleton] at hn
      rcases hn with ⟨hn, _⟩ | hn
      · exact h.hot_counter n hn
      · rw [hn]
        exact h.hot_counter (a, r) h1
  · rw [h4] at hacc
    injection hacc with hacc
    subst hacc
    refine ⟨hinv', h.size_eq, h.k_eq, ?_, ?_, ?_⟩
    · intro n hn
      simp only [List.mem_append, List.mem_filter, List.mem_singleton] at hn
      rcases hn with ⟨hn, _⟩ | hn | hn
      · exact h.in_range n (List.mem_append_left _ hn)
      · exact h.in_range n (List.mem_append_right _ hn)
      · rw [hn]
        exact h.in_range (a, r) (List.mem_append_left _ h1)
    · intro n hn
      simp only [List.mem_append, List.mem_singleton] at hn
      rcases hn with hn | hn
      · exact h.hot_counter n hn
      · rw [hn, ← hk]
        exact hkr
    · intro n hn
      exact h.cold_counter n (List.mem_filter.1 hn).1
  · rw [h4] at hacc
    injection hacc with hacc
    subst hacc
    refine ⟨hinv', h.size_eq, h.k_eq, ?_, h.hot_counter, ?_⟩
    · intro n hn
      simp only [List.mem_append] at hn
      rcases hn with hn | hn
      · rcases mem_map_ite FrameInfo.IncreaseTimes hn with hn | ⟨y, hy, _, hxy⟩
        · exact h.in_range n (List.mem_append_left _ hn)
        · rw [hxy]
          exact h.in_range y (List.mem_append_left _ hy)
      · exact h.in_range n (List.mem_append_right _ hn)
    · intro n hn
      rcases mem_map_ite FrameInfo.IncreaseTimes hn with hn | ⟨y, hy, hyf, hxy⟩
      · exact h.cold_counter n hn
      · have hy' : y = (a, r) :=
          List.inj_on_of_nodup_map (PoolInv.pool_id_nodup h.inv) hy h1 (hyf.trans h2.symm)
        rw [hxy, hy']
        left
        show r.times_ + 1 < k
        omega
  · rw [h4] at hacc
    injection hacc with hacc
    subst hacc
    refine ⟨hinv', h.size_eq, h.k_eq, ?_, h.hot_counter, ?_⟩
    · intro n hn
      simp only [List.mem_append, List.mem_singleton] at hn
      rcases hn with (hn | hn) | hn
      · exact h.in_range n (List.mem_append_left _ hn)
      · rw [hn]
        exact hfr
      · exact h.in_range n (List.mem_append_right _ hn)
    · intro n hn
      simp only [List.mem_append, List.mem_singleton] at hn
      rcases hn with hn | hn
      · exact h.cold_counter n hn
      · rw [hn]
        right
        rfl

theorem facts_setEvictable {num_frames k : Nat} {s s' : LRUKReplacer} {f : Int}
    {flag : Bool} (h : ReplacerFacts num_frames k s)
    (hset : SetEvictable s f flag = Result.ok s') : ReplacerFacts num_frames k s' := by
  have hf := SetEvictable_ok_range hset
  have hinv' := SetEvictable_inv h.inv hset
  rcases SetEvictable_cases h.inv f flag hf with ⟨_, _, h4⟩ | ⟨_, _, h4⟩ | ⟨_, _, h4⟩
  · rw [h4] at hset
    injection hset with hset
    subst hset
    refine ⟨hinv', h.size_eq, h.k_eq, ?_, h.hot_counter, ?_⟩
    · intro n hn
      simp only [List.mem_append] at hn
      rcases hn with hn | hn
      · rcases mem_map_ite (fun r => r.SetEvictable flag) hn with hn | ⟨y, hy, _, hxy⟩
        · exact h.in_range n (List.mem_append_left _ hn)
        · rw [hxy]
          exact h.in_range y (List.mem_append_left _ hy)
      · exact h.in_range n (List.mem_append_right _ hn)
    · intro n hn
      rcases mem_map_ite (fun r => r.SetEvictable flag) hn with hn | ⟨y, hy, _, hxy⟩
      · exact h.cold_counter n hn
      · rw [hxy]
        exact h.cold_counter y hy
  · rw [h4] at hset
    injection hset with hset
    subst hset
    refine ⟨hinv', h.size_eq, h.k_eq, ?_, ?_, h.cold_counter⟩
    · intro n hn
      simp only [List.mem_append] at hn
      rcases hn with hn | hn
      · exact h.in_range n (List.mem_append_left _ hn)
      · rcases mem_map_ite (fun r => r.SetEvictable flag) hn with hn | ⟨y, hy, _, hxy⟩
        · exact h.in_range n (List.mem_append_right _ hn)
        · rw [hxy]
          exact h.in_range y (List.mem_append_right _ hy)
    · intro n hn
      rcases mem_map_ite (fun r => r.SetEvictable flag) hn with hn | ⟨y, hy, _, hxy⟩
      · exact h.hot_counter n hn
      · rw [hxy]
        exact h.hot_counter y hy
  · rw [h4] at hset
    injection hset with hset
    subst hset
    exact h

/-- Facts are kept when records are only taken out of the pools. -/
theorem facts_shrink {num_frames k : Nat} {s s' : LRUKReplacer}
    (h : ReplacerFacts num_frames k s) (hinv : ReplacerInv s')
    (hsize : s'.replacer_size_ = s.replacer_size_) (hk : s'.k_ = s.k_)
    (ht : ∀ n ∈ s'.temp_pool_, n ∈ s.temp_pool_)
    (hc : ∀ n ∈ s'.cache_pool_, n ∈ s.cache_pool_) : ReplacerFacts num_frames k s' := by
  refine ⟨hinv, hsize.trans h.size_eq, hk.trans h.k_eq, ?_, fun n hn => h.hot_counter n (hc n hn),
    fun n hn => h.cold_counter n (ht n hn)⟩
  intro n hn
  rcases List.mem_append.1 hn with hn | hn
  · exact h.in_range n (List.mem_append_left _ (ht n hn))
  · exact h.in_range n (List.mem_append_right _ (hc n hn))

theorem facts_remove {num_frames k : Nat} {s s' : LRUKReplacer} {f : Int}
    (h : ReplacerFacts num_frames k s) (hrem : s.Remove f = Result.ok s') :
    ReplacerFacts num_frames k s' := by
  have hinv' := Remove_inv h.inv hrem
  rcases Remove_cases h.inv f with ⟨a, r, _, _, _, h4⟩ | ⟨a, r, _, _, _, h4⟩ | ⟨_, _, h4⟩
  · rw [h4] at hrem
    by_cases he : r.evictable_ = true
    · rw [if_pos he] at hrem
      injection hrem with hrem
      subst hrem
      exact facts_shrink h hinv' rfl rfl (fun n hn => (List.mem_filter.1 hn).1) (fun n hn => hn)
    · rw [if_neg he] at hrem
      cases hrem
  · rw [h4] at hrem
    by_cases he : r.evictable_ = true
    · rw [if_pos he] at hrem
      injection hrem with hrem
      subst hrem
      exact facts_shrink h hinv' rfl rfl (fun n hn => hn) (fun n hn => (List.mem_filter.1 hn).1)
    · rw [if_neg he] at hrem
      cases hrem
  · rw [h4] at hrem
    injection hrem with hrem
    subst hrem
    exact h

theorem facts_evict {num_frames k : Nat} {s : LRUKReplacer}
    (h : ReplacerFacts num_frames k s) : ReplacerFacts num_frames k (Evict s).2 := by
  have hinv' := Evict_inv h.inv
  rcases Evict_cases s with ⟨g, pool, h1, h2⟩ | ⟨g, pool, _, h1, h2⟩ | ⟨_, _, h2⟩
  · have hp := (Evict_pools h.inv (by rw [h2])).1
    rw [h2] at hinv' hp ⊢
    exact facts_shrink h hinv' rfl rfl (fun n hn => by
      rw [hp] at hn
      exact (List.mem_filter.1 hn).1) (fun n hn => hn)
  · have hp := (Evict_pools h.inv (by rw [h2])).2
    rw [h2] at hinv' hp ⊢
    exact facts_shrink h hinv' rfl rfl (fun n hn => hn) (fun n hn => by
      rw [hp] at hn
      exact (List.mem_filter.1 hn).1)
  · rw [h2]
    exact h

theorem LRUKReplacer.Reachable.facts {num_frames k : Nat} {s : LRUKReplacer}
    (h : s.Reachable num_frames k) : ReplacerFacts num_frames k s := by
  induction h with
  | new =>
    exact ⟨replacerInv_new num_frames k, rfl, rfl, by simp [LRUKReplacer.new],
      by simp [LRUKReplacer.new], by simp [LRUKReplacer.new]⟩
  | recordAccess _ hacc ih => exact facts_recordAccess ih hacc
  | setEvictable _ hset ih => exact facts_setEvictable ih hset
  | remove _ hrem ih => exact facts_remove ih hrem
  | evict _ ih => exact facts_evict ih

end ReachableFacts

/-! ## Replacer: contracts of `SetEvictable`, `Remove` and `RecordAccess` -/

section ReplacerContracts

theorem map_ite_eq_self {f : Int} (g : FrameInfo → FrameInfo) {l : List Node}
    (h : f ∉ l.map (fun n => n.2.frame_id_)) :
    l.map (fun n => if n.2.frame_id_ = f then (n.1, g n.2) else n) = l := by
  conv_rhs => rw [← List.map_id l]
  apply List.map_congr_left
  intro x hx
  have : x.2.frame_id_ ≠ f := fun hc =>
    h (hc ▸ List.mem_map_of_mem (fun n : Node => n.2.frame_id_) hx)
  simp [this]

theorem not_mem_ids_append {f : Int} {l1 l2 : List Node}
    (h : f ∉ (l1 ++ l2).map (fun n => n.2.frame_id_)) :
    f ∉ l1.map (fun n => n.2.frame_id_) ∧ f ∉ l2.map (fun n => n.2.frame_id_) := by
  rw [List.map_append, List.mem_append] at h
  exact ⟨fun hc => h (Or.inl hc), fun hc => h (Or.inr hc)⟩

theorem scenarioPromoted_reachable : scenarioPromoted.Reachable 7 2 :=
  @LRUKReplacer.Reachable.recordAccess 7 2 (Evict scenarioCold).2 scenarioPromoted 2
    (LRUKReplacer.Reachable.evict scenarioCold_reachable) (by decide)

/-- C11, as stated, fails: on a new replacer for 7 frames, `SetEvictable(8, true)`
for the untracked frame id 8 does not complete: the range assertion at the top
of `SetEvictable` fails before the frame is looked up. -/
theorem setEvictable_untracked_counterexample :
    (8 : Int) ∉ ((LRUKReplacer.new 7 2).temp_pool_ ++ (LRUKReplacer.new 7 2).cache_pool_).map
        (fun n => n.2.frame_id_) ∧
      SetEvictable (LRUKReplacer.new 7 2) 8 true =
        Result.fault Fault.assertion (LRUKReplacer.new 7 2) := by
  refine ⟨by decide, by decide⟩

/-- C11 (amended). On a replacer state reachable from
`LRUKReplacer(num_frames, k)`: for a frame id that is in neither the cold nor
the hot set and passes the range assertion `frame_id <= (int)num_frames`,
`SetEvictable` returns and leaves the state unchanged; for a tracked frame id
it returns and changes only the evictable flag of that frame's record: both
pools keep their nodes, their order and the counters, and the maps are
unchanged. -/
theorem setEvictable_contract (num_frames k : Nat) (s : LRUKReplacer) (f : Int) (flag : Bool)
    (hr : s.Reachable num_frames k) :
    (f ∉ (s.temp_pool_ ++ s.cache_pool_).map (fun n => n.2.frame_id_) →
      f ≤ castInt num_frames → SetEvictable s f flag = Result.ok s) ∧
    (f ∈ (s.temp_pool_ ++ s.cache_pool_).map (fun n => n.2.frame_id_) →
      SetEvictable s f flag = Result.ok { s with
        temp_pool_ := s.temp_pool_.map (fun n =>
          if n.2.frame_id_ = f then (n.1, { n.2 with evictable_ := flag }) else n)
        cache_pool_ := s.cache_pool_.map (fun n =>
          if n.2.frame_id_ = f then (n.1, { n.2 with evictable_ := flag }) else n) }) := by
  have hfacts := hr.facts
  constructor
  · intro hnot hf
    rw [← hfacts.size_eq] at hf
    obtain ⟨h1, h2⟩ := not_mem_ids_append hnot
    rcases SetEvictable_cases hfacts.inv f flag hf with ⟨h3, _, _⟩ | ⟨_, h3, _⟩ | ⟨_, _, h3⟩
    · exact absurd h3 h1
    · exact absurd h3 h2
    · exact h3
  · intro hmem
    obtain ⟨n, hn, hnf⟩ := List.mem_map.1 hmem
    have hf : f ≤ castInt s.replacer_size_ := by
      rw [hfacts.size_eq, ← hnf]
      exact hfacts.in_range n hn
    rcases SetEvictable_cases hfacts.inv f flag hf with ⟨_, h2, h3⟩ | ⟨h1, _, h3⟩ | ⟨h1, h2, _⟩
    · rw [h3, map_ite_eq_self (fun r => { r with evictable_ := flag }) h2]
      rfl
    · rw [h3, map_ite_eq_self (fun r => { r with evictable_ := flag }) h1]
      rfl
    · rw [List.map_append, List.mem_append] at hmem
      rcases hmem with hmem | hmem
      · exact absurd hmem h1
      · exact absurd hmem h2

theorem setEvictable_contract_witness :
    scenarioPromoted.Reachable 7 2 ∧
      (5 : Int) ∉ (scenarioPromoted.temp_pool_ ++ scenarioPromoted.cache_pool_).map
        (fun n => n.2.frame_id_) ∧
      (5 : Int) ≤ castInt 7 ∧
      SetEvictable scenarioPromoted 5 false = Result.ok scenarioPromoted ∧
      (2 : Int) ∈ (scenarioPromoted.temp_pool_ ++ scenarioPromoted.cache_pool_).map
        (fun n => n.2.frame_id_) ∧
      SetEvictable scenarioPromoted 2 false = Result.ok { scenarioPromoted with
        temp_pool_ := scenarioPromoted.temp_pool_.map (fun n =>
          if n.2.frame_id_ = 2 then (n.1, { n.2 with evictable_ := false }) else n)
        cache_pool_ := scenarioPromoted.cache_pool_.map (fun n =>
          if n.2.frame_id_ = 2 then (n.1, { n.2 with evictable_ := false }) else n) } :=
  ⟨scenarioPromoted_reachable, by decide, by decide,
    (setEvictable_contract 7 2 scenarioPromoted 5 false scenarioPromoted_reachable).1
      (by decide) (by decide),
    by decide,
    (setEvictable_contract 7 2 scenarioPromoted 2 false scenarioPromoted_reachable).2
      (by decide)⟩

theorem filter_id_split {pre post : List Node} {n : Node} {f : Int}
    (hnd : ((pre ++ n :: post).map (fun n => n.2.frame_id_)).Nodup) (hf : n.2.frame_id_ = f) :
    (pre ++ n :: post).filter (fun m => !decide (m.2.frame_id_ = f)) = pre ++ post := by
  rw [List.map_append, List.map_cons] at hnd
  have hnot : ∀ m ∈ pre ++ post, m.2.frame_id_ ≠ f := by
    intro m hm hc
    have hmid : m.2.frame_id_ ∈ pre.map (fun n => n.2.frame_id_) ++
        post.map (fun n => n.2.frame_id_) := by
      rw [← List.map_append]
      exact List.mem_map_of_mem (fun n : Node => n.2.frame_id_) hm
    have := (List.nodup_cons.1 (List.nodup_middle.1 hnd)).1
    rw [hc, ← hf] at hmid
    exact this hmid
  rw [List.filter_append, List.filter_cons_of_neg (by simp [hf]), ← List.filter_append,
    List.filter_eq_self]
  intro m hm
  simpa using hnot m hm

theorem size_filter_pool {l : List Node} {n : Node} {f : Int}
    (hnd : (l.map (fun n => n.2.frame_id_)).Nodup) (hn : n ∈ l) (hf : n.2.frame_id_ = f)
    (he : n.2.evictable_ = true) :
    ((l.filter (fun m => !decide (m.2.frame_id_ = f))).filter
        (fun m => m.2.IsEvicatable)).length + 1 =
      (l.filter (fun m => m.2.IsEvicatable)).length := by
  obtain ⟨pre, post, hl⟩ := List.append_of_mem hn
  subst hl
  rw [filter_id_split hnd hf, List.filter_append, List.filter_append,
    List.filter_cons_of_pos (by simpa [FrameInfo.IsEvicatable] using he)]
  simp only [List.length_append, List.length_cons]
  omega

/-- C12. Contract of the replacer's `Remove` on a reachable state: (i) for an
untracked frame it returns and leaves the state unchanged; (ii) for a tracked
frame whose record is evictable it returns, both sets are the sets before the
call without the record of that frame (every other record keeps its set, order,
counter and flag), and `Size()` is lower by one; (iii) for a tracked frame whose
record is not evictable the call ends in the assertion failure, and the
replacer object is then still in the state it had before the call: nothing has
been erased when the assertion fires. -/
theorem replacer_remove_contract (num_frames k : Nat) (s : LRUKReplacer) (f : Int)
    (hr : s.Reachable num_frames k) :
    (f ∉ (s.temp_pool_ ++ s.cache_pool_).map (fun n => n.2.frame_id_) →
      s.Remove f = Result.ok s) ∧
    (∀ n ∈ s.temp_pool_ ++ s.cache_pool_, n.2.frame_id_ = f → n.2.evictable_ = true →
      ∃ s', s.Remove f = Result.ok s' ∧
        s'.temp_pool_ = s.temp_pool_.filter (fun m => !decide (m.2.frame_id_ = f)) ∧
        s'.cache_pool_ = s.cache_pool_.filter (fun m => !decide (m.2.frame_id_ = f)) ∧
        Size s' + 1 = Size s) ∧
    (∀ n ∈ s.temp_pool_ ++ s.cache_pool_, n.2.frame_id_ = f → n.2.evictable_ = false →
      s.Remove f = Result.fault Fault.assertion s) := by
  have hinv : PoolInv s.temp_pool_ s.cache_pool_ s.temp_map_ s.cache_map_ s.fresh_ := hr.inv
  have hsame : ∀ n ∈ s.temp_pool_ ++ s.cache_pool_, ∀ m ∈ s.temp_pool_ ++ s.cache_pool_,
      n.2.frame_id_ = f → m.2.frame_id_ = f → n = m := fun n hn m hm h1 h2 =>
    List.inj_on_of_nodup_map hinv.id_nodup hn hm (h1.trans h2.symm)
  refine ⟨?_, ?_, ?_⟩
  · intro hnot
    obtain ⟨h1, h2⟩ := not_mem_ids_append hnot
    rcases Remove_cases hr.inv f with ⟨a, r, h3, h4, _⟩ | ⟨a, r, h3, h4, _⟩ | ⟨_, _, h3⟩
    · exact absurd (List.mem_map.2 ⟨(a, r), h3, h4⟩) h1
    · exact absurd (List.mem_map.2 ⟨(a, r), h3, h4⟩) h2
    · exact h3
  · intro n hn hnf hne
    rcases Remove_cases hr.inv f with ⟨a, r, h3, h4, h5, h6⟩ | ⟨a, r, h3, h4, h5, h6⟩ |
        ⟨h1, h2, _⟩
    · have hnr : n = (a, r) := hsame n hn (a, r) (List.mem_append_left _ h3) hnf h4
      have her : r.evictable_ = true := by rw [hnr] at hne; exact hne
      rw [if_pos her] at h6
      refine ⟨_, h6, rfl, (filter_id_eq_self h5).symm, ?_⟩
      have := @size_filter_pool s.temp_pool_ (a, r) f hinv.pool_id_nodup h3 h4 her
      unfold Size
      simp only []
      omega
    · have hnr : n = (a, r) := hsame n hn (a, r) (List.mem_append_right _ h3) hnf h4
      have her : r.evictable_ = true := by rw [hnr] at hne; exact hne
      rw [if_pos her] at h6
      refine ⟨_, h6, (filter_id_eq_self h5).symm, rfl, ?_⟩
      have := @size_filter_pool s.cache_pool_ (a, r) f hinv.swap.pool_id_nodup h3 h4 her
      unfold Size
      simp only []
      omega
    · rcases List.mem_append.1 hn with hn | hn
      · exact absurd (List.mem_map.2 ⟨n, hn, hnf⟩) h1
      · exact absurd (List.mem_map.2 ⟨n, hn, hnf⟩) h2
  · intro n hn hnf hne
    rcases Remove_cases hr.inv f with ⟨a, r, h3, h4, h5, h6⟩ | ⟨a, r, h3, h4, h5, h6⟩ |
        ⟨h1, h2, _⟩
    · have hnr : n = (a, r) := hsame n hn (a, r) (List.mem_append_left _ h3) hnf h4
      have her : ¬ r.evictable_ = true := by
        rw [hnr] at hne
        have hfalse : r.evictable_ = false := hne
        simp [hfalse]
      rw [if_neg her] at h6
      exact h6
    · have hnr : n = (a, r) := hsame n hn (a, r) (List.mem_append_right _ h3) hnf h4
      have her : ¬ r.evictable_ = true := by
        rw [hnr] at hne
        have hfalse : r.evictable_ = false := hne
        simp [hfalse]
      rw [if_neg her] at h6
      exact h6
    · rcases List.mem_append.1 hn with hn | hn
      · exact absurd (List.mem_map.2 ⟨n, hn, hnf⟩) h1
      · exact absurd (List.mem_map.2 ⟨n, hn, hnf⟩) h2

theorem examplePinned_reachable : examplePinned.Reachable 7 2 :=
  @LRUKReplacer.Reachable.setEvictable 7 2
    { examplePinned with
      cache_pool_ := [(2, { frame_id_ := 3, times_ := 2, evictable_ := true })] }
    examplePinned 3 false
    (@LRUKReplacer.Reachable.setEvictable 7 2
      { examplePinned with
        temp_pool_ := [(0, { frame_id_ := 1, times_ := 1, evictable_ := true })]
        cache_pool_ := [(2, { frame_id_ := 3, times_ := 2, evictable_ := true })] }
      { examplePinned with
        cache_pool_ := [(2, { frame_id_ := 3, times_ := 2, evictable_ := true })] }
      1 false
      (accessAll_reachable [1, 3, 3] LRUKReplacer.Reachable.new (by decide)) (by decide))
    (by decide)

theorem replacer_remove_contract_witness :
    scenarioPromoted.Reachable 7 2 ∧
      (5 : Int) ∉ (scenarioPromoted.temp_pool_ ++ scenarioPromoted.cache_pool_).map
        (fun n => n.2.frame_id_) ∧
      scenarioPromoted.Remove 5 = Result.ok scenarioPromoted ∧
      (∃ s', scenarioPromoted.Remove 2 = Result.ok s' ∧
        s'.temp_pool_ = scenarioPromoted.temp_pool_.filter
          (fun m => !decide (m.2.frame_id_ = 2)) ∧
        s'.cache_pool_ = scenarioPromoted.cache_pool_.filter
          (fun m => !decide (m.2.frame_id_ = 2)) ∧
        Size s' + 1 = Size scenarioPromoted) ∧
      examplePinned.Reachable 7 2 ∧
      examplePinned.Remove 1 = Result.fault Fault.assertion examplePinned ∧
      examplePinned.Remove 3 = Result.fault Fault.assertion examplePinned :=
  ⟨scenarioPromoted_reachable, by decide,
    (replacer_remove_contract 7 2 scenarioPromoted 5 scenarioPromoted_reachable).1 (by decide),
    (replacer_remove_contract 7 2 scenarioPromoted 2 scenarioPromoted_reachable).2.1
      (3, { frame_id_ := 2, times_ := 2, evictable_ := true }) (by decide) rfl rfl,
    examplePinned_reachable,
    (replacer_remove_contract 7 2 examplePinned 1 examplePinned_reachable).2.2
      (0, { frame_id_ := 1, times_ := 1, evictable_ := false }) (by decide) rfl rfl,
    (replacer_remove_contract 7 2 examplePinned 3 examplePinned_reachable).2.2
      (2, { frame_id_ := 3, times_ := 2, evictable_ := false }) (by decide) rfl rfl⟩

/-- C13, as stated, fails: on a new replacer for 7 frames `RecordAccess(7)` and
`RecordAccess(-1)` return normally and start tracking the frame, although 7 and
-1 are outside the range `0 <= frame_id < 7`. -/
theorem recordAccess_range_counterexample :
    RecordAccess (LRUKReplacer.new 7 2) 7 = Result.ok
        { replacer_size_ := 7, k_ := 2,
          temp_pool_ := [(0, { frame_id_ := 7, times_ := 1, evictable_ := true })],
          temp_map_ := [(7, 0)], cache_pool_ := [], cache_map_ := [], fresh_ := 1 } ∧
      RecordAccess (LRUKReplacer.new 7 2) (-1) = Result.ok
        { replacer_size_ := 7, k_ := 2,
          temp_pool_ := [(0, { frame_id_ := -1, times_ := 1, evictable_ := true })],
          temp_map_ := [(-1, 0)], cache_pool_ := [], cache_map_ := [], fresh_ := 1 } := by
  refine ⟨by decide, by decide⟩

theorem castInt_of_lt {n : Nat} (h : n < 2 ^ 31) : castInt n = (n : Int) := by
  unfold castInt
  have h1 : n % 2 ^ 32 = n := Nat.mod_eq_of_lt (by omega)
  rw [h1, if_pos h]

/-- C13 (amended). On a replacer state reachable from
`LRUKReplacer(num_frames, k)`, `RecordAccess(frame_id)` triggers the range
assertion if and only if `frame_id > (int)num_frames`; every
`frame_id <= (int)num_frames`, in particular `frame_id = num_frames` and every
negative id, is accepted and the call returns. For `num_frames < 2^31` the cast
`(int)num_frames` is `num_frames` itself. -/
theorem recordAccess_range_check (num_frames k : Nat) (s : LRUKReplacer) (f : Int)
    (hr : s.Reachable num_frames k) :
    (RecordAccess s f = Result.fault Fault.assertion s ↔ castInt num_frames < f) ∧
      (f ≤ castInt num_frames → ∃ s', RecordAccess s f = Result.ok s') ∧
      (num_frames < 2 ^ 31 → castInt num_frames = (num_frames : Int)) := by
  have hfacts := hr.facts
  have hok : f ≤ castInt num_frames → ∃ s', RecordAccess s f = Result.ok s' := by
    intro hf
    rw [← hfacts.size_eq] at hf
    rcases RecordAccess_cases hfacts.inv f hf with ⟨_, _, _, _, _, h⟩ | ⟨_, _, _, _, _, _, h⟩ |
        ⟨_, _, _, _, _, _, h⟩ | ⟨_, _, h⟩ <;> exact ⟨_, h⟩
  refine ⟨?_, hok, castInt_of_lt⟩
  constructor
  · intro hfault
    by_contra hc
    obtain ⟨s', hs'⟩ := hok (by omega)
    rw [hs'] at hfault
    cases hfault
  · intro hlt
    unfold RecordAccess
    rw [hfacts.size_eq, if_pos (by omega)]

theorem recordAccess_range_check_witness :
    scenarioCold.Reachable 7 2 ∧
      (RecordAccess scenarioCold 8 = Result.fault Fault.assertion scenarioCold ↔
        castInt 7 < (8 : Int)) ∧
      ((7 : Int) ≤ castInt 7 → ∃ s', RecordAccess scenarioCold 7 = Result.ok s') :=
  ⟨scenarioCold_reachable,
    (recordAccess_range_check 7 2 scenarioCold 8 scenarioCold_reachable).1,
    (recordAccess_range_check 7 2 scenarioCold 7 scenarioCold_reachable).2.1⟩

end ReplacerContracts

/-! ## Replacer: `RecordAccess` against its reference definition -/

section AccessReference

theorem find_records_none {f : Int} {l : List Node}
    (h : f ∉ l.map (fun n => n.2.frame_id_)) :
    (records l).find? (fun q => decide (q.frame_id_ = f)) = none := by
  rw [List.find?_eq_none]
  intro q hq
  obtain ⟨n, hn, hnq⟩ := List.mem_map.1 hq
  have : n.2.frame_id_ ≠ f := fun hc =>
    h (hc ▸ List.mem_map_of_mem (fun n : Node => n.2.frame_id_) hn)
  rw [← hnq]
  simpa using this

theorem find_records_some {f : Int} {a : Nat} {r : FrameInfo} {l : List Node}
    (hni : (l.map (fun n => n.2.frame_id_)).Nodup) (hm : (a, r) ∈ l) (hr : r.frame_id_ = f) :
    (records l).find? (fun q => decide (q.frame_id_ = f)) = some r := by
  induction l with
  | nil => cases hm
  | cons n rest ih =>
    obtain ⟨b, q⟩ := n
    simp only [List.map_cons, List.nodup_cons] at hni
    by_cases hq : q.frame_id_ = f
    · have : (b, q) = (a, r) := by
        rcases List.mem_cons.1 hm with hm | hm
        · exact hm.symm
        · exfalso
          apply hni.1
          rw [hq, ← hr]
          exact List.mem_map_of_mem (fun n : Node => n.2.frame_id_) hm
      injection this with _ h2
      subst h2
      simp [records, List.find?, hq]
    · have hm' : (a, r) ∈ rest := by
        rcases List.mem_cons.1 hm with hm | hm
        · injection hm with _ h2
          rw [h2] at hr
          exact absurd hr hq
        · exact hm
      have := ih hni.2 hm'
      simp only [records] at this
      simp [records, List.find?, hq, this]

theorem records_filter (f : Int) (l : List Node) :
    records (l.filter (fun n => !decide (n.2.frame_id_ = f))) =
      (records l).filter (fun q => !decide (q.frame_id_ = f)) := by
  unfold records
  rw [List.filter_map]
  rfl

theorem records_map_ite (f : Int) (g : FrameInfo → FrameInfo) (l : List Node) :
    records (l.map (fun n => if n.2.frame_id_ = f then (n.1, g n.2) else n)) =
      (records l).map (fun q => if q.frame_id_ = f then g q else q) := by
  unfold records
  rw [List.map_map, List.map_map]
  apply List.map_congr_left
  intro n _
  by_cases hn : n.2.frame_id_ = f <;> simp [hn]

/-- C18. `RecordAccess` equals its three-case reference definition: on a
reachable replacer state and for a frame id that passes the range assertion,
`RecordAccess` returns, and the records of the cold and the hot set afterwards
are those that `recordAccessSpec` computes from the records before: (hot) the
record moves to the back of the hot set with counter and flag unchanged; (cold)
the counter increases by one and the record is promoted to the back of the hot
set if the new counter reaches `k`, otherwise it keeps its position; (new) a
record with counter 1 and evictable flag set is appended to the cold set; all
other records keep their set, order, counter and flag. For `k >= 2` the
promotion happens exactly when the new counter equals `k`. -/
theorem recordAccess_refines_spec (num_frames k : Nat) (s : LRUKReplacer) (f : Int)
    (hr : s.Reachable num_frames k) (hf : f ≤ castInt num_frames) :
    (∃ s', RecordAccess s f = Result.ok s' ∧
      (records s'.temp_pool_, records s'.cache_pool_) =
        recordAccessSpec k (records s.temp_pool_) (records s.cache_pool_) f ∧
      s'.k_ = k ∧ s'.replacer_size_ = num_frames) ∧
    (2 ≤ k → ∀ r ∈ records s.temp_pool_, (k ≤ r.times_ + 1 ↔ r.times_ + 1 = k)) := by
  have hfacts := hr.facts
  have hinv : PoolInv s.temp_pool_ s.cache_pool_ s.temp_map_ s.cache_map_ s.fresh_ := hfacts.inv
  have hk := hfacts.k_eq
  constructor
  · rw [← hfacts.size_eq] at hf
    rcases RecordAccess_cases hfacts.inv f hf with ⟨a, r, h1, h2, h3, h4⟩ |
        ⟨a, r, h1, h2, h3, hkr, h4⟩ | ⟨a, r, h1, h2, h3, hkr, h4⟩ | ⟨h1, h2, h4⟩
    · refine ⟨_, h4, ?_, hk, hfacts.size_eq⟩
      have hspec : recordAccessSpec k (records s.temp_pool_) (records s.cache_pool_) f =
          (records s.temp_pool_,
            (records s.cache_pool_).filter (fun q => !decide (q.frame_id_ = f)) ++ [r]) := by
        unfold recordAccessSpec
        rw [find_records_some hinv.swap.pool_id_nodup h1 h2]
      rw [hspec, ← records_filter]
      simp [records]
    · refine ⟨_, h4, ?_, hk, hfacts.size_eq⟩
      have hspec : recordAccessSpec k (records s.temp_pool_) (records s.cache_pool_) f =
          ((records s.temp_pool_).filter (fun q => !decide (q.frame_id_ = f)),
            records s.cache_pool_ ++ [{ r with times_ := r.times_ + 1 }]) := by
        unfold recordAccessSpec
        rw [find_records_none h3, find_records_some hinv.pool_id_nodup h1 h2]
        simp only []
        rw [if_pos (by rw [← hk]; exact hkr)]
      rw [hspec, ← records_filter]
      simp [records, FrameInfo.IncreaseTimes]
    · refine ⟨_, h4, ?_, hk, hfacts.size_eq⟩
      have hspec : recordAccessSpec k (records s.temp_pool_) (records s.cache_pool_) f =
          ((records s.temp_pool_).map (fun q =>
              if q.frame_id_ = f then { q with times_ := q.times_ + 1 } else q),
            records s.cache_pool_) := by
        unfold recordAccessSpec
        rw [find_records_none h3, find_records_some hinv.pool_id_nodup h1 h2]
        simp only []
        rw [if_neg (by rw [← hk]; exact hkr)]
      rw [hspec, ← records_map_ite f (fun q => { q with times_ := q.times_ + 1 })]
      rfl
    · refine ⟨_, h4, ?_, hk, hfacts.size_eq⟩
      have hspec : recordAccessSpec k (records s.temp_pool_) (records s.cache_pool_) f =
          (records s.temp_pool_ ++ [{ frame_id_ := f, times_ := 1, evictable_ := true }],
            records s.cache_pool_) := by
        unfold recordAccessSpec
        rw [find_records_none h2, find_records_none h1]
      rw [hspec]
      simp [records, FrameInfo.IncreaseTimes, FrameInfo.new]
  · intro h2k r hr'
    obtain ⟨n, hn, hnr⟩ := List.mem_map.1 hr'
    have := hfacts.cold_counter n hn
    rw [hnr] at this
    omega

theorem recordAccess_refines_spec_witness :
    scenarioCold.Reachable 7 2 ∧ (2 : Int) ≤ castInt 7 ∧
      ∃ s', RecordAccess scenarioCold 2 = Result.ok s' ∧
        (records s'.temp_pool_, records s'.cache_pool_) =
          recordAccessSpec 2 (records scenarioCold.temp_pool_)
            (records scenarioCold.cache_pool_) 2 ∧
        s'.k_ = 2 ∧ s'.replacer_size_ = 7 :=
  ⟨scenarioCold_reachable, by decide,
    (recordAccess_refines_spec 7 2 scenarioCold 2 scenarioCold_reachable (by decide)).1⟩

end AccessReference

/-! ## Replacer: counters and tracking in reachable states -/

section Tracking

theorem scenarioFirstAccess_reachable : scenarioFirstAccess.Reachable 7 1 :=
  accessAll_reachable [1] LRUKReplacer.Reachable.new (by decide)

/-- C19 on the code. With `k = 1` the state after the single call
`RecordAccess(1)` on a new replacer is reachable and its cold set holds a record
whose counter 1 is not below `k`: the first-access path of `RecordAccess` does
not compare the counter with `k`. The rest of the invariant holds: in every
reachable state every hot record has counter at least `k`, and for `k >= 2`
every cold record has counter below `k`. -/
theorem cold_counter_fails_for_k_one :
    scenarioFirstAccess.Reachable 7 1 ∧
      (∃ n ∈ scenarioFirstAccess.temp_pool_, ¬ n.2.times_ < 1) ∧
      (∀ (num_frames k : Nat) (s : LRUKReplacer), s.Reachable num_frames k →
        (∀ n ∈ s.cache_pool_, k ≤ n.2.times_) ∧
        (2 ≤ k → ∀ n ∈ s.temp_pool_, n.2.times_ < k)) := by
  refine ⟨scenarioFirstAccess_reachable, by decide, ?_⟩
  intro num_frames k s hr
  have hfacts := hr.facts
  refine ⟨hfacts.hot_counter, ?_⟩
  intro hk n hn
  have := hfacts.cold_counter n hn
  omega

theorem mapFind_some_iff_mem (f : Int) (m : IterMap) :
    (∃ a, mapFind f m = some a) ↔ f ∈ m.map Prod.fst := by
  induction m with
  | nil => simp [mapFind]
  | cons e rest ih =>
    obtain ⟨k, a⟩ := e
    by_cases hk : k = f
    · simp [mapFind, hk]
    · simp only [mapFind, hk, if_false, ih, List.map_cons, List.mem_cons]
      constructor
      · exact Or.inr
      · rintro (h | h)
        · exact absurd h.symm hk
        · exact h

theorem PoolInv.keys_iff {pool other : List Node} {map omap : IterMap} {fresh : Nat}
    (h : PoolInv pool other map omap fresh) (f : Int) :
    f ∈ map.map Prod.fst ↔ f ∈ pool.map (fun n => n.2.frame_id_) := by
  rw [← mapFind_some_iff_mem]
  constructor
  · rintro ⟨a, ha⟩
    obtain ⟨r, hr, hrf⟩ := (h.map_spec f a).1 ha
    exact List.mem_map.2 ⟨(a, r), hr, hrf⟩
  · intro hf
    obtain ⟨n, hn, hnf⟩ := List.mem_map.1 hf
    exact ⟨n.1, (h.map_spec f n.1).2 ⟨n.2, hn, hnf⟩⟩

theorem ids_map_ite (f : Int) (g : FrameInfo → FrameInfo)
    (hg : ∀ r, (g r).frame_id_ = r.frame_id_) (l : List Node) :
    (l.map (fun n => if n.2.frame_id_ = f then (n.1, g n.2) else n)).map
        (fun n => n.2.frame_id_) = l.map (fun n => n.2.frame_id_) := by
  rw [List.map_map]
  apply List.map_congr_left
  intro n _
  by_cases hn : n.2.frame_id_ = f <;> simp [hn, hg]

theorem mem_ids_filter_of_ne {f g : Int} {l : List Node} (hne : g ≠ f)
    (h : f ∈ l.map (fun n => n.2.frame_id_)) :
    f ∈ (l.filter (fun n => !decide (n.2.frame_id_ = g))).map (fun n => n.2.frame_id_) := by
  obtain ⟨n, hn, hnf⟩ := List.mem_map.1 h
  refine List.mem_map.2 ⟨n, List.mem_filter.2 ⟨hn, ?_⟩, hnf⟩
  have : n.2.frame_id_ ≠ g := by rw [hnf]; exact Ne.symm hne
  simpa using this

/-- C20. Tracking invariant: in every replacer state reachable from a new
replacer by `RecordAccess`, `SetEvictable`, `Remove` and `Evict`, each frame id
occurs at most once in the cold and the hot set together; the keys of the cold
index map are exactly the frame ids of the cold set and the keys of the hot
index map exactly those of the hot set, and each entry designates the node that
holds that frame's own record; and a frame of the hot set is still in the hot
set after every `RecordAccess`, every `SetEvictable`, every `Remove` of another
frame and every `Evict` that does not return it. -/
theorem tracking_invariant (num_frames k : Nat) (s : LRUKReplacer)
    (hr : s.Reachable num_frames k) :
    ((s.temp_pool_ ++ s.cache_pool_).map (fun n => n.2.frame_id_)).Nodup ∧
      (∀ f, f ∈ s.temp_map_.map Prod.fst ↔ f ∈ s.temp_pool_.map (fun n => n.2.frame_id_)) ∧
      (∀ f, f ∈ s.cache_map_.map Prod.fst ↔ f ∈ s.cache_pool_.map (fun n => n.2.frame_id_)) ∧
      (∀ f a, mapFind f s.temp_map_ = some a →
        ∃ r, nodeAt a s.temp_pool_ = some r ∧ r.frame_id_ = f) ∧
      (∀ f a, mapFind f s.cache_map_ = some a →
        ∃ r, nodeAt a s.cache_pool_ = some r ∧ r.frame_id_ = f) ∧
      (∀ f, f ∈ s.cache_pool_.map (fun n => n.2.frame_id_) →
        (∀ g s', RecordAccess s g = Result.ok s' →
          f ∈ s'.cache_pool_.map (fun n => n.2.frame_id_)) ∧
        (∀ g flag s', SetEvictable s g flag = Result.ok s' →
          f ∈ s'.cache_pool_.map (fun n => n.2.frame_id_)) ∧
        (∀ g s', g ≠ f → s.Remove g = Result.ok s' →
          f ∈ s'.cache_pool_.map (fun n => n.2.frame_id_)) ∧
        ((Evict s).1 ≠ some f →
          f ∈ (Evict s).2.cache_pool_.map (fun n => n.2.frame_id_))) := by
  have hinv : PoolInv s.temp_pool_ s.cache_pool_ s.temp_map_ s.cache_map_ s.fresh_ := hr.inv
  refine ⟨hinv.id_nodup, hinv.keys_iff, hinv.swap.keys_iff, ?_, ?_, ?_⟩
  · intro f a ha
    obtain ⟨r, h1, h2, _⟩ := hinv.lookup ha
    exact ⟨r, h1, h2⟩
  · intro f a ha
    obtain ⟨r, h1, h2, _⟩ := hinv.swap.lookup ha
    exact ⟨r, h1, h2⟩
  · intro f hf
    refine ⟨?_, ?_, ?_, ?_⟩
    · intro g s' hacc
      rcases RecordAccess_cases hr.inv g (RecordAccess_ok_range hacc) with
        ⟨a, r, h1, h2, _, h4⟩ | ⟨a, r, h1, h2, _, _, h4⟩ | ⟨a, r, h1, h2, _, _, h4⟩ | ⟨_, _, h4⟩
      · rw [h4] at hacc
        injection hacc with hacc
        subst hacc
        simp only [List.map_append, List.mem_append, List.map_cons, List.map_nil,
          List.mem_singleton]
        by_cases hgf : g = f
        · right
          rw [h2, hgf]
        · left
          exact mem_ids_filter_of_ne hgf hf
      · rw [h4] at hacc
        injection hacc with hacc
        subst hacc
        simp only [List.map_append, List.mem_append]
        exact Or.inl hf
      · rw [h4] at hacc
        injection hacc with hacc
        subst hacc
        exact hf
      · rw [h4] at hacc
        injection hacc with hacc
        subst hacc
        exact hf
    · intro g flag s' hset
      rcases SetEvictable_cases hr.inv g flag (SetEvictable_ok_range hset) with
        ⟨_, _, h4⟩ | ⟨_, _, h4⟩ | ⟨_, _, h4⟩
      · rw [h4] at hset
        injection hset with hset
        subst hset
        exact hf
      · rw [h4] at hset
        injection hset with hset
        subst hset
        simp only []
        rw [ids_map_ite g (fun r => r.SetEvictable flag) (fun r => rfl)]
        exact hf
      · rw [h4] at hset
        injection hset with hset
        subst hset
        exact hf
    · intro g s' hgf hrem
      rcases Remove_cases hr.inv g with ⟨a, r, _, _, _, h4⟩ | ⟨a, r, _, _, _, h4⟩ | ⟨_, _, h4⟩
      · rw [h4] at hrem
        by_cases he : r.evictable_ = true
        · rw [if_pos he] at hrem
          injection hrem with hrem
          subst hrem
          exact hf
        · rw [if_neg he] at hrem
          cases hrem
      · rw [h4] at hrem
        by_cases he : r.evictable_ = true
        · rw [if_pos he] at hrem
          injection hrem with hrem
          subst hrem
          exact mem_ids_filter_of_ne hgf hf
        · rw [if_neg he] at hrem
          cases hrem
      · rw [h4] at hrem
        injection hrem with hrem
        subst hrem
        exact hf
    · intro hne
      cases hev : (Evict s).1 with
      | none =>
        rcases Evict_cases s with ⟨g, pool, _, h2⟩ | ⟨g, pool, _, _, h2⟩ | ⟨_, _, h2⟩
        · rw [h2] at hev
          cases hev
        · rw [h2] at hev
          cases hev
        · rw [h2]
          exact hf
      | some g =>
        have hgf : g ≠ f := by
          intro hc
          apply hne
          rw [hev, hc]
        rw [(Evict_pools hr.inv hev).2]
        exact mem_ids_filter_of_ne hgf hf

theorem tracking_invariant_witness :
    scenarioPromoted.Reachable 7 2 ∧
      ((scenarioPromoted.temp_pool_ ++ scenarioPromoted.cache_pool_).map
        (fun n => n.2.frame_id_)).Nodup ∧
      (2 : Int) ∈ scenarioPromoted.cache_pool_.map (fun n => n.2.frame_id_) ∧
      (Evict scenarioPromoted).1 ≠ some 2 ∧
      (2 : Int) ∈ (Evict scenarioPromoted).2.cache_pool_.map (fun n => n.2.frame_id_) :=
  ⟨scenarioPromoted_reachable,
    (tracking_invariant 7 2 scenarioPromoted scenarioPromoted_reachable).1,
    by decide, by decide,
    ((tracking_invariant 7 2 scenarioPromoted scenarioPromoted_reachable).2.2.2.2.2 2
      (by decide)).2.2.2 (by decide)⟩

end Tracking

end bustub
